import Mathlib

/-!
# gostore: slab allocator, m-block builder, node metadata, bogn levels and llrb snapshots

A shallow embedding of parts of `prataprc/gostore`:

* `mem_arena.go`  : `SuitableSize`, `Blocksizes`, `newmemarena`, `memarena.alloc`
* `mem_pool.go`   : `newmempool`, `mempool.alloc`, `mempool.free`, `mempool.allocated`
* `metadata.go`   : the header and field setters and getters of `metadata`
* `bubt/build_mblock.go` : `newmblock`, `mblock.insert`, `mblock.finalize`, `mblock.backref`
* `bogn/bogn.go`  : `levelname`, `path2level`, `pickflushdisk`, `pickcompactdisks`,
  `mwmetadata`, `flushelapsed`, `buildlevels`, `opendisksnaps`, `readsettings`, `Delete`,
  `Close`
* `llrb/go_snapshot.go` : `newsnapshot`, `countreclaimnodes`, `min`, `Range`, `Iterate`,
  `validatestats`
* `api/util.go`   : `Binarycmp`

Conventions.  Go's `int` values are embedded as `Int`, addresses as `Nat`; the explicit
narrowing conversions of the m-block encoder (`uint16`, `uint32`, `uint64`) are kept as
reductions modulo `2 ^ 16`, `2 ^ 32`, `2 ^ 64`.  A Go panic is the `error` case of
`Except String`.  Bytes are natural numbers below 256.  `float64` arithmetic is embedded by
the type `F64` below (round to nearest, ties to even, on a 53 bit significand).  The
`uint64` header of `metadata` is a natural number with the bitwise operations of `Nat`;
the `int` sums of `nextsize` and the `int64` counters wrap with `wrap64`.
-/

namespace Gostore

/-! # Definitions -/

deriving instance DecidableEq for Except

/-! ## float64 -/

/-- The float64 values: finite `(-1)^neg * man * 2^exp`, the infinities and NaN.
Every finite value built by the operations below has `man < 2 ^ 53` or `man = 2 ^ 53`;
the exponent range of binary64 is not modelled (no operation on 64-bit integers and the
two constants of `Blocksizes` leaves the normal range). -/
inductive F64 where
  | fin (neg : Bool) (man : Nat) (exp : Int)
  | inf (neg : Bool)
  | nan
  deriving DecidableEq, Repr

namespace F64

/-- Helper for `ilog2`, with the recursion bounded by `fuel`. -/
def ilog2Aux : Nat → Nat → Nat
  | 0, _ => 0
  | fuel + 1, n => if 2 ≤ n then ilog2Aux fuel (n / 2) + 1 else 0

/-- Position of the highest set bit: `2 ^ ilog2 n ≤ n < 2 ^ (ilog2 n + 1)` for `0 < n`. -/
def ilog2 (n : Nat) : Nat := ilog2Aux n n

/-- Rounding of the exact value `m * 2 ^ e` to a 53 bit significand, to nearest, ties to
even. -/
def round (neg : Bool) (m : Nat) (e : Int) : F64 :=
  if m < 2 ^ 53 then fin neg m e
  else
    let k := ilog2 m - 52
    let q := m / 2 ^ k
    let r := m % 2 ^ k
    let half := 2 ^ (k - 1)
    if half < r ∨ (r = half ∧ q % 2 = 1) then fin neg (q + 1) (e + k) else fin neg q (e + k)

/-- Conversion `float64(x)` of an integer. -/
def ofInt (x : Int) : F64 := round (decide (x < 0)) x.natAbs 0

/-- Product `x * y` of two float64 values. -/
def mul : F64 → F64 → F64
  | fin a ma ea, fin b mb eb => round (xor a b) (ma * mb) (ea + eb)
  | fin a ma _, inf b => if ma = 0 then nan else inf (xor a b)
  | inf a, fin b mb _ => if mb = 0 then nan else inf (xor a b)
  | inf a, inf b => inf (xor a b)
  | _, _ => nan

/-- Quotient `x / y` of two float64 values.  The quotient of the significands is computed
with more than 64 bits and a sticky bit, then rounded once. -/
def div : F64 → F64 → F64
  | fin a ma ea, fin b mb eb =>
    if mb = 0 then (if ma = 0 then nan else inf (xor a b))
    else if ma = 0 then fin (xor a b) 0 0
    else
      let s := ilog2 mb + 64
      let n := ma * 2 ^ s
      let q := n / mb
      let sticky := if n % mb = 0 then 0 else 1
      round (xor a b) (2 * q + sticky) (ea - eb - s - 1)
  | fin a _ _, inf b => fin (xor a b) 0 0
  | inf a, fin b _ _ => inf (xor a b)
  | _, _ => nan

/-- The signed significand of a finite value rescaled to an exponent `e` not above its
own. -/
def scaled (neg : Bool) (m : Nat) (ex e : Int) : Int :=
  if neg then -((m : Int) * 2 ^ (ex - e).toNat) else (m : Int) * 2 ^ (ex - e).toNat

/-- Comparison `x > y` of two float64 values. -/
def gt : F64 → F64 → Bool
  | fin a ma ea, fin b mb eb =>
    decide (scaled b mb eb (min ea eb) < scaled a ma ea (min ea eb))
  | fin _ _ _, inf b => b
  | inf a, fin _ _ _ => !a
  | inf a, inf b => !a && b
  | _, _ => false

/-- Conversion `int(x)`: truncation toward zero.  For an infinity or NaN Go leaves the
result to the implementation; amd64 yields the smallest int64. -/
def toInt : F64 → Int
  | fin neg m e =>
    if neg then -(if 0 ≤ e then (m : Int) * 2 ^ e.toNat else (m : Int) / 2 ^ (-e).toNat)
    else (if 0 ≤ e then (m : Int) * 2 ^ e.toNat else (m : Int) / 2 ^ (-e).toNat)
  | _ => -(2 ^ 63)

/-- The rational value of a finite float64 (zero for the others). -/
def val : F64 → ℚ
  | fin neg m e => if neg then -((m : ℚ) * 2 ^ e) else (m : ℚ) * 2 ^ e
  | _ => 0

end F64

/-! ## mem_arena.go -/

/-- The constant `MEMUtilization = 0.95` as a float64: `0x3FEE666666666666`. -/
def MEMUtilization : F64 := .fin false 8556839292003942 (-53)

/-- The constant expression `1.0 - MEMUtilization`, evaluated exactly by the Go compiler
to `0.05` and then converted to float64: `0x3FA999999999999A`. -/
def oneMinusMEMUtilization : F64 := .fin false 7205759403792794 (-57)

/-- The constant `2.0` as a float64. -/
def two : F64 := .fin false 1 1

def sizeinterval : Int := 32

def maxpools : Int := 256

def maxarenasize : Int := 1024 * 1024 * 1024 * 1024

/-- Embedding of `SuitableSize` with the recursion bounded by `fuel`; `none` is the index-out-of-range
panic of `sizes[pivot]` on an empty slice (or an exhausted `fuel`). -/
def SuitableSizeAux : Nat → List Int → Int → Option Int
  | 0, _, _ => none
  | fuel + 1, sizes, size =>
    match sizes with
    | [a] => some a
    | [a, b] => if size ≤ a then some a else some b
    | _ =>
      let pivot := sizes.length / 2
      match sizes[pivot]? with
      | none => none
      | some p =>
        if p < size then SuitableSizeAux fuel (sizes.drop (pivot + 1)) size
        else SuitableSizeAux fuel (sizes.take (pivot + 1)) size

/-- Embedding of `SuitableSize(sizes, size)`: every recursive call is on a strictly shorter slice, so
`len(sizes)` levels of recursion are enough. -/
def SuitableSize (sizes : List Int) (size : Int) : Option Int :=
  SuitableSizeAux sizes.length sizes size

/-- The smallest element of `sizes` that is at least `n`. -/
def IsLeastFit (sizes : List Int) (n s : Int) : Prop :=
  s ∈ sizes ∧ n ≤ s ∧ ∀ t ∈ sizes, n ≤ t → s ≤ t

/-- The result of an `int64` operation: the value modulo `2^64`, between `-2^63` and
`2^63 - 1`. -/
def wrap64 (x : Int) : Int := (x + 9223372036854775808) % 18446744073709551616 - 9223372036854775808

/-- The test of the inner loop of `nextsize`:
`(float64(from+size)/2.0)/float64(size) > MEMUtilization`. -/
def nextsizeTest (src size : Int) : Bool :=
  F64.gt (F64.div (F64.div (F64.ofInt (wrap64 (src + size))) two) (F64.ofInt size)) MEMUtilization

/-- The loop `for test { size += addby }` of `nextsize`, at most `fuel` tests. -/
def nextsizeLoop (src addby : Int) : Nat → Int → Option Int
  | 0, _ => none
  | fuel + 1, size =>
    if nextsizeTest src size then nextsizeLoop src addby fuel (wrap64 (size + addby))
    else some size

/-- The step `addby` of `nextsize`. -/
def nextsizeAddby (src : Int) : Int :=
  if F64.toInt (F64.mul (F64.ofInt src) oneMinusMEMUtilization) ≤ 32 then 32
  else F64.toInt (F64.mul (F64.ofInt src) oneMinusMEMUtilization)

/-- The closure `nextsize` of `Blocksizes`.  The loop is run for at most `|from| + 1`
tests (`nextsize_terminates` shows that this is never exhausted for `32 ≤ from ≤ 2^61`).
The sums `from + addby`, `from + size` and `size + addby` are `int` operations and wrap. -/
def nextsize (src : Int) : Option Int :=
  nextsizeLoop src (nextsizeAddby src) (src.natAbs + 1) (wrap64 (src + nextsizeAddby src))

/-- The loop `for size := minblock; size < maxblock; { ... }` of `Blocksizes`. -/
def BlocksizesLoop (maxblock : Int) : Nat → Int → List Int → Option (List Int)
  | 0, _, _ => none
  | fuel + 1, size, sizes =>
    if size < maxblock then
      match nextsize size with
      | none => none
      | some next => BlocksizesLoop maxblock fuel next (sizes ++ [size])
    else some (sizes ++ [maxblock])

/-- Embedding of `Blocksizes(minblock, maxblock)`.  `error` is a panic; the last `error` stands for an
exhausted iteration budget of the embedding, which `Blocksizes_spec` shows is not reached
for `maxblock ≤ 2^61`; beyond that the sizes can wrap and the loop of the source can go on
where the budget ends. -/
def Blocksizes (minblock maxblock : Int) : Except String (List Int) :=
  if maxblock < minblock then .error "minblock < maxblock"
  else if minblock.tmod sizeinterval ≠ 0 then .error "minblock is not multiple of 32"
  else if maxblock.tmod sizeinterval ≠ 0 then .error "maxblock is not multiple of 32"
  else
    match BlocksizesLoop maxblock ((maxblock - minblock).toNat + 1) minblock [] with
    | some sizes => .ok sizes
    | none => .error "iteration budget exhausted"

/-- Consecutive sizes of the schedule: the next one is larger, and at most twice as large. -/
def GrowsWithin (a b : Int) : Prop := a < b ∧ b ≤ 2 * a

/-! ## mem_pool.go -/

/-- Modelled from the spec: `findfirstset8` is not among the sources.  The free list holds
"one bit per block, 1 = free"; this is the index of the lowest set bit of a byte, counted
from the least significant one (8 when no bit is set, where the source would panic). -/
def findfirstset8 (b : Nat) : Nat :=
  if b.testBit 0 then 0 else if b.testBit 1 then 1 else if b.testBit 2 then 2
  else if b.testBit 3 then 3 else if b.testBit 4 then 4 else if b.testBit 5 then 5
  else if b.testBit 6 then 6 else if b.testBit 7 then 7 else 8

/-- Modelled from the spec: `clearbit8` is not among the sources; it clears bit `n` of a
byte (the block is handed out). -/
def clearbit8 (b n : Nat) : Nat := b &&& (0xff ^^^ ((1 <<< n) % 256))

/-- Modelled from the spec: `setbit8` is not among the sources; it sets bit `n` of a byte
(the block is free again). -/
def setbit8 (b n : Nat) : Nat := b ||| ((1 <<< n) % 256)

/-- The struct `mempool`; `base` is the address returned by `C.malloc`. -/
structure mempool where
  capacity : Int
  size : Int
  base : Nat
  freelist : List Nat
  freeoff : Int
  deriving DecidableEq, Repr

/-- Embedding of `newmempool(size, n)`, with the address `base` that `C.malloc` returns.  For a
two's-complement `n`, `n & 0x7` is `n % 8` and `((n >> 3) + 1) << 3` is `(n / 8 + 1) * 8`
with the flooring division of `Int`; `make` panics on a negative length. -/
def newmempool (size n : Int) (base : Nat) : Except String mempool :=
  let n := if n % 8 ≠ 0 then (n / 8 + 1) * 8 else n
  if n < 0 then .error "makeslice: len out of range"
  else .ok
    { capacity := size * n
      size := size
      base := base
      freelist := List.replicate (n / 8).toNat 0xff
      freeoff := 0 }

/-- The loop of `alloc` that looks for the first byte with a free bit: `scanfree bytes i`
scans `bytes`, whose first element has index `i`, and yields -1 when all are zero. -/
def scanfree : List Nat → Nat → Int
  | [], _ => -1
  | b :: bs, i => if 0 < b then (i : Int) else scanfree bs (i + 1)

/-- Embedding of `pool.alloc()`: the result pointer (`none` for `(nil, false)`) and the pool after the
call. -/
def mempool.alloc (pool : mempool) : Except String (Option Nat × mempool) :=
  if pool.freeoff < 0 then .ok (none, pool)
  else
    match pool.freelist[pool.freeoff.toNat]? with
    | none => .error "index out of range"
    | some byt =>
      if byt = 0 then .error "mempool.alloc(): invalid free-offset"
      else
        let k := findfirstset8 byt
        let ptr := pool.base + (((pool.freeoff * 8) * pool.size) + ((k : Int) * pool.size)).toNat
        let freelist := pool.freelist.set pool.freeoff.toNat (clearbit8 byt k)
        let safeoff := pool.freeoff.toNat
        .ok (some ptr, { pool with
          freelist := freelist
          freeoff := scanfree (freelist.drop safeoff) safeoff })

/-- Embedding of `pool.free(ptr)`.  The source divides in `uint64`; a pointer below `base`
gives there an index far beyond the free list, and here a negative one: both panic. -/
def mempool.free (pool : mempool) (ptr : Nat) : Except String mempool :=
  if pool.size = 0 then .error "integer divide by zero"
  else
    let nthblock := ((ptr : Int) - (pool.base : Int)) / pool.size
    let nthoff := nthblock / 8
    if nthoff < 0 then .error "index out of range"
    else
      match pool.freelist[nthoff.toNat]? with
      | none => .error "index out of range"
      | some byt =>
        let freelist := pool.freelist.set nthoff.toNat (setbit8 byt (nthblock % 8).toNat)
        .ok { pool with
          freelist := freelist
          freeoff := if nthoff < pool.freeoff then nthoff else pool.freeoff }

/-- Calls `alloc` `k` times in a row and collects the returned pointers. -/
def mempool.allocN : Nat → mempool → Except String (List (Option Nat) × mempool)
  | 0, pool => .ok ([], pool)
  | k + 1, pool =>
    match pool.alloc with
    | .error e => .error e
    | .ok (p, pool1) =>
      match mempool.allocN k pool1 with
      | .error e => .error e
      | .ok (ps, pool2) => .ok (p :: ps, pool2)

/-- Whether bit `i` of the free list is set, that is, whether block `i` is free. -/
def mempool.isfree (pool : mempool) (i : Nat) : Bool :=
  match pool.freelist[i / 8]? with
  | none => false
  | some byt => byt.testBit (i % 8)

/-- The address of block `i` of a pool: `base + i * size`. -/
def blockAddr (base : Nat) (size : Int) (i : Nat) : Nat := base + ((i : Int) * size).toNat

/-- The pool made by `newmempool` for `8 * B` blocks after `j` calls of `alloc`: the first
`j` blocks are handed out, the others are free. -/
def poolAfter (size : Int) (base B j : Nat) : mempool :=
  { capacity := size * (8 * B : Nat)
    size := size
    base := base
    freelist := List.replicate (j / 8) 0 ++
      (if j / 8 < B then (256 - 2 ^ (j % 8)) :: List.replicate (B - j / 8 - 1) 255 else [])
    freeoff := if j / 8 < B then ((j / 8 : Nat) : Int) else -1 }

/-! ## bubt/build_mblock.go -/

/-- Embedding of `binary.BigEndian.PutUint16` of `uint16(x)`: the two bytes, most significant first. -/
def be16 (x : Nat) : List Nat := [x / 2 ^ 8 % 256, x % 256]

/-- Embedding of `binary.BigEndian.PutUint32` of `uint32(x)`: the four bytes, most significant first. -/
def be32 (x : Nat) : List Nat := [x / 2 ^ 24 % 256, x / 2 ^ 16 % 256, x / 2 ^ 8 % 256, x % 256]

/-- Embedding of `binary.BigEndian.PutUint64` of `uint64(x)` for a signed `x` (two's complement): the
eight bytes, most significant first. -/
def be64 (x : Int) : List Nat :=
  let u := (x % 2 ^ 64).toNat
  [u / 2 ^ 56 % 256, u / 2 ^ 48 % 256, u / 2 ^ 40 % 256, u / 2 ^ 32 % 256,
   u / 2 ^ 24 % 256, u / 2 ^ 16 % 256, u / 2 ^ 8 % 256, u % 256]

/-- The big-endian u16 read from `buf` at offset `pos` (0 when fewer than two bytes are
left). -/
def u16At (buf : List Nat) (pos : Nat) : Nat :=
  match buf.drop pos with
  | a :: b :: _ => a * 2 ^ 8 + b
  | _ => 0

/-- The big-endian u32 read from `buf` at offset `pos` (0 when fewer than four bytes are
left). -/
def u32At (buf : List Nat) (pos : Nat) : Nat :=
  match buf.drop pos with
  | a :: b :: c :: d :: _ => a * 2 ^ 24 + b * 2 ^ 16 + c * 2 ^ 8 + d
  | _ => 0

/-- The fields of `Bubt` that the m-block builder reads: `mblocksize`, `mreduce`, the
result of `hasdatafile()`, and the counter `mnodes`. -/
structure Bubt where
  mblocksize : Int
  mreduce : Bool
  hasdatafile : Bool
  mnodes : Int
  deriving DecidableEq, Repr

/-- A child block as `mblock.insert` sees it through the interface `blocker`: the results
of `startkey()`, `backref()`, `roffset()` and `reduce()` (which may panic). -/
structure blocker where
  startkey : List Nat
  backref : Int
  roffset : Int
  reduce : Except String (List Nat)
  deriving DecidableEq, Repr

/-- The struct `mblock`.  A Go slice is its visible elements together with what its backing
array can still take: `firstkeycap` is `cap(firstkey)`, and `kbspare` holds the bytes of the
backing array of `kbuffer` between `len(kbuffer)` and `cap(kbuffer)`. -/
structure mblock where
  f : Bubt
  fpos : Int × Int
  rpos : Int
  firstkey : List Nat
  firstkeycap : Nat
  entries : List Nat
  values : List (List Nat)
  reduced : Option (List Nat)
  kbuffer : List Nat
  kbspare : List Nat
  deriving DecidableEq, Repr

/-- Embedding of `f.newmblock()`: `recycled` is the block received from `f.mpool`, if one is ready.  The
fresh block of the `default` branch leaves `firstkey` nil (capacity 0). -/
def Bubt.newmblock (f : Bubt) (recycled : Option mblock) : Except String (Bubt × mblock) :=
  match recycled with
  | some m =>
    .ok ({ f with mnodes := f.mnodes + 1 },
      { m with
        f := f
        firstkey := []
        entries := []
        values := []
        kbuffer := []
        kbspare := m.kbuffer ++ m.kbspare })
  | none =>
    if f.mblocksize < 0 then .error "makeslice: cap out of range"
    else
      .ok ({ f with mnodes := f.mnodes + 1 },
        { f := f
          fpos := (0, 0)
          rpos := 0
          firstkey := []
          firstkeycap := 0
          entries := []
          values := []
          reduced := none
          kbuffer := []
          kbspare := List.replicate f.mblocksize.toNat 0 })

/-- Embedding of `append(buf, bs...)` on a slice with spare capacity `spare`: the bytes are written into
the backing array while they fit; otherwise the slice moves to a new array, whose capacity
beyond the new length is left to the runtime and is taken to be none. -/
def sliceAppend (buf spare bs : List Nat) : List Nat × List Nat :=
  if bs.length ≤ spare.length then (buf ++ bs, spare.drop bs.length) else (buf ++ bs, [])

/-- Embedding of `m.insert(block)`: the returned flag and the block after the call. -/
def mblock.insert (m : mblock) (block : Option blocker) : Except String (Bool × mblock) :=
  match block with
  | none => .ok (false, m)
  | some b =>
    match b.reduce with
    | .error e => .error e
    | .ok r =>
      let m := { m with values := m.values ++ [r] }
      let key := b.startkey
      let entrysz : Int := 2 + key.length + 8 + 8
      let arrayblock : Int := 4 + m.entries.length * 4
      if arrayblock + m.kbuffer.length + entrysz > m.f.mblocksize then .ok (false, m)
      else if m.firstkey.length = 0 ∧ m.firstkeycap < key.length then
        .error "slice bounds out of range"
      else
        let firstkey := if m.firstkey.length = 0 then key else m.firstkey
        let entries := m.entries ++ [m.kbuffer.length % 2 ^ 32]
        let kb := sliceAppend m.kbuffer m.kbspare (be16 key.length)
        let kb := sliceAppend kb.1 kb.2 key
        let kb := sliceAppend kb.1 kb.2 (be64 b.backref)
        let kb := if m.f.mreduce then sliceAppend kb.1 kb.2 (be64 b.roffset) else kb
        .ok (true, { m with
          firstkey := firstkey
          entries := entries
          kbuffer := kb.1
          kbspare := kb.2 })

/-- Embedding of `binary.BigEndian.PutUint32(buf[n:], v)`: panics when fewer than four bytes are left. -/
def putUint32 (buf : List Nat) (n : Nat) (v : Nat) : Except String (List Nat) :=
  if buf.length < n + 4 then .error "index out of range"
  else .ok (buf.take n ++ be32 v ++ buf.drop (n + 4))

/-- The loop of `finalize` over `m.entries`, writing one offset at `n` per entry. -/
def finalizeLoop (arrayblock : Nat) : List Nat → Nat → List Nat → Except String (List Nat)
  | [], _, buf => .ok buf
  | koff :: rest, n, buf =>
    match putUint32 buf n ((arrayblock % 2 ^ 32 + koff) % 2 ^ 32) with
    | .error e => .error e
    | .ok buf1 => finalizeLoop arrayblock rest (n + 4) buf1

/-- Embedding of `m.finalize()`: the block after the call, its `kbuffer` resliced to `mblocksize`. -/
def mblock.finalize (m : mblock) : Except String mblock :=
  let arrayblock := 4 + m.entries.length * 4
  let sz := arrayblock + m.kbuffer.length
  let ln := m.kbuffer.length
  if (sz : Int) > m.f.mblocksize then .error "mblock buffer overflow"
  else if m.f.mblocksize < 0 ∨ (m.kbuffer.length + m.kbspare.length : Int) < m.f.mblocksize then
    .error "slice bounds out of range"
  else
    let msize := m.f.mblocksize.toNat
    let buf := m.kbuffer ++ m.kbspare.take (msize - ln)
    let spare := m.kbspare.drop (msize - ln)
    let cnt := min (buf.length - arrayblock) ln
    let buf := buf.take arrayblock ++ (buf.take ln).take cnt ++ buf.drop (arrayblock + cnt)
    match putUint32 buf 0 (m.entries.length % 2 ^ 32) with
    | .error e => .error e
    | .ok buf1 =>
      match finalizeLoop arrayblock m.entries 4 buf1 with
      | .error e => .error e
      | .ok buf2 => .ok { m with kbuffer := buf2, kbspare := spare }

/-- Embedding of `m.reduce()`: the returned value and the block after the call. -/
def mblock.reduce (m : mblock) : Except String (List Nat × mblock) :=
  if m.f.mreduce ∧ m.f.hasdatafile = false then .error "enable datafile for mreduce"
  else if m.f.mreduce = false then .error "mreduce not configured"
  else
    match m.reduced with
    | some r => .ok (r, m)
    | none => .ok ([], { m with reduced := some [] })

/-- Embedding of `m.startkey()`. -/
def mblock.startkey (m : mblock) : Int × List Nat := (-1, m.firstkey)

/-- Embedding of `m.offset()`. -/
def mblock.offset (m : mblock) : Int := m.fpos.1

/-- Embedding of `m.backref()`: `offset() | 0x1`, which for a two's-complement integer adds one to an
even value and leaves an odd one. -/
def mblock.backref (m : mblock) : Int := if m.offset % 2 = 0 then m.offset + 1 else m.offset

/-- Embedding of `m.roffset()`. -/
def mblock.roffset (m : mblock) : Int := m.rpos

/-- Feeds the children to `insert` one after the other and collects the returned flags. -/
def mblock.insertMany : mblock → List blocker → Except String (List Bool × mblock)
  | m, [] => .ok ([], m)
  | m, b :: bs =>
    match m.insert (some b) with
    | .error e => .error e
    | .ok (ok, m1) =>
      match mblock.insertMany m1 bs with
      | .error e => .error e
      | .ok (oks, m2) => .ok (ok :: oks, m2)

/-- The m-blocks reached from `m0` by a sequence of `insert` calls that return. -/
inductive mblock.Reached (m0 : mblock) : mblock → Prop where
  | start : mblock.Reached m0 m0
  | step (m m' : mblock) (block : Option blocker) (ok : Bool) :
      mblock.Reached m0 m → m.insert block = .ok (ok, m') → mblock.Reached m0 m'

/-- The packed entry of a child in an m-block without reduce: `u16 len | key | u64
back-reference`. -/
def encEntry (b : blocker) : List Nat :=
  be16 b.startkey.length ++ b.startkey ++ be64 b.backref

/-- The offsets at which the packed entries of the children start, the first at `start`. -/
def packedOffsets : Nat → List blocker → List Nat
  | _, [] => []
  | start, b :: bs => start :: packedOffsets (start + (encEntry b).length) bs

/-- The layout of a finalized m-block (without reduce) of `msize` bytes over the children
`bs`: the buffer has length `msize`, starts with the count as a big-endian u32, followed by
one big-endian u32 offset per child, strictly increasing, and at the offset of a child the
buffer holds `len(key)` as a big-endian u16, the key, and the back-reference as a
big-endian u64. -/
def MblockLayout (msize : Int) (buf : List Nat) (bs : List blocker) : Prop :=
  (buf.length : Int) = msize ∧
  u32At buf 0 = bs.length ∧
  (∀ i j, i < j → j < bs.length → u32At buf (4 + 4 * i) < u32At buf (4 + 4 * j)) ∧
  ∀ (i : Nat) (h : i < bs.length),
    u16At buf (u32At buf (4 + 4 * i)) = bs[i].startkey.length ∧
    (buf.drop (u32At buf (4 + 4 * i) + 2)).take bs[i].startkey.length = bs[i].startkey ∧
    (buf.drop (u32At buf (4 + 4 * i) + 2 + bs[i].startkey.length)).take 8 = be64 bs[i].backref

/-- An example configuration with m-blocks of 8 GiB, no reduce. -/
def bubtHuge : Bubt := { mblocksize := 2 ^ 33, mreduce := false, hasdatafile := false, mnodes := 0 }

/-- The fresh m-block that `bubtHuge.newmblock` makes. -/
def mblockHuge : mblock :=
  { f := bubtHuge, fpos := (0, 0), rpos := 0, firstkey := [], firstkeycap := 0,
    entries := [], values := [], reduced := none, kbuffer := [],
    kbspare := List.replicate (2 ^ 33) 0 }

/-- An example child block with an empty start key and back-reference 1. -/
def childEmpty : blocker := { startkey := [], backref := 1, roffset := 0, reduce := .ok [] }

/-- The number of `childEmpty` entries at which the last u32 offset of the table wraps
around: `4 + 4 * N + 10 * (N - 1) = 2 ^ 32 + 4`. -/
def hugeCount : Nat := 306783379

/-- An example configuration with m-blocks of 3 bytes, too small for the entry count. -/
def bubtTiny : Bubt := { mblocksize := 3, mreduce := false, hasdatafile := false, mnodes := 0 }

/-- The fresh m-block that `bubtTiny.newmblock` makes. -/
def mblockTiny : mblock :=
  { f := bubtTiny, fpos := (0, 0), rpos := 0, firstkey := [], firstkeycap := 0,
    entries := [], values := [], reduced := none, kbuffer := [], kbspare := [0, 0, 0] }

/-- An example configuration: 64-byte m-blocks, no reduce. -/
def bubtSmall : Bubt := { mblocksize := 64, mreduce := false, hasdatafile := false, mnodes := 0 }

/-- An example empty m-block of `bubtSmall` whose `firstkey` slice has capacity 16. -/
def mblockEmpty : mblock :=
  { f := bubtSmall, fpos := (0, 0), rpos := 0, firstkey := [], firstkeycap := 16,
    entries := [], values := [], reduced := none, kbuffer := [],
    kbspare := List.replicate 64 0 }

/-- An example child block with start key "ab" and back-reference 4097. -/
def childA : blocker := { startkey := [97, 98], backref := 4097, roffset := 0, reduce := .ok [] }

/-- An example child block with start key "c" and back-reference 8193. -/
def childB : blocker := { startkey := [99], backref := 8193, roffset := 0, reduce := .ok [] }

/-- The block `mblockEmpty` after the insert of `childA`. -/
def mblockAfterOne : mblock :=
  { mblockEmpty with
    firstkey := [97, 98]
    entries := [0]
    values := [[]]
    kbuffer := [0, 2, 97, 98, 0, 0, 0, 0, 0, 0, 16, 1]
    kbspare := List.replicate 52 0 }

/-- The block `mblockEmpty` after the inserts of `childA` and `childB`. -/
def mblockAfterTwo : mblock :=
  { mblockEmpty with
    firstkey := [97, 98]
    entries := [0, 12]
    values := [[], []]
    kbuffer := [0, 2, 97, 98, 0, 0, 0, 0, 0, 0, 16, 1, 0, 1, 99, 0, 0, 0, 0, 0, 0, 32, 1]
    kbspare := List.replicate 41 0 }

/-! ## bogn/bogn.go -/

/-- The value of a decimal digit character. -/
def digitVal (c : Char) : Nat := c.toNat - 48

/-- Embedding of `strconv.Atoi` on the characters of a string: an optional sign, then one or more
decimal digits; `none` is a non-nil error (syntax, or a value outside int64). -/
def Atoi (s : List Char) : Option Int :=
  let neg := s.head? = some '-'
  let ds := if s.head? = some '-' ∨ s.head? = some '+' then s.tail else s
  if ds = [] ∨ ¬ (∀ c ∈ ds, c.isDigit = true) then none
  else
    let v : Int := ds.foldl (fun acc c => 10 * acc + digitVal c) 0
    let x : Int := if neg then -v else v
    if -(2 ^ 63) ≤ x ∧ x < 2 ^ 63 then some x else none

/-- The verb `%v` of `fmt.Sprintf` on an `int`: its decimal digits, after a `-` when
negative. -/
def fmtInt (x : Int) : List Char :=
  if x < 0 then '-' :: Nat.toDigits 10 x.natAbs else Nat.toDigits 10 x.natAbs

/-- The fields of `Bogn` that the level functions read: the name and the setting
`ratio`. -/
structure Bogn where
  name : String
  ratio : F64
  deriving DecidableEq, Repr

/-- Embedding of `bogn.levelname(level, version, sha)`: `fmt.Sprintf("%v-%v-%v-%v", ...)`. -/
def Bogn.levelname (bogn : Bogn) (level version : Int) (sha : String) : String :=
  String.mk (bogn.name.toList ++ '-' :: fmtInt level ++ '-' :: fmtInt version ++ '-' :: sha.toList)

/-- Embedding of `bogn.path2level(filename)`.  The results are named: a path that leaves the `if` without
entering it returns their zero values. -/
def Bogn.path2level (bogn : Bogn) (filename : String) : Int × Int × String :=
  match filename.toList.splitOn '-' with
  | [p0, p1, p2, p3] =>
    if String.mk p0 = bogn.name then
      match Atoi p1 with
      | none => (-1, -1, "")
      | some level =>
        match Atoi p2 with
        | none => (-1, -1, "")
        | some ver => (level, ver, String.mk p3)
    else (0, 0, "")
  | _ => (0, 0, "")

/-- A disk snapshot (`*bubt.Snapshot` behind `api.Index`), as far as the level functions
look at it: the results of `ID()` and `Footprint()`. -/
structure Disk where
  id : String
  footprint : Int
  deriving DecidableEq, Repr

/-- The `snapshot` of bogn, as far as `pickflushdisk` looks at it: the disk levels and the
result of `memheap()`. -/
structure snapshot where
  disks : List (Option Disk)
  memheap : Int
  deriving DecidableEq, Repr

/-- Helper of `latestlevel`: the last level, counting from `i`, that holds a disk. -/
def latestlevelAux : List (Option Disk) → Int → Int × Option Disk → Int × Option Disk
  | [], _, acc => acc
  | none :: rest, i, acc => latestlevelAux rest (i + 1) acc
  | some d :: rest, i, _ => latestlevelAux rest (i + 1) (i, some d)

/-- Modelled from the spec: `snapshot.latestlevel` is not among the sources.  It "returns
the greatest index with a non-nil disk file, or `(-1, nil)`". -/
def snapshot.latestlevel (snap : snapshot) : Int × Option Disk :=
  latestlevelAux snap.disks 0 (-1, none)

/-- Embedding of `bogn.pickflushdisk(disk0)` on the current snapshot `snap`: the merge input, the target
level and the version.  A method call on a nil `disk0` is a panic. -/
def Bogn.pickflushdisk (bogn : Bogn) (snap : snapshot) (disk0 : Option Disk) :
    Except String (Option Disk × Int × Int) :=
  match snap.latestlevel, disk0 with
  | (level, disk), disk0 =>
    if level < 0 ∧ disk0 ≠ none then .error "impossible situation"
    else if level < 0 then .ok (none, (snap.disks.length : Int) - 1, 1)
    else
      match disk, disk0 with
      | none, _ => .error "nil pointer dereference"
      | _, none => .error "nil pointer dereference"
      | some disk, some disk0 =>
        if disk.id = disk0.id then .ok (none, level - 1, 1)
        else if (bogn.path2level disk0.id).1 ≤ level then .error "impossible situation"
        else
          if F64.gt (F64.div (F64.ofInt snap.memheap) (F64.ofInt disk.footprint)) bogn.ratio
          then .ok (some disk, level - 1, 1)
          else .ok (some disk, level, (bogn.path2level disk.id).2.1 + 1)

/-! ## bogn/bogn.go: compaction, metadata, recovery, Close -/

namespace F64

/-- Comparison `x < y` of two float64 values. -/
def lt (x y : F64) : Bool := gt y x

/-- Comparison `x >= y` of two float64 values: false when either is NaN, otherwise the
negation of `x < y`. -/
def ge : F64 → F64 → Bool
  | nan, _ => false
  | _, nan => false
  | x, y => !(lt x y)

end F64

/-- Modelled from the spec: `snapshot.disklevels` is not among the sources.  It yields the
disks that are present, in the order of their levels ("scan adjacent disks"). -/
def snapshot.disklevels (snap : snapshot) : List Disk := snap.disks.filterMap id

/-- Helper of `nextemptylevel`: scans the slots, the first of which has index `i`. -/
def nextemptylevelAux : List (Option Disk) → Int → Int → Int
  | [], _, _ => -1
  | d :: rest, i, level => if level < i ∧ d = none then i else nextemptylevelAux rest (i + 1) level

/-- Modelled from the spec: `snapshot.nextemptylevel` is not among the sources.  It "returns
the lowest empty slot strictly greater than `from`, or `-1`". -/
def snapshot.nextemptylevel (snap : snapshot) (level : Int) : Int :=
  nextemptylevelAux snap.disks 0 level

/-- The loop of `pickcompactdisks` over the present disks, from the pair in front on. -/
def pickcompactLoop (bogn : Bogn) (snap : snapshot) : List Disk → Option Disk × Option Disk × Int
  | disk0 :: disk1 :: rest =>
    if F64.lt (F64.div (F64.ofInt disk0.footprint) (F64.ofInt disk1.footprint)) bogn.ratio then
      pickcompactLoop bogn snap (disk1 :: rest)
    else if snap.nextemptylevel (bogn.path2level disk1.id).1 < 0 then
      if snap.nextemptylevel (bogn.path2level disk0.id).1 < 0 then
        (some disk0, some disk1, (bogn.path2level disk1.id).1)
      else (some disk0, some disk1, snap.nextemptylevel (bogn.path2level disk0.id).1)
    else (some disk0, some disk1, snap.nextemptylevel (bogn.path2level disk1.id).1)
  | _ => (none, none, -1)

/-- Embedding of `bogn.pickcompactdisks()` on the current snapshot `snap`. -/
def Bogn.pickcompactdisks (bogn : Bogn) (snap : snapshot) : Option Disk × Option Disk × Int :=
  pickcompactLoop bogn snap snap.disklevels

/-- The adjacent pairs `(disks[i], disks[i+1])` of a list of disks, in order. -/
def adjacentPairs (disks : List Disk) : List (Disk × Disk) := disks.zip disks.tail

/-- The size-ratio rule of compaction on a pair of disks:
`footprint(disk0) / footprint(disk1) >= ratio`. -/
def Bogn.compactable (bogn : Bogn) (pair : Disk × Disk) : Bool :=
  F64.ge (F64.div (F64.ofInt pair.1.footprint) (F64.ofInt pair.2.footprint)) bogn.ratio

/-- The test of the loop of `pickcompactdisks` on a pair of disks: the pair is taken unless
`footprint(disk0) / footprint(disk1) < ratio`. -/
def Bogn.notbelow (bogn : Bogn) (pair : Disk × Disk) : Bool :=
  !(F64.lt (F64.div (F64.ofInt pair.1.footprint) (F64.ofInt pair.2.footprint)) bogn.ratio)

/-- The target level of a compaction of `disk0` and `disk1`, in the words of the spec: the
next empty level after that of `disk1`, else the next empty level after that of `disk0`,
else the level of `disk1`. -/
def Bogn.compacttarget (bogn : Bogn) (snap : snapshot) (disk0 disk1 : Disk) : Int :=
  if 0 ≤ snap.nextemptylevel (bogn.path2level disk1.id).1 then
    snap.nextemptylevel (bogn.path2level disk1.id).1
  else if 0 ≤ snap.nextemptylevel (bogn.path2level disk0.id).1 then
    snap.nextemptylevel (bogn.path2level disk0.id).1
  else (bogn.path2level disk1.id).1

/-- An example snapshot with disks at levels 1, 2 and 3 of four. -/
def snapThree : snapshot :=
  { disks := [none, some ⟨"bogn-1-1-a", 10⟩, some ⟨"bogn-2-1-b", 100⟩, some ⟨"bogn-3-1-c", 200⟩]
    memheap := 0 }

/-- An example engine "bogn" with ratio 0.25. -/
def bognQuarter : Bogn := { name := "bogn", ratio := .fin false 1 (-2) }

/-- An engine named `bogn` whose setting `ratio` is NaN. -/
def bognNaN : Bogn := { name := "bogn", ratio := .nan }

/-! ## bogn/bogn.go: flush metadata -/

/-- Embedding of the verb `%q` of `fmt.Sprintf` on an `int64`: a value that is a Unicode code
point is written as a single-quoted character literal, whose body `quoteRune` gives; any
other value is a bad verb, `%!q(int64=...)`. -/
def fmtQuoted (quoteRune : Nat → List Char) (x : Int) : List Char :=
  if 0 ≤ x ∧ x ≤ 0x10FFFF then Char.ofNat 39 :: quoteRune x.toNat ++ [Char.ofNat 39]
  else "%!q(int64=".toList ++ fmtInt x ++ [')']

/-- The value `x` of `x, _ := strconv.Atoi(s)`: the parsed number, `0` after a syntax error,
the nearest `int64` after a range error. -/
def AtoiValue (s : List Char) : Int :=
  match Atoi s with
  | some x => x
  | none =>
    if (if s.head? = some '-' ∨ s.head? = some '+' then s.tail else s) = [] ∨
        ¬ (∀ c ∈ (if s.head? = some '-' ∨ s.head? = some '+' then s.tail else s), c.isDigit = true)
    then 0
    else if s.head? = some '-' then -(2 ^ 63) else 2 ^ 63 - 1

/-- Embedding of the field `flushunix` that `bogn.mwmetadata` writes when the clock reads `now`
seconds: `fmt.Sprintf("%q", time.Now().Unix())`.  `json.Marshal` and `json.Unmarshal` hand
this string back unchanged. -/
def mwmetadataFlushunix (quoteRune : Nat → List Char) (now : Int) : List Char :=
  fmtQuoted quoteRune now

/-- A `time.Duration` saturates at the ends of `int64`, as `Time.Sub` does. -/
def saturate64 (d : Int) : Int :=
  if d < -(2 ^ 63) then -(2 ^ 63) else if 2 ^ 63 - 1 < d then 2 ^ 63 - 1 else d

/-- Embedding of `bogn.flushelapsed()`.  `flushunix` is the field of the metadata of the disk that
`latestlevel` returns, `none` when there is no snapshot or no disk; `period` is in
nanoseconds and `nowSeconds` is the reading of the clock. -/
def flushelapsed (period nowSeconds : Int) (flushunix : Option (List Char)) : Bool :=
  match flushunix with
  | none => false
  | some s => decide (saturate64 ((nowSeconds - AtoiValue s) * 1000000000) > period)

/-! ## bogn/bogn.go: Close -/

/-- The fields of `Bogn` that `Close` touches: whether the channel `finch` is closed, the
count of running routines and whether the head snapshot is set. -/
structure Engine where
  finchClosed : Bool
  nroutines : Int
  hassnapshot : Bool
  deriving DecidableEq, Repr

/-- Embedding of `bogn.Close()`, as seen once its two waiting loops are over: `close(bogn.finch)`
panics on a channel that is already closed; otherwise the routines have exited and the
head snapshot is set to nil. -/
def Engine.Close (bogn : Engine) : Except String Engine :=
  if bogn.finchClosed then .error "close of closed channel"
  else .ok { finchClosed := true, nroutines := 0, hassnapshot := false }

/-! ## llrb/go_snapshot.go -/

/-- The counters of `llrbstats` that the snapshot functions read or write. -/
structure llrbstats where
  n_count : Int
  n_inserts : Int
  n_deletes : Int
  n_nodes : Int
  n_clones : Int
  n_reclaims : Int
  n_ranges : Int
  n_ccranges : Int
  deriving DecidableEq, Repr

/-- Every counter is a non-negative `int64`. -/
def llrbstats.counted (s : llrbstats) : Prop :=
  (0 ≤ s.n_count ∧ s.n_count < 9223372036854775808) ∧
  (0 ≤ s.n_inserts ∧ s.n_inserts < 9223372036854775808) ∧
  (0 ≤ s.n_deletes ∧ s.n_deletes < 9223372036854775808) ∧
  (0 ≤ s.n_nodes ∧ s.n_nodes < 9223372036854775808) ∧
  (0 ≤ s.n_clones ∧ s.n_clones < 9223372036854775808) ∧
  (0 ≤ s.n_reclaims ∧ s.n_reclaims < 9223372036854775808)

/-- Embedding of `snapshot.validatestats()` on the counters of the snapshot: the four checks,
in the order of the source, each a panic. -/
def validatestats (s : llrbstats) : Except String Unit :=
  if s.n_count ≠ wrap64 (s.n_inserts - s.n_deletes) then
    .error "sstats(): n_count != (n_inserts - n_deletes)"
  else if s.n_inserts ≠ s.n_nodes then
    .error "sstats(): n_inserts != n_nodes"
  else if s.n_count ≠ wrap64 (wrap64 (s.n_nodes + s.n_clones) - s.n_reclaims) then
    .error "sstats(): n_count != (n_nodes + n_clones - reclaims)"
  else if s.n_deletes ≠ wrap64 (s.n_reclaims - s.n_clones) then
    .error "sstats(): n_deletes != (n_reclaims - n_clones)"
  else .ok ()

/-- Embedding of `LLRBSnapshot`: nodes are addresses, `none` the nil pointer; the field `next` is
held by the list of snapshots of the tree. -/
structure LLRBSnapshot where
  stats : llrbstats
  id : String
  root : Option Nat
  dead : Bool
  reclaim : List Nat
  logprefix : String
  deriving DecidableEq, Repr

/-- The fields of `LLRB` that `newsnapshot` and `Range` touch.  `snapshots` is the linked list
that starts at `llrb.mvcc.snapshot` and follows `next`. -/
structure LLRB where
  name : String
  root : Option Nat
  dead : Bool
  stats : llrbstats
  reclaim : List Nat
  snapshots : List LLRBSnapshot
  ismut : Int
  n_snapshots : Int
  n_activess : Int
  deriving DecidableEq, Repr

/-- The walk of `newsnapshot` to the tail of the snapshot list: on an empty list the new snapshot
becomes the head, otherwise `parent.next` is followed until it is nil and set there. -/
def appendTail : List LLRBSnapshot → LLRBSnapshot → List LLRBSnapshot
  | [], snapshot => [snapshot]
  | [parent], snapshot => [parent, snapshot]
  | parent :: next :: rest, snapshot => parent :: appendTail (next :: rest) snapshot

/-- Embedding of `newsnapshot(llrb, id)`: the new snapshot and the tree afterwards. -/
def newsnapshot (llrb : LLRB) (id : String) : LLRBSnapshot × LLRB :=
  let snapshot : LLRBSnapshot :=
    { stats := llrb.stats, id := id, root := llrb.root, dead := llrb.dead,
      reclaim := llrb.reclaim.take llrb.reclaim.length,
      logprefix := "[LLRBSnapshot-" ++ llrb.name ++ "/" ++ id ++ "]" }
  (snapshot,
    { llrb with
      reclaim := llrb.reclaim.take 0
      snapshots := appendTail llrb.snapshots snapshot
      n_snapshots := llrb.n_snapshots + 1
      n_activess := llrb.n_activess + 1 })

/-- Embedding of `countreclaimnodes(head)`: the sum of `len(snapshot.reclaim)` along the list. -/
def countreclaimnodes : List LLRBSnapshot → Int
  | [] => 0
  | snapshot :: next => (snapshot.reclaim.length : Int) + countreclaimnodes next

/-- The eight walkers of the tree that `Range` calls. -/
inductive Walker where
  | rvrslehe | rvrsleht | rvrslthe | rvrsltht
  | rangehele | rangehtle | rangehelt | rangehtlt
  deriving DecidableEq, Repr

/-- One call of a walker: the walker, the root it starts from, the two bounds and the
callback. -/
structure WalkerCall where
  walker : Walker
  root : Option Nat
  lkey : Option (List Nat)
  hkey : Option (List Nat)
  callb : Nat
  deriving DecidableEq, Repr

/-- The walker that the second half of `Range` calls for `reverse` and `incl`. -/
def rangeWalker (reverse : Bool) (incl : String) : Walker :=
  if reverse then
    if incl = "both" then .rvrslehe
    else if incl = "high" then .rvrsleht
    else if incl = "low" then .rvrslthe
    else .rvrsltht
  else
    if incl = "both" then .rangehele
    else if incl = "high" then .rangehtle
    else if incl = "low" then .rangehelt
    else .rangehtlt

/-- Embedding of `snapshot.Range(lkey, hkey, incl, reverse, callb)`: the calls of walkers it makes
and the counters of the snapshot afterwards.  `fixrangeargs` is the method of `LLRB` of
that name and `ismut` the flag `llrb.mvcc.ismut`. -/
def LLRBSnapshot.Range (snapshot : LLRBSnapshot)
    (fixrangeargs : Option (List Nat) → Option (List Nat) → Option (List Nat) × Option (List Nat))
    (ismut : Int) (lkey hkey : Option (List Nat)) (incl : String) (reverse : Bool) (callb : Nat) :
    List WalkerCall × llrbstats :=
  match fixrangeargs lkey hkey with
  | (lkey, hkey) =>
    if lkey ≠ none ∧ hkey ≠ none ∧ lkey = hkey ∧ incl = "none" then ([], snapshot.stats)
    else
      ([{ walker := rangeWalker reverse
            (if lkey ≠ none ∧ hkey ≠ none ∧ lkey = hkey ∧ (incl = "low" ∨ incl = "high")
              then "both" else incl),
          root := snapshot.root, lkey := lkey, hkey := hkey, callb := callb }],
        { snapshot.stats with
          n_ccranges := if ismut = 1 then snapshot.stats.n_ccranges + 1 else snapshot.stats.n_ccranges
          n_ranges := snapshot.stats.n_ranges + 1 })

/-- The table of the specification: the walker for each of `reverse` and `incl` among `both`,
`high`, `low`, `none`; any other `incl` is read as `none`. -/
def walkerTable : Bool → String → Walker
  | false, "both" => .rangehele
  | false, "high" => .rangehtle
  | false, "low" => .rangehelt
  | false, _ => .rangehtlt
  | true, "both" => .rvrslehe
  | true, "high" => .rvrsleht
  | true, "low" => .rvrslthe
  | true, _ => .rvrsltht

/-- A tree with two nodes waiting for reclaim and one earlier snapshot. -/
def llrbSample : LLRB :=
  { name := "t", root := some 7, dead := false,
    stats := { n_count := 3, n_inserts := 4, n_deletes := 1, n_nodes := 4, n_clones := 2,
               n_reclaims := 3, n_ranges := 0, n_ccranges := 0 },
    reclaim := [11, 12],
    snapshots := [{ stats := ⟨0, 0, 0, 0, 0, 0, 0, 0⟩, id := "0", root := none, dead := false,
                    reclaim := [5], logprefix := "" }],
    ismut := 0, n_snapshots := 1, n_activess := 1 }

/-! ## bogn/bogn.go: recovery of the disk levels -/

/-- The array `disks [16]api.Index` that recovery builds, with the disks that `closelevels` has
closed so far, in the order of the calls. -/
structure LevelsState where
  disks : List (Option Disk)
  closed : List Disk
  deriving DecidableEq, Repr

/-- Embedding of `bogn.buildlevels(filename, paths, mmap, disks)`.  `OpenSnapshot` stands for
`bubt.OpenSnapshot(name, paths, mmap)`.  The result is the level array with the returned
`error`, `none` for nil; an index outside the array is a panic. -/
def Bogn.buildlevels (bogn : Bogn) (OpenSnapshot : String → Except String Disk)
    (filename : String) (st : LevelsState) : Except String (LevelsState × Option String) :=
  match bogn.path2level filename with
  | (level, version, uuid) =>
    if level < 0 then .ok (st, none)
    else
      match OpenSnapshot (bogn.levelname level version uuid) with
      | .error err => .ok (st, some err)
      | .ok disk =>
        match st.disks[level.toNat]? with
        | none => .error "index out of range"
        | some none => .ok ({ st with disks := st.disks.set level.toNat (some disk) }, none)
        | some (some od) =>
          if (bogn.path2level od.id).2.1 < version then
            .ok ({ disks := st.disks.set level.toNat (some disk), closed := st.closed ++ [od] },
              none)
          else .ok ({ st with closed := st.closed ++ [disk] }, none)

/-- The inner loop of `bogn.opendisksnaps` over the files of one directory. -/
def opendisksnapsFiles (bogn : Bogn) (OpenSnapshot : String → Except String Disk) :
    List String → LevelsState → Except String (LevelsState × Option String)
  | [], st => .ok (st, none)
  | fi :: fis, st =>
    if (bogn.path2level fi).1 < 0 then opendisksnapsFiles bogn OpenSnapshot fis st
    else
      match bogn.buildlevels OpenSnapshot fi st with
      | .error e => .error e
      | .ok (st1, some err) => .ok (st1, some err)
      | .ok (st1, none) => opendisksnapsFiles bogn OpenSnapshot fis st1

/-- The outer loop of `bogn.opendisksnaps` over the disk paths; `ReadDir` stands for
`ioutil.ReadDir` and gives the names of the files. -/
def opendisksnapsPaths (bogn : Bogn) (OpenSnapshot : String → Except String Disk)
    (ReadDir : String → Except String (List String)) :
    List String → LevelsState → Except String (LevelsState × Option String)
  | [], st => .ok (st, none)
  | path :: paths, st =>
    match ReadDir path with
    | .error err => .ok (st, some err)
    | .ok fis =>
      match opendisksnapsFiles bogn OpenSnapshot fis st with
      | .error e => .error e
      | .ok (st1, some err) => .ok (st1, some err)
      | .ok (st1, none) => opendisksnapsPaths bogn OpenSnapshot ReadDir paths st1

/-- Embedding of `bogn.opendisksnaps(setts)`, `paths` being the setting `diskpaths`.  After the
loops every slot is logged with `disk.ID()`, a nil dereference on an empty slot. -/
def Bogn.opendisksnaps (bogn : Bogn) (OpenSnapshot : String → Except String Disk)
    (ReadDir : String → Except String (List String)) (paths : List String) :
    Except String (LevelsState × Option String) :=
  match opendisksnapsPaths bogn OpenSnapshot ReadDir paths ⟨List.replicate 16 none, []⟩ with
  | .error e => .error e
  | .ok (st, some err) => .ok (st, some err)
  | .ok (st, none) =>
    if st.disks.all Option.isSome then .ok (st, none) else .error "nil pointer dereference"

/-- A file name is well formed for the engine when it parses to a level from 0 to 15 and is
the name that `levelname` writes for its own parts. -/
def Bogn.wellformed (bogn : Bogn) (filename : String) : Prop :=
  0 ≤ (bogn.path2level filename).1 ∧ (bogn.path2level filename).1 < 16 ∧
  bogn.levelname (bogn.path2level filename).1 (bogn.path2level filename).2.1
    (bogn.path2level filename).2.2 = filename

instance (bogn : Bogn) (filename : String) : Decidable (bogn.wellformed filename) := by
  unfold Bogn.wellformed
  infer_instance

/-- The state of recovery after the files `seen`: 16 slots; an empty slot has no file seen at
its level; a filled slot holds the disk of a file seen at its level with the greatest
version; the disks closed and the disks in the slots are the disks opened. -/
def LevelsInv (bogn : Bogn) (OpenSnapshot : String → Except String Disk) (seen : List String)
    (st : LevelsState) : Prop :=
  st.disks.length = 16 ∧
  (∀ L : Nat, L < 16 →
    (st.disks[L]? = some none ∧ ∀ f ∈ seen, (bogn.path2level f).1 ≠ L) ∨
    (∃ d, st.disks[L]? = some (some d) ∧ d.id ∈ seen ∧ OpenSnapshot d.id = .ok d ∧
      (bogn.path2level d.id).1 = L ∧
      ∀ g ∈ seen, (bogn.path2level g).1 = L →
        (bogn.path2level g).2.1 ≤ (bogn.path2level d.id).2.1)) ∧
  List.Perm (st.closed ++ st.disks.filterMap id)
    (seen.filterMap (fun f => (OpenSnapshot f).toOption))

/-- An `OpenSnapshot` that opens every file, with a footprint of 100. -/
def openAll (name : String) : Except String Disk := .ok ⟨name, 100⟩

/-- An `OpenSnapshot` that fails on the file `bogn-2-3-c` and opens every other file. -/
def openButOne (name : String) : Except String Disk :=
  if name = "bogn-2-3-c" then .error "open failed" else .ok ⟨name, 100⟩

/-- A directory with two versions of level 2 and one file of level 5. -/
def filesSample : List String := ["bogn-2-1-a", "bogn-5-1-b", "bogn-2-3-c"]

/-! ## metadata.go -/

/-- The table `mdlookup`: the number of bits set in a 4-bit mask. -/
def mdlookup : List Nat := [0, 1, 1, 2, 1, 2, 2, 3, 1, 2, 2, 3, 2, 3, 3, 4]

/-- The constant `mdOffsetmaskBnseq`. -/
def mdOffsetmaskBnseq : Nat := 0x1
/-- The constant `mdOffsetmaskDdseq`. -/
def mdOffsetmaskDdseq : Nat := 0x3
/-- The constant `mdOffsetmaskMvalue`. -/
def mdOffsetmaskMvalue : Nat := 0x7
/-- The constant `mdOffsetmaskVbuuid`. -/
def mdOffsetmaskVbuuid : Nat := 0xf

/-- The flag `mdFlagBornseqno`. -/
def mdFlagBornseqno : Nat := 0x1
/-- The flag `mdFlagDeadseqno`. -/
def mdFlagDeadseqno : Nat := 0x2
/-- The flag `mdFlagMvalue`. -/
def mdFlagMvalue : Nat := 0x4
/-- The flag `mdFlagVbuuid`. -/
def mdFlagVbuuid : Nat := 0x8
/-- The flag `mdFlagBlack`. -/
def mdFlagBlack : Nat := 0x1000
/-- The flag `mdFlagDirty`. -/
def mdFlagDirty : Nat := 0x2000
/-- The flag `mdFlagDeleted`. -/
def mdFlagDeleted : Nat := 0x4000

/-- The operator `^x` on a `uint64`: every bit flipped. -/
def not64 (x : Nat) : Nat := x ^^^ 0xffffffffffffffff

/-- The struct `metadata`: the header `hdr`, a `uint64`, and the array `fields` of 12
`uint64`. -/
structure metadata where
  hdr : Nat
  fields : List Nat
  deriving DecidableEq, Repr

/-- Embedding of `md.initMetadata(vbno, fmask)`, with `vbno` and `fmask` of 16 bits. -/
def metadata.initMetadata (md : metadata) (vbno fmask : Nat) : metadata :=
  { md with hdr := md.hdr &&& 0xffffffff00000000 ||| ((vbno <<< 16) ||| fmask) }

/-- Embedding of `md.fmask()`. -/
def metadata.fmask (md : metadata) : Nat := md.hdr &&& 0xffff

/-- Embedding of `md.isbnseq()`. -/
def metadata.isbnseq (md : metadata) : Bool := (md.hdr &&& mdFlagBornseqno) != 0
/-- Embedding of `md.isddseq()`. -/
def metadata.isddseq (md : metadata) : Bool := (md.hdr &&& mdFlagDeadseqno) != 0
/-- Embedding of `md.ismvalue()`. -/
def metadata.ismvalue (md : metadata) : Bool := (md.hdr &&& mdFlagMvalue) != 0
/-- Embedding of `md.isvbuuid()`. -/
def metadata.isvbuuid (md : metadata) : Bool := (md.hdr &&& mdFlagVbuuid) != 0

/-- Embedding of `md.setblack()`. -/
def metadata.setblack (md : metadata) : metadata := { md with hdr := md.hdr ||| mdFlagBlack }
/-- Embedding of `md.setred()`. -/
def metadata.setred (md : metadata) : metadata := { md with hdr := md.hdr &&& not64 mdFlagBlack }
/-- Embedding of `md.togglelink()`. -/
def metadata.togglelink (md : metadata) : metadata := { md with hdr := md.hdr ^^^ mdFlagBlack }
/-- Embedding of `md.isblack()`. -/
def metadata.isblack (md : metadata) : Bool := (md.hdr &&& mdFlagBlack) == mdFlagBlack
/-- Embedding of `md.isred()`. -/
def metadata.isred (md : metadata) : Bool := !md.isblack

/-- Embedding of `md.setdirty()`. -/
def metadata.setdirty (md : metadata) : metadata := { md with hdr := md.hdr ||| mdFlagDirty }
/-- Embedding of `md.cleardirty()`. -/
def metadata.cleardirty (md : metadata) : metadata :=
  { md with hdr := md.hdr &&& not64 mdFlagDirty }
/-- Embedding of `md.isdirty()`. -/
def metadata.isdirty (md : metadata) : Bool := (md.hdr &&& mdFlagDirty) == mdFlagDirty

/-- Embedding of `md.isdeleted()`. -/
def metadata.isdeleted (md : metadata) : Bool := (md.hdr &&& mdFlagDeleted) == mdFlagDeleted
/-- Embedding of `md.setdeleted()`. -/
def metadata.setdeleted (md : metadata) : metadata := { md with hdr := md.hdr ||| mdFlagDeleted }

/-- Embedding of `md.setvbno(vbno)`, with `vbno` a `uint16`. -/
def metadata.setvbno (md : metadata) (vbno : Nat) : metadata :=
  { md with hdr := (md.hdr &&& 0xffffffff0000ffff) ||| (vbno <<< 16) }

/-- Embedding of `md.setaccess(access)`.  The shifted value has at most 52 bits. -/
def metadata.setaccess (md : metadata) (access : Nat) : metadata :=
  { md with hdr := (md.hdr &&& 0x000fffff00000000) ||| ((access &&& 0xfffff) <<< 32) }

/-- Embedding of `md.setkeysize(size)`: `uint64(size)` is `size` modulo `2^64`; the shifted value
has at most 64 bits. -/
def metadata.setkeysize (md : metadata) (size : Int) : metadata :=
  { md with hdr := (md.hdr &&& 0x000fffffffffffff) |||
      (((size % 18446744073709551616).toNat &&& 0xfff) <<< 52) }

/-- The index `off-1` of the field setters and getters, where `off := mdlookup[mask&md.hdr]` is
a byte: an `off` of 0 gives 255. -/
def metadata.fieldindex (md : metadata) (mask : Nat) : Nat :=
  (mdlookup.getD (mask &&& md.hdr) 0 + 255) % 256

/-- The assignment `md.fields[off-1] = value` of the field setters; an index of 12 or more
is a panic. -/
def metadata.setfield (md : metadata) (mask value : Nat) : Except String metadata :=
  if md.fieldindex mask < md.fields.length then
    .ok { md with fields := md.fields.set (md.fieldindex mask) value }
  else .error "index out of range"

/-- The read `md.fields[off-1]` of the field getters. -/
def metadata.getfield (md : metadata) (mask : Nat) : Except String Nat :=
  match md.fields[md.fieldindex mask]? with
  | some value => .ok value
  | none => .error "index out of range"

/-- Embedding of `md.setbnseq(seqno)`. -/
def metadata.setbnseq (md : metadata) (seqno : Nat) : Except String metadata :=
  md.setfield mdOffsetmaskBnseq seqno

/-- Embedding of `md.setddseq(seqno)`. -/
def metadata.setddseq (md : metadata) (seqno : Nat) : Except String metadata :=
  md.setfield mdOffsetmaskDdseq seqno

/-- Embedding of `md.setmvalue(mvalue, level)`, with `level` a byte. -/
def metadata.setmvalue (md : metadata) (mvalue level : Nat) : Except String metadata :=
  md.setfield mdOffsetmaskMvalue ((mvalue &&& 0xfffffffffffffff8) ||| (level &&& 0x7))

/-- Embedding of `md.setvbuuid(vbuuid)`. -/
def metadata.setvbuuid (md : metadata) (vbuuid : Nat) : Except String metadata :=
  md.setfield mdOffsetmaskVbuuid vbuuid

/-- Embedding of `md.vbno()`. -/
def metadata.vbno (md : metadata) : Nat := (md.hdr &&& 0xffff0000) >>> 16

/-- Embedding of `md.access()`. -/
def metadata.access (md : metadata) : Nat := (md.hdr &&& 0xfffff00000000) >>> 32

/-- Embedding of `md.keysize()`. -/
def metadata.keysize (md : metadata) : Int := (((md.hdr &&& 0xfff0000000000000) >>> 52 : Nat) : Int)

/-- Embedding of `md.bnseq()`. -/
def metadata.bnseq (md : metadata) : Except String Nat := md.getfield mdOffsetmaskBnseq

/-- Embedding of `md.ddseq()`. -/
def metadata.ddseq (md : metadata) : Except String Nat := md.getfield mdOffsetmaskDdseq

/-- Embedding of `md.mvalue()`: the value without its low three bits, and the level. -/
def metadata.mvalue (md : metadata) : Except String (Nat × Nat) :=
  match md.getfield mdOffsetmaskMvalue with
  | .ok mvalue => .ok (mvalue &&& 0xfffffffffffffff8, (mvalue &&& 0x7) % 256)
  | .error e => .error e

/-- Embedding of `md.vbuuid()`. -/
def metadata.vbuuid (md : metadata) : Except String Nat := md.getfield mdOffsetmaskVbuuid

/-- The four optional fields of a metadata value. -/
inductive mdField where
  | bnseq | ddseq | mvalue | vbuuid
  deriving DecidableEq, Repr

/-- The flag of the header that enables a field. -/
def mdField.flag : mdField → Nat
  | .bnseq => mdFlagBornseqno
  | .ddseq => mdFlagDeadseqno
  | .mvalue => mdFlagMvalue
  | .vbuuid => mdFlagVbuuid

/-- Writes a field with its setter; `level` is used by `setmvalue` only. -/
def metadata.write (md : metadata) (f : mdField) (value level : Nat) : Except String metadata :=
  match f with
  | .bnseq => md.setbnseq value
  | .ddseq => md.setddseq value
  | .mvalue => md.setmvalue value level
  | .vbuuid => md.setvbuuid value

/-- Reads a field with its getter; the second component is the level of `mvalue()` and 0 for
the other fields. -/
def metadata.read (md : metadata) (f : mdField) : Except String (Nat × Nat) :=
  match f with
  | .bnseq => (md.bnseq).map (fun v => (v, 0))
  | .ddseq => (md.ddseq).map (fun v => (v, 0))
  | .mvalue => md.mvalue
  | .vbuuid => (md.vbuuid).map (fun v => (v, 0))

/-- What a read returns after `write f value level`. -/
def mdField.written (f : mdField) (value level : Nat) : Nat × Nat :=
  match f with
  | .mvalue => (value &&& 0xfffffffffffffff8, level &&& 0x7)
  | _ => (value, 0)

/-- The header write methods other than `setdeleted`. -/
inductive hdrWrite where
  | setvbno (vbno : Nat)
  | setaccess (access : Nat)
  | setkeysize (size : Int)
  | setblack | setred | togglelink | setdirty | cleardirty
  | setbnseq (seqno : Nat)
  | setddseq (seqno : Nat)
  | setmvalue (mvalue level : Nat)
  | setvbuuid (vbuuid : Nat)
  deriving DecidableEq, Repr

/-- Applies one header write method. -/
def metadata.apply (md : metadata) : hdrWrite → Except String metadata
  | .setvbno vbno => .ok (md.setvbno vbno)
  | .setaccess access => .ok (md.setaccess access)
  | .setkeysize size => .ok (md.setkeysize size)
  | .setblack => .ok md.setblack
  | .setred => .ok md.setred
  | .togglelink => .ok md.togglelink
  | .setdirty => .ok md.setdirty
  | .cleardirty => .ok md.cleardirty
  | .setbnseq seqno => md.setbnseq seqno
  | .setddseq seqno => md.setddseq seqno
  | .setmvalue mvalue level => md.setmvalue mvalue level
  | .setvbuuid vbuuid => md.setvbuuid vbuuid

/-- Applies a sequence of header write methods, stopping at a panic. -/
def metadata.applyAll (md : metadata) : List hdrWrite → Except String metadata
  | [] => .ok md
  | w :: ws =>
    match md.apply w with
    | .ok md1 => md1.applyAll ws
    | .error e => .error e

/-- A header with key size 5, access 3, vbno 1 and the flags deleted and born-seqno, over
twelve zero fields. -/
def mdSample : metadata :=
  { hdr := (5 <<< 52) ||| (3 <<< 32) ||| (1 <<< 16) ||| 0x4001, fields := List.replicate 12 0 }

/-- The offset mask that the setter and the getter of a field use. -/
def mdField.mask : mdField → Nat
  | .bnseq => mdOffsetmaskBnseq
  | .ddseq => mdOffsetmaskDdseq
  | .mvalue => mdOffsetmaskMvalue
  | .vbuuid => mdOffsetmaskVbuuid

/-- The index `off-1` for a header whose low four bits are `m`. -/
def fieldindexOf (m mask : Nat) : Nat := (mdlookup.getD (mask &&& m) 0 + 255) % 256

/-- The four fields, listed. -/
def mdField.all : List mdField := [.bnseq, .ddseq, .mvalue, .vbuuid]

/-- The word that the setter of a field stores. -/
def mdField.stored (f : mdField) (value level : Nat) : Nat :=
  match f with
  | .mvalue => (value &&& 0xfffffffffffffff8) ||| (level &&& 0x7)
  | _ => value

/-! ## mem_arena.go: the arena -/

/-- The struct `memarena`; the map `mpools` is the list of its entries, one for each block
size. -/
structure memarena where
  minblock : Int
  maxblock : Int
  capacity : Int
  blocksizes : List Int
  mpools : List (Int × List mempool)
  deriving DecidableEq, Repr

/-- Embedding of `newmemarena(minblock, maxblock, capacity)`. -/
def newmemarena (minblock maxblock capacity : Int) : Except String memarena :=
  match Blocksizes minblock maxblock with
  | .error e => .error e
  | .ok blocksizes =>
    if 256 < blocksizes.length ∨ maxarenasize < capacity then
      .error "number of pools in arena exeeds 256"
    else
      .ok { minblock := minblock, maxblock := maxblock, capacity := capacity,
            blocksizes := blocksizes, mpools := blocksizes.map (fun size => (size, [])) }

/-- The map read `arena.mpools[size]`: nil for a size that is not a key. -/
def mpoolsGet (mpools : List (Int × List mempool)) (size : Int) : List mempool :=
  match mpools.find? (fun entry => entry.1 = size) with
  | some entry => entry.2
  | none => []

/-- The map write `arena.mpools[size] = pools`. -/
def mpoolsSet (mpools : List (Int × List mempool)) (size : Int) (pools : List mempool) :
    List (Int × List mempool) :=
  if mpools.any (fun entry => entry.1 = size) then
    mpools.map (fun entry => if entry.1 = size then (size, pools) else entry)
  else mpools ++ [(size, pools)]

/-- The loop of `arena.alloc` over the pools of one size: the pointer and the pool of the first
`mpool.alloc()` that succeeds, and the pools afterwards. -/
def allocFromPools : List mempool → Except String (Option (Nat × mempool) × List mempool)
  | [] => .ok (none, [])
  | mpool :: rest =>
    match mpool.alloc with
    | .error e => .error e
    | .ok (some ptr, mpool1) => .ok (some (ptr, mpool1), mpool1 :: rest)
    | .ok (none, mpool1) =>
      match allocFromPools rest with
      | .error e => .error e
      | .ok (r, rest1) => .ok (r, mpool1 :: rest1)

/-- Embedding of `arena.alloc(n)`: the pointer and the pool returned, `none` for nil, and the
arena afterwards.  `base` is the address that `C.malloc` returns if a pool is created.
The divisions truncate, as in Go; `sort.Sort` orders the pools by base address. -/
def memarena.alloc (arena : memarena) (n : Int) (base : Nat) :
    Except String ((Option Nat × Option mempool) × memarena) :=
  match arena.blocksizes.getLast? with
  | none => .error "index out of range"
  | some largest =>
    if largest < n then .ok ((none, none), arena)
    else
      match SuitableSize arena.blocksizes n with
      | none => .error "index out of range"
      | some size =>
        match allocFromPools (mpoolsGet arena.mpools size) with
        | .error e => .error e
        | .ok (some (ptr, mpool), pools) =>
          .ok ((some ptr, some mpool), { arena with mpools := mpoolsSet arena.mpools size pools })
        | .ok (none, pools) =>
          if size = 0 then .error "integer divide by zero"
          else
            match newmempool size
              (if ((arena.capacity.tdiv arena.blocksizes.length).tdiv size) % 8 ≠ 0
                then (((arena.capacity.tdiv arena.blocksizes.length).tdiv size) / 8 + 1) * 8
                else (arena.capacity.tdiv arena.blocksizes.length).tdiv size) base with
            | .error e => .error e
            | .ok mpool =>
              match mpool.alloc with
              | .error e => .error e
              | .ok (ptr, mpool1) =>
                .ok ((ptr, some mpool1),
                  { arena with
                    mpools := (mpoolsSet arena.mpools size
                      ((pools ++ [mpool1]).mergeSort (fun p q => decide (p.base ≤ q.base)))) })

/-- An arena for the block sizes 32 and 64, without pools yet. -/
def arenaSample : memarena :=
  { minblock := 32, maxblock := 64, capacity := 1024, blocksizes := [32, 64],
    mpools := [(32, []), (64, [])] }

/-! ## bogn/bogn.go: settings and the write methods -/

/-- The settings that `readsettings` reads. -/
structure Settings where
  memstore : String
  dgm : Bool
  workingset : Bool
  ratio : F64
  period : Int
  llrbKeycapacity : Int
  llrbValcapacity : Int
  deriving DecidableEq, Repr

/-- The fields of `Bogn` that `readsettings` writes. -/
structure BognSettings where
  memstore : String
  dgm : Bool
  workingset : Bool
  ratio : F64
  period : Int
  memcapacity : Int
  dgmstate : Int
  deriving DecidableEq, Repr

/-- Embedding of `bogn.readsettings(setts)`; `period` is in nanoseconds, an `int64`. -/
def BognSettings.readsettings (bogn : BognSettings) (setts : Settings) : BognSettings :=
  { memstore := setts.memstore
    dgm := setts.dgm
    workingset := setts.workingset
    ratio := setts.ratio
    period := wrap64 (setts.period * 1000000000)
    memcapacity :=
      if setts.memstore = "llrb" ∨ setts.memstore = "mvcc" then
        wrap64 (setts.llrbKeycapacity + setts.llrbValcapacity)
      else bogn.memcapacity
    dgmstate := if setts.dgm then 1 else 0 }

/-- The call `delete(key, oldvalue, lsm)` that `Delete` makes on the current snapshot. -/
structure DeleteCall where
  key : List Nat
  oldvalue : List Nat
  lsm : Bool
  deriving DecidableEq, Repr

/-- Embedding of `bogn.Delete(key, oldvalue)`, as the call it forwards to the memtree under the
read lock. -/
def BognSettings.Delete (bogn : BognSettings) (key oldvalue : List Nat) : DeleteCall :=
  { key := key, oldvalue := oldvalue, lsm := if bogn.dgmstate = 1 then true else false }

/-! ## api/util.go -/

/-- Embedding of `bytes.Compare(a, b)`: -1, 0 or 1 by the first byte that differs, a proper prefix
being smaller. -/
def bytesCompare : List Nat → List Nat → Int
  | [], [] => 0
  | [], _ :: _ => -1
  | _ :: _, [] => 1
  | x :: xs, y :: ys => if x < y then -1 else if y < x then 1 else bytesCompare xs ys

/-- Embedding of `Binarycmp(key, limit, partial)`; `part` is the flag of the source. -/
def Binarycmp (key limit : List Nat) (part : Bool) : Int :=
  if part = true ∧ limit.length < key.length then
    bytesCompare (key.take limit.length) (limit.take limit.length)
  else bytesCompare key limit

/-! ## bogn/bogn.go: the lock `snaprw` and the snapshot pointer -/

/-- The atomic steps of the methods of `Bogn` that touch `snaprw`, the memtree or the snapshot
pointer. -/
inductive Action where
  | RLock | RUnlock | Lock | Unlock
  | memtreeBegin | memtreeEnd
  | closeFinch | waitRoutines | waitPurge
  | storeHead (snapshot : Option Nat)
  deriving DecidableEq, Repr

/-- The state these steps act on: the holders of `snaprw`, the memtree calls in flight, the
snapshot pointer, `finch` and `nroutines`; `overlapped` records that a store through
`setheadsnapshot` replaced a live snapshot while a memtree call was in flight, and
`unlocked` that such a store was made without the write lock. -/
structure LockState where
  readers : Nat
  writer : Bool
  inflight : Nat
  head : Option Nat
  finchClosed : Bool
  nroutines : Int
  overlapped : Bool
  unlocked : Bool
  deriving DecidableEq, Repr

/-- One step; `none` when the step cannot be taken: a lock that is held, a wait that is not
over, an unlock without a lock, or the panic of closing a closed channel. -/
def LockState.step (s : LockState) : Action → Option LockState
  | .RLock => if s.writer then none else some { s with readers := s.readers + 1 }
  | .RUnlock => if s.readers = 0 then none else some { s with readers := s.readers - 1 }
  | .Lock => if s.writer ∨ 0 < s.readers then none else some { s with writer := true }
  | .Unlock => if s.writer then some { s with writer := false } else none
  | .memtreeBegin => some { s with inflight := s.inflight + 1 }
  | .memtreeEnd => if s.inflight = 0 then none else some { s with inflight := s.inflight - 1 }
  | .closeFinch => if s.finchClosed then none else some { s with finchClosed := true }
  | .waitRoutines => if 0 < s.nroutines then none else some s
  | .waitPurge => some s
  | .storeHead snapshot =>
    some { s with
      head := snapshot
      overlapped := s.overlapped || (s.head.isSome && decide (0 < s.inflight))
      unlocked := s.unlocked || (s.head.isSome && !s.writer) }

/-- Runs the steps of a schedule one after the other. -/
def LockState.run (s : LockState) : List Action → Option LockState
  | [] => some s
  | a :: rest =>
    match s.step a with
    | none => none
    | some s1 => s1.run rest

/-- The steps of `bogn.Set`, of `bogn.SetCAS` and of `bogn.Delete`: `snaprw.RLock()`, the call on
`bogn.currsnapshot()`, `snaprw.RUnlock()`. -/
def writeSteps : List Action := [.RLock, .memtreeBegin, .memtreeEnd, .RUnlock]

/-- The steps of `bogn.Close`: `close(bogn.finch)`, the wait for `nroutines`, the wait for
`purgesnapshot`, `bogn.setheadsnapshot(nil)`. -/
def closeSteps : List Action := [.closeFinch, .waitRoutines, .waitPurge, .storeHead none]

/-- Whether a schedule interleaves the steps of two tasks, each task keeping its own
order. -/
def isInterleaving : List Action → List Action → List Action → Bool
  | [], xs, ys => xs.isEmpty && ys.isEmpty
  | a :: rest, xs, ys =>
    (match xs with
      | x :: xs1 => x == a && isInterleaving rest xs1 ys
      | [] => false) ||
    (match ys with
      | y :: ys1 => y == a && isInterleaving rest xs ys1
      | [] => false)

/-- An engine with a live snapshot, no lock held and no background routine left. -/
def lockIdle : LockState :=
  { readers := 0, writer := false, inflight := 0, head := some 1, finchClosed := false,
    nroutines := 0, overlapped := false, unlocked := false }

/-- A schedule in which `Close` runs while a `Set` is inside its memtree call. -/
def closeDuringSet : List Action :=
  [.RLock, .memtreeBegin, .closeFinch, .waitRoutines, .waitPurge, .storeHead none,
    .memtreeEnd, .RUnlock]

/-! ## llrb/go_snapshot.go: min, Iterate -/

/-- A tree of `Llrbnode`: `nil`, or a node with its left child, key, the result of
`IsDeleted()` and its right child. -/
inductive Llrbnode where
  | nil : Llrbnode
  | node (left : Llrbnode) (key : List Nat) (deleted : Bool) (right : Llrbnode) : Llrbnode
  deriving DecidableEq, Repr

/-- Embedding of `nd.IsDeleted()`. -/
def Llrbnode.IsDeleted : Llrbnode → Bool
  | .nil => false
  | .node _ _ deleted _ => deleted

/-- The key of a node. -/
def Llrbnode.key : Llrbnode → List Nat
  | .nil => []
  | .node _ key _ _ => key

/-- Embedding of `snapshot.min(nd)`: the node returned, `none` for `(nil, false)`. -/
def LLRBSnapshot.min (snapshot : LLRBSnapshot) : Llrbnode → Option Llrbnode
  | .nil => none
  | .node left key deleted right =>
    match snapshot.min left with
    | some minnd => some minnd
    | none =>
      if (Llrbnode.node left key deleted right).IsDeleted then snapshot.min right
      else some (.node left key deleted right)

/-- The nodes of a tree in in-order: the left subtree, the node, the right subtree. -/
def Llrbnode.inorder : Llrbnode → List Llrbnode
  | .nil => []
  | .node left key deleted right =>
    left.inorder ++ [.node left key deleted right] ++ right.inorder

/-- A search tree: the keys of the in-order traversal are strictly increasing in the order of
`bytes.Compare`. -/
def Llrbnode.isSearchTree (nd : Llrbnode) : Prop :=
  List.Pairwise (fun a b : Llrbnode => bytesCompare a.key b.key = -1) nd.inorder

/-- The iterator that `Iterate` fills in, as far as `Iterate` itself writes it. -/
structure llrbIterator where
  continuate : Bool
  nodes : List Nat
  index : Int
  limit : Int
  startkey : List Nat
  endkey : List Nat
  incl : String
  reverse : Bool
  closed : Bool
  deriving DecidableEq, Repr

/-- The length of `Fixbuffer(buffer, size)` for a buffer of length `len`: the buffer itself
when `size` is 0, a buffer of `size` bytes otherwise. -/
def fixbufferLen (len : Nat) (size : Int) : Nat := if size = 0 then len else size.toNat

/-- The key that `copy` leaves in a buffer of length `len`; a nil key copies nothing. -/
def copyKey (len : Nat) (key : Option (List Nat)) : List Nat :=
  match key with
  | none => []
  | some k => k.take len

/-- Embedding of `snapshot.Iterate(lkey, hkey, incl, r)`: the iterator returned, `none` for nil,
and the counters of the snapshot afterwards.  `fixrangeargs`, `rangefill` and the iterator
`iter` that `getiterator` hands out stand for the parts of `LLRB` that are not among
the sources. -/
def LLRBSnapshot.Iterate (snapshot : LLRBSnapshot)
    (fixrangeargs : Option (List Nat) → Option (List Nat) → Option (List Nat) × Option (List Nat))
    (rangefill : llrbIterator → llrbIterator) (iter : llrbIterator)
    (maxkeysize maxlimit ismut : Int)
    (lkey hkey : Option (List Nat)) (incl : String) (r : Bool) :
    Option llrbIterator × llrbstats :=
  match fixrangeargs lkey hkey with
  | (lkey, hkey) =>
    if lkey ≠ none ∧ hkey ≠ none ∧ lkey = hkey ∧ incl = "none" then (none, snapshot.stats)
    else
      let incl :=
        if lkey ≠ none ∧ hkey ≠ none ∧ lkey = hkey ∧ (incl = "low" ∨ incl = "high") then "both"
        else incl
      let filled := rangefill
        { continuate := false, nodes := [], index := 0, limit := maxlimit,
          startkey := copyKey (fixbufferLen iter.startkey.length maxkeysize) lkey,
          endkey := copyKey (fixbufferLen iter.endkey.length maxkeysize) hkey,
          incl := incl, reverse := r, closed := false }
      (some { filled with
          incl :=
            if r then
              if filled.incl = "none" then "high"
              else if filled.incl = "low" then "both" else filled.incl
            else
              if filled.incl = "none" then "low"
              else if filled.incl = "high" then "both" else filled.incl },
        { snapshot.stats with
          n_ccranges := if ismut = 1 then snapshot.stats.n_ccranges + 1 else snapshot.stats.n_ccranges
          n_ranges := snapshot.stats.n_ranges + 1 })

/-- A tree with the keys 1, 2, 3, of which the first is marked deleted. -/
def treeSample : Llrbnode :=
  .node (.node .nil [1] true .nil) [2] false (.node .nil [3] false .nil)

/-- A `fixrangeargs` that turns an empty bound into nil and keeps every other bound. -/
def fixEmpty (lkey hkey : Option (List Nat)) : Option (List Nat) × Option (List Nat) :=
  (if lkey = some [] then none else lkey, if hkey = some [] then none else hkey)

/-- An iterator as the pool hands it out, not yet filled in. -/
def iterSample : llrbIterator :=
  { continuate := true, nodes := [4], index := 1, limit := 0, startkey := [], endkey := [],
    incl := "", reverse := false, closed := true }

/-- The earlier snapshot of the sample tree. -/
def snapshotSample : LLRBSnapshot :=
  { stats := ⟨0, 0, 0, 0, 0, 0, 0, 0⟩, id := "0", root := none, dead := false, reclaim := [5],
    logprefix := "" }

/-! ## mem_pool.go: reachable pools, allocated -/

/-- The pools reached from `pool0` by calls of `alloc` and by calls of `free` on blocks that
were handed out and not yet freed; the list holds the blocks handed out. -/
inductive mempool.Reached (pool0 : mempool) : mempool → List Nat → Prop where
  | fresh : mempool.Reached pool0 pool0 []
  | alloc (pool pool1 : mempool) (live : List Nat) (ptr : Nat) :
      mempool.Reached pool0 pool live → pool.alloc = .ok (some ptr, pool1) →
      mempool.Reached pool0 pool1 (ptr :: live)
  | full (pool pool1 : mempool) (live : List Nat) :
      mempool.Reached pool0 pool live → pool.alloc = .ok (none, pool1) →
      mempool.Reached pool0 pool1 live
  | free (pool pool1 : mempool) (live : List Nat) (ptr : Nat) :
      mempool.Reached pool0 pool live → ptr ∈ live → pool.free ptr = .ok pool1 →
      mempool.Reached pool0 pool1 (live.erase ptr)

/-- Embedding of `binary.Uvarint(buf)` from the byte at index `i` on, with the value `x`
gathered so far and the shift `s`: the value and the number of bytes read, `(0, 0)` when
the buffer ends inside a number and `(0, -(i+1))` on overflow. -/
def UvarintAux : List Nat → Nat → Nat → Nat → Nat × Int
  | [], _, _, _ => (0, 0)
  | b :: rest, i, x, s =>
    if b < 0x80 then
      if 9 < i ∨ (i = 9 ∧ 1 < b) then (0, -((i : Int) + 1))
      else (x ||| ((b <<< s) % 18446744073709551616), (i : Int) + 1)
    else UvarintAux rest (i + 1) (x ||| (((b &&& 0x7f) <<< s) % 18446744073709551616)) (s + 7)

/-- Embedding of `binary.Uvarint(buf)`. -/
def Uvarint (buf : List Nat) : Nat × Int := UvarintAux buf 0 0 0

/-- Modelled from the spec: `zerosin32` is not among the sources; it counts the zero bits of
a `uint32`, the blocks handed out among 32. -/
def zerosin32 (v : Nat) : Nat := ((List.range 32).filter (fun i => !v.testBit i)).length

/-- Modelled from the spec: `zerosin8` is not among the sources; it counts the zero bits of
a byte, the blocks handed out among 8. -/
def zerosin8 (v : Nat) : Nat := ((List.range 8).filter (fun i => !v.testBit i)).length

/-- The shift `v >> k` of a `uint64`: zero when `k` is 64 or more. -/
def shr64 (v k : Nat) : Nat := if 64 ≤ k then 0 else v >>> k

/-- The first loop of `allocated`, for `i` from 1 to `q`: the zeros counted in the words
`freelist[(i-1)*4 : i*4]`. -/
def allocatedWords (freelist : List Nat) (q : Nat) : Nat :=
  ((List.range q).map (fun j =>
    zerosin32 (((Uvarint ((freelist.drop (j * 4)).take 4)).1 &&& 0xffffffff) % 4294967296) +
    zerosin32 ((shr64 (Uvarint ((freelist.drop (j * 4)).take 4)).1 0xffffffff) % 4294967296))).sum

/-- The second loop of `allocated`, `for i := q * 4; i < r; i++`. -/
def allocatedBytes (freelist : List Nat) (q r : Nat) : Nat :=
  ((List.range' (q * 4) (r - q * 4)).map (fun i => zerosin8 (freelist.getD i 0))).sum

/-- Embedding of `pool.allocated()`. -/
def mempool.allocated (pool : mempool) : Int :=
  wrap64 (((allocatedWords pool.freelist (pool.freelist.length / 4) +
    allocatedBytes pool.freelist (pool.freelist.length / 4) (pool.freelist.length % 4) : Nat) : Int)
      * pool.size)

/-- Embedding of `pool.available()`. -/
def mempool.available (pool : mempool) : Int := wrap64 (pool.capacity - pool.allocated)

/-- The number of blocks handed out: the zero bits of the free list. -/
def mempool.handedout (pool : mempool) : Nat := (pool.freelist.map zerosin8).sum

/-- A fresh pool of 32 blocks of 32 bytes. -/
def poolFresh32 : mempool :=
  { capacity := 1024, size := 32, base := 1000, freelist := [0xff, 0xff, 0xff, 0xff],
    freeoff := 0 }

/-- An arena for the block sizes 32 and 64 with a capacity of 64 bytes. -/
def arenaSmall : memarena :=
  { minblock := 32, maxblock := 64, capacity := 64, blocksizes := [32, 64],
    mpools := [(32, []), (64, [])] }

/-! ## samples for the m-block, the flush target and recovery -/

/-- A tree file with m-blocks of 24 bytes and `mreduce` on. -/
def bubtReduce : Bubt := { mblocksize := 24, mreduce := true, hasdatafile := true, mnodes := 0 }

/-- An empty m-block of `bubtReduce` whose `firstkey` slice has capacity 16. -/
def mblockReduce : mblock :=
  { f := bubtReduce, fpos := (0, 0), rpos := 0, firstkey := [], firstkeycap := 16,
    entries := [], values := [], reduced := none, kbuffer := [],
    kbspare := List.replicate 24 0 }

/-- The block `mblockReduce` after the insert of `childA`. -/
def mblockReduceOne : mblock :=
  { mblockReduce with
    firstkey := [97, 98]
    entries := [0]
    values := [[]]
    kbuffer := [0, 2, 97, 98, 0, 0, 0, 0, 0, 0, 16, 1, 0, 0, 0, 0, 0, 0, 0, 0]
    kbspare := List.replicate 4 0 }

/-- A snapshot whose only disk is at level 0. -/
def snapLevelZero : snapshot :=
  { disks := some ⟨"bogn-0-1-a", 10⟩ :: List.replicate 15 none, memheap := 1000 }

/-- The free offset of a pool points at a byte with a free bit, unless it is negative. -/
def mempool.freeoffValid (pool : mempool) : Prop :=
  pool.freeoff < 0 ∨ ∃ byt, pool.freelist[pool.freeoff.toNat]? = some byt ∧ byt ≠ 0

/-! # Theorems -/

/-! ## SuitableSize -/

theorem le_getLast_of_pairwise (l : List Int) (h : l ≠ []) (hs : l.Pairwise (· < ·)) :
    ∀ x ∈ l, x ≤ l.getLast h := by
  intro x hx
  have hl := List.dropLast_append_getLast h
  rw [← hl] at hs hx
  rw [List.pairwise_append] at hs
  rcases List.mem_append.1 hx with hx | hx
  · exact le_of_lt (hs.2.2 x hx _ (by simp))
  · simp at hx; omega

theorem SuitableSizeAux_spec (n : Int) :
    ∀ (fuel : Nat) (sizes : List Int) (hne : sizes ≠ []), sizes.length ≤ fuel →
      sizes.Pairwise (· < ·) → n ≤ sizes.getLast hne →
      ∃ s, SuitableSizeAux fuel sizes n = some s ∧ IsLeastFit sizes n s := by
  intro fuel
  induction fuel with
  | zero =>
    intro sizes hne hlen
    cases sizes with
    | nil => exact absurd rfl hne
    | cons a t => simp at hlen
  | succ fuel ih =>
    intro sizes hne hlen hs hn
    match sizes, hne, hlen, hs, hn with
    | [a], _, _, _, hn =>
      refine ⟨a, rfl, by simp, by simpa using hn, ?_⟩
      intro t ht _; simp at ht; omega
    | [a, b], _, _, hs, hn =>
      simp only [SuitableSizeAux]
      have hab : a < b := by simpa using hs
      have hn' : n ≤ b := by simpa using hn
      by_cases h : n ≤ a
      · refine ⟨a, by simp [h], by simp, h, ?_⟩
        intro t ht _; simp at ht; omega
      · refine ⟨b, by simp [h], by simp, hn', ?_⟩
        intro t ht hnt; simp at ht; omega
    | a :: b :: c :: rest, hne, hlen, hs, hn =>
      generalize hl : a :: b :: c :: rest = l at *
      have hlen3 : 3 ≤ l.length := by rw [← hl]; simp
      have hpl : l.length / 2 < l.length := by omega
      have hunf : SuitableSizeAux (fuel + 1) l n =
          (if l[l.length / 2] < n then SuitableSizeAux fuel (l.drop (l.length / 2 + 1)) n
            else SuitableSizeAux fuel (l.take (l.length / 2 + 1)) n) := by
        subst hl
        simp only [SuitableSizeAux]
        rw [List.getElem?_eq_getElem hpl]
      rw [hunf]
      have happ := List.take_append_drop (l.length / 2 + 1) l
      have hs' := hs
      rw [← happ, List.pairwise_append] at hs'
      obtain ⟨hst, hsd, hcross⟩ := hs'
      have htne : l.take (l.length / 2 + 1) ≠ [] := by
        intro h0
        have := congrArg List.length h0
        rw [List.length_take, List.length_nil] at this; omega
      have hdne : l.drop (l.length / 2 + 1) ≠ [] := by
        intro h0
        have := congrArg List.length h0
        rw [List.length_drop, List.length_nil] at this; omega
      have hlast_t : (l.take (l.length / 2 + 1)).getLast htne = l[l.length / 2] := by
        rw [List.getLast_eq_getElem]
        simp [List.getElem_take]
        congr 1
        omega
      have hlast_d : (l.drop (l.length / 2 + 1)).getLast hdne = l.getLast hne := by
        rw [List.getLast_drop]
      by_cases hp : l[l.length / 2] < n
      · rw [if_pos hp]
        obtain ⟨s, hs1, hs2, hs3, hs4⟩ := ih (l.drop (l.length / 2 + 1)) hdne
          (by simp; omega) hsd (by rw [hlast_d]; exact hn)
        refine ⟨s, hs1, List.mem_of_mem_drop hs2, hs3, ?_⟩
        intro t ht hnt
        rw [← happ] at ht
        rcases List.mem_append.1 ht with ht | ht
        · have := le_getLast_of_pairwise _ htne hst t ht
          rw [hlast_t] at this
          omega
        · exact hs4 t ht hnt
      · rw [if_neg hp]
        obtain ⟨s, hs1, hs2, hs3, hs4⟩ := ih (l.take (l.length / 2 + 1)) htne
          (by simp; omega) hst (by rw [hlast_t]; omega)
        refine ⟨s, hs1, List.mem_of_mem_take hs2, hs3, ?_⟩
        intro t ht hnt
        rw [← happ] at ht
        rcases List.mem_append.1 ht with ht | ht
        · exact hs4 t ht hnt
        · exact le_of_lt (hcross s hs2 t ht)

theorem SuitableSize_least (sizes : List Int) (n : Int) (hne : sizes ≠ [])
    (hs : sizes.Pairwise (· < ·)) (hn : n ≤ sizes.getLast hne) :
    ∃ s, SuitableSize sizes n = some s ∧ s ∈ sizes ∧ n ≤ s ∧ ∀ t ∈ sizes, n ≤ t → s ≤ t :=
  SuitableSizeAux_spec n sizes.length sizes hne le_rfl hs hn

/-- C1: for a non-empty strictly increasing schedule and a request not above its last
element, `SuitableSize` returns the smallest schedule element that is at least the request. -/
theorem SuitableSize_smallest_fit (sizes : List Int) (n : Int) (hne : sizes ≠ [])
    (hs : sizes.Pairwise (· < ·)) (hn : n ≤ sizes.getLast hne) :
    ∃ s, SuitableSize sizes n = some s ∧ s ∈ sizes ∧ n ≤ s ∧ ∀ t ∈ sizes, n ≤ t → s ≤ t :=
  SuitableSizeAux_spec n sizes.length sizes hne le_rfl hs hn

theorem SuitableSize_smallest_fit_witness :
    ∃ s, SuitableSize [32, 64, 96, 128] 70 = some s ∧ s ∈ [32, 64, 96, 128] ∧ 70 ≤ s ∧
      ∀ t ∈ [32, 64, 96, 128], 70 ≤ t → s ≤ t :=
  SuitableSize_smallest_fit [32, 64, 96, 128] 70 (by decide) (by decide) (by decide)

/-! ## float64 rounding -/

namespace F64

theorem ilog2Aux_spec : ∀ (fuel n : Nat), n ≤ fuel → 1 ≤ n →
    2 ^ ilog2Aux fuel n ≤ n ∧ n < 2 ^ (ilog2Aux fuel n + 1) := by
  intro fuel
  induction fuel with
  | zero => intro n h1 h2; omega
  | succ fuel ih =>
    intro n h1 h2
    unfold ilog2Aux
    by_cases h : 2 ≤ n
    · rw [if_pos h]
      obtain ⟨a, b⟩ := ih (n / 2) (by omega) (by omega)
      rw [pow_succ] at b ⊢
      rw [pow_succ]
      constructor <;> omega
    · rw [if_neg h]
      have : n = 1 := by omega
      subst this
      decide

theorem ilog2_spec (n : Nat) (h : 1 ≤ n) : 2 ^ ilog2 n ≤ n ∧ n < 2 ^ (ilog2 n + 1) :=
  ilog2Aux_spec n n le_rfl h

theorem round_arith (m P q : Nat) (hP : P * 2 ^ 52 ≤ m) (h1 : P * q ≤ m) (h2 : m < P * q + P) :
    (2 ^ 52 * (q * P) ≤ (2 ^ 52 + 1) * m ∧ (2 ^ 52 - 1) * m ≤ 2 ^ 52 * (q * P)) ∧
    (2 ^ 52 * ((q + 1) * P) ≤ (2 ^ 52 + 1) * m ∧ (2 ^ 52 - 1) * m ≤ 2 ^ 52 * ((q + 1) * P)) := by
  have hA : q * P = P * q := Nat.mul_comm _ _
  have hA1 : (q + 1) * P = P * q + P := by ring
  rw [hA, hA1]
  generalize P * q = A at h1 h2 ⊢
  norm_num at hP ⊢
  refine ⟨⟨?_, ?_⟩, ?_, ?_⟩ <;> omega

/-- Rounding keeps a relative distance of at most `2 ^ -52`. -/
theorem round_spec (neg : Bool) (m : Nat) (e : Int) :
    ∃ (m' k : Nat), round neg m e = fin neg m' (e + k) ∧
      2 ^ 52 * (m' * 2 ^ k) ≤ (2 ^ 52 + 1) * m ∧ (2 ^ 52 - 1) * m ≤ 2 ^ 52 * (m' * 2 ^ k) := by
  unfold round
  by_cases h : m < 2 ^ 53
  · rw [if_pos h]
    refine ⟨m, 0, by simp, ?_, ?_⟩ <;> omega
  · rw [if_neg h]
    have hm : 1 ≤ m := by
      have : (1 : Nat) ≤ 2 ^ 53 := by norm_num
      omega
    obtain ⟨hl, hu⟩ := ilog2_spec m hm
    have h53 : 53 ≤ ilog2 m := by
      by_contra hc
      have : ilog2 m + 1 ≤ 53 := by omega
      have := Nat.pow_le_pow_right (show 0 < 2 by decide) this
      omega
    have hk : ilog2 m = (ilog2 m - 52) + 52 := by omega
    have hP : 2 ^ (ilog2 m - 52) * 2 ^ 52 ≤ m := by
      rw [← pow_add, ← hk]; exact hl
    have hdm := Nat.div_add_mod m (2 ^ (ilog2 m - 52))
    have hlt := Nat.mod_lt m (show 0 < 2 ^ (ilog2 m - 52) by positivity)
    obtain ⟨ha, hb⟩ := round_arith m (2 ^ (ilog2 m - 52)) (m / 2 ^ (ilog2 m - 52)) hP
      (by omega) (by omega)
    simp only
    split
    · exact ⟨m / 2 ^ (ilog2 m - 52) + 1, ilog2 m - 52, rfl, hb.1, hb.2⟩
    · exact ⟨m / 2 ^ (ilog2 m - 52), ilog2 m - 52, rfl, ha.1, ha.2⟩

/-- The value of a rounded non-negative number, from above and from below. -/
theorem round_val (m : Nat) (e : Int) :
    ∃ (m' : Nat) (e' : Int), round false m e = fin false m' e' ∧
      ((m' : ℚ) * 2 ^ e' ≤ (1 + 1 / 2 ^ 52) * ((m : ℚ) * 2 ^ e)) ∧
      ((1 - 1 / 2 ^ 52) * ((m : ℚ) * 2 ^ e) ≤ (m' : ℚ) * 2 ^ e') := by
  obtain ⟨m', k, h1, h2, h3⟩ := round_spec false m e
  refine ⟨m', e + k, h1, ?_, ?_⟩
  · have h2' : ((2 ^ 52 * (m' * 2 ^ k) : Nat) : ℚ) ≤ (((2 ^ 52 + 1) * m : Nat) : ℚ) := by
      exact_mod_cast h2
    push_cast at h2'
    have hpos : (0 : ℚ) < 2 ^ e := by positivity
    rw [zpow_add₀ (by norm_num : (2 : ℚ) ≠ 0), zpow_natCast]
    have : (m' : ℚ) * (2 ^ e * 2 ^ k) = ((m' : ℚ) * 2 ^ k) * 2 ^ e := by ring
    rw [this]
    have h4 : (m' : ℚ) * 2 ^ k ≤ (1 + 1 / 2 ^ 52) * m := by
      have : (1 + 1 / 2 ^ 52 : ℚ) * m = ((2 ^ 52 + 1) * m) / 2 ^ 52 := by field_simp
      rw [this, le_div_iff₀ (by positivity)]
      linarith
    calc (m' : ℚ) * 2 ^ k * 2 ^ e ≤ ((1 + 1 / 2 ^ 52) * m) * 2 ^ e :=
          mul_le_mul_of_nonneg_right h4 (le_of_lt hpos)
      _ = (1 + 1 / 2 ^ 52) * ((m : ℚ) * 2 ^ e) := by ring
  · have h3' : (((2 ^ 52 - 1) * m : Nat) : ℚ) ≤ ((2 ^ 52 * (m' * 2 ^ k) : Nat) : ℚ) := by
      exact_mod_cast h3
    rw [Nat.cast_mul, Nat.cast_sub (by norm_num)] at h3'
    push_cast at h3'
    have hpos : (0 : ℚ) < 2 ^ e := by positivity
    rw [zpow_add₀ (by norm_num : (2 : ℚ) ≠ 0), zpow_natCast]
    have : (m' : ℚ) * (2 ^ e * 2 ^ k) = ((m' : ℚ) * 2 ^ k) * 2 ^ e := by ring
    rw [this]
    have h4 : (1 - 1 / 2 ^ 52 : ℚ) * m ≤ (m' : ℚ) * 2 ^ k := by
      have : (1 - 1 / 2 ^ 52 : ℚ) * m = ((2 ^ 52 - 1) * m) / 2 ^ 52 := by field_simp
      rw [this, div_le_iff₀ (by positivity)]
      linarith
    calc (1 - 1 / 2 ^ 52) * ((m : ℚ) * 2 ^ e) = ((1 - 1 / 2 ^ 52) * m) * 2 ^ e := by ring
      _ ≤ (m' : ℚ) * 2 ^ k * 2 ^ e := mul_le_mul_of_nonneg_right h4 (le_of_lt hpos)

theorem val_fin (m : Nat) (e : Int) : val (fin false m e) = (m : ℚ) * 2 ^ e := by
  simp [val]

/-- Conversion `float64(x)` of a positive integer is a non-negative finite value within `2 ^ -52` of
`x`. -/
theorem ofInt_val (x : Int) (hx : 0 < x) :
    ∃ (m : Nat) (e : Int), ofInt x = fin false m e ∧
      ((m : ℚ) * 2 ^ e ≤ (1 + 1 / 2 ^ 52) * x) ∧ ((1 - 1 / 2 ^ 52) * (x : ℚ) ≤ (m : ℚ) * 2 ^ e) := by
  obtain ⟨m, e, h1, h2, h3⟩ := round_val x.natAbs 0
  have hneg : decide (x < 0) = false := by simp; omega
  have hcast : ((x.natAbs : Nat) : ℚ) = (x : ℚ) := by
    have h0 : ((x.natAbs : Nat) : Int) = x := Int.natAbs_of_nonneg (le_of_lt hx)
    calc ((x.natAbs : Nat) : ℚ) = (((x.natAbs : Nat) : Int) : ℚ) := (Int.cast_natCast _).symm
      _ = (x : ℚ) := by rw [h0]
  rw [hcast, zpow_zero, mul_one] at h2 h3
  exact ⟨m, e, by rw [ofInt, hneg]; exact h1, h2, h3⟩

/-- The product of two non-negative finite values is at most `1 + 2 ^ -52` times the exact
product. -/
theorem mul_val_le (ma mb : Nat) (ea eb : Int) :
    ∃ (m : Nat) (e : Int), mul (fin false ma ea) (fin false mb eb) = fin false m e ∧
      (m : ℚ) * 2 ^ e ≤ (1 + 1 / 2 ^ 52) * (((ma : ℚ) * 2 ^ ea) * ((mb : ℚ) * 2 ^ eb)) := by
  obtain ⟨m, e, h1, h2, _⟩ := round_val (ma * mb) (ea + eb)
  refine ⟨m, e, by simpa [mul] using h1, ?_⟩
  rw [zpow_add₀ (by norm_num : (2 : ℚ) ≠ 0)] at h2
  push_cast at h2
  calc (m : ℚ) * 2 ^ e ≤ (1 + 1 / 2 ^ 52) * ((ma : ℚ) * mb * (2 ^ ea * 2 ^ eb)) := h2
    _ = (1 + 1 / 2 ^ 52) * (((ma : ℚ) * 2 ^ ea) * ((mb : ℚ) * 2 ^ eb)) := by ring

/-- The quotient of two non-negative finite values, the divisor not zero, is a non-negative
finite value at most `1 + 2 ^ -51` times the exact quotient. -/
theorem div_val_le (ma mb : Nat) (ea eb : Int) (hb : 1 ≤ mb) :
    ∃ (m : Nat) (e : Int), div (fin false ma ea) (fin false mb eb) = fin false m e ∧
      (m : ℚ) * 2 ^ e ≤ (1 + 1 / 2 ^ 51) * (((ma : ℚ) * 2 ^ ea) / ((mb : ℚ) * 2 ^ eb)) := by
  have hmb0 : mb ≠ 0 := by omega
  have hmbq : (0 : ℚ) < mb := by exact_mod_cast hb
  by_cases ha : ma = 0
  · subst ha
    refine ⟨0, 0, by simp [div, hmb0], by simp⟩
  · have hmaq : (0 : ℚ) < ma := by
      have : 1 ≤ ma := by omega
      exact_mod_cast this
    obtain ⟨hl, hu⟩ := ilog2_spec mb hb
    obtain ⟨m, e, h1, h2, _⟩ := round_val
      (2 * (ma * 2 ^ (ilog2 mb + 64) / mb)
        + (if ma * 2 ^ (ilog2 mb + 64) % mb = 0 then 0 else 1))
      (ea - eb - ((ilog2 mb + 64 : Nat) : Int) - 1)
    refine ⟨m, e, by simpa [div, hmb0, ha] using h1, ?_⟩
    -- the significand handed to `round`, against the exact quotient
    have hdm := Nat.div_add_mod (ma * 2 ^ (ilog2 mb + 64)) mb
    have hsticky : (2 * (ma * 2 ^ (ilog2 mb + 64) / mb)
        + (if ma * 2 ^ (ilog2 mb + 64) % mb = 0 then 0 else 1)) * mb
        ≤ 2 * (ma * 2 ^ (ilog2 mb + 64)) + mb := by
      have hq : mb * (ma * 2 ^ (ilog2 mb + 64) / mb) ≤ ma * 2 ^ (ilog2 mb + 64) := by omega
      have : (if ma * 2 ^ (ilog2 mb + 64) % mb = 0 then 0 else 1) ≤ 1 := by split <;> omega
      calc (2 * (ma * 2 ^ (ilog2 mb + 64) / mb)
            + (if ma * 2 ^ (ilog2 mb + 64) % mb = 0 then 0 else 1)) * mb
          ≤ (2 * (ma * 2 ^ (ilog2 mb + 64) / mb) + 1) * mb :=
            Nat.mul_le_mul_right _ (by omega)
        _ = 2 * (mb * (ma * 2 ^ (ilog2 mb + 64) / mb)) + mb := by ring
        _ ≤ 2 * (ma * 2 ^ (ilog2 mb + 64)) + mb := by omega
    have hbig : mb * 2 ^ 63 ≤ ma * 2 ^ (ilog2 mb + 64) := by
      have e1 : 2 ^ (ilog2 mb + 64) = 2 ^ (ilog2 mb + 1) * 2 ^ 63 := by
        rw [← pow_add]
      have h1' : 1 ≤ ma := by omega
      calc mb * 2 ^ 63 ≤ 2 ^ (ilog2 mb + 1) * 2 ^ 63 := Nat.mul_le_mul_right _ (le_of_lt hu)
        _ = 1 * 2 ^ (ilog2 mb + 64) := by rw [e1, one_mul]
        _ ≤ ma * 2 ^ (ilog2 mb + 64) := Nat.mul_le_mul_right _ h1'
    generalize (2 * (ma * 2 ^ (ilog2 mb + 64) / mb)
        + (if ma * 2 ^ (ilog2 mb + 64) % mb = 0 then 0 else 1)) = M at h2 hsticky
    have hsq : (M : ℚ) * mb ≤ 2 * ((ma : ℚ) * 2 ^ (ilog2 mb + 64)) + mb := by exact_mod_cast hsticky
    have hbq : (mb : ℚ) * 2 ^ 63 ≤ (ma : ℚ) * 2 ^ (ilog2 mb + 64) := by exact_mod_cast hbig
    have hM : (M : ℚ) ≤ (1 + 1 / 2 ^ 64) * (2 * ((ma : ℚ) * 2 ^ (ilog2 mb + 64)) / mb) := by
      rw [mul_div_assoc', le_div_iff₀ hmbq]
      have : (mb : ℚ) ≤ 1 / 2 ^ 64 * (2 * ((ma : ℚ) * 2 ^ (ilog2 mb + 64))) := by
        have : (mb : ℚ) = (mb * 2 ^ 63) * (1 / 2 ^ 64 * 2) := by ring
        rw [this]
        calc (mb : ℚ) * 2 ^ 63 * (1 / 2 ^ 64 * 2)
            ≤ ((ma : ℚ) * 2 ^ (ilog2 mb + 64)) * (1 / 2 ^ 64 * 2) :=
              mul_le_mul_of_nonneg_right hbq (by positivity)
          _ = 1 / 2 ^ 64 * (2 * ((ma : ℚ) * 2 ^ (ilog2 mb + 64))) := by ring
      linarith
    have hE : (2 : ℚ) ^ (ea - eb - ((ilog2 mb + 64 : Nat) : Int) - 1)
        = 2 ^ ea / (2 ^ eb * 2 ^ (ilog2 mb + 64) * 2) := by
      rw [zpow_sub₀ (by norm_num : (2 : ℚ) ≠ 0), zpow_sub₀ (by norm_num : (2 : ℚ) ≠ 0),
        zpow_sub₀ (by norm_num : (2 : ℚ) ≠ 0), zpow_natCast, zpow_one]
      field_simp
    have hpe : (0 : ℚ) < 2 ^ (ea - eb - ((ilog2 mb + 64 : Nat) : Int) - 1) := by positivity
    have hexact : 2 * ((ma : ℚ) * 2 ^ (ilog2 mb + 64)) / mb
          * 2 ^ (ea - eb - ((ilog2 mb + 64 : Nat) : Int) - 1)
        = ((ma : ℚ) * 2 ^ ea) / ((mb : ℚ) * 2 ^ eb) := by
      rw [hE]
      have h2e : (2 : ℚ) ^ eb ≠ 0 := by positivity
      have h2s : (2 : ℚ) ^ (ilog2 mb + 64) ≠ 0 := by positivity
      field_simp
      ring
    have hq0 : (0 : ℚ) ≤ ((ma : ℚ) * 2 ^ ea) / ((mb : ℚ) * 2 ^ eb) := by positivity
    calc (m : ℚ) * 2 ^ e
        ≤ (1 + 1 / 2 ^ 52) * ((M : ℚ) * 2 ^ (ea - eb - ((ilog2 mb + 64 : Nat) : Int) - 1)) := h2
      _ ≤ (1 + 1 / 2 ^ 52) * (((1 + 1 / 2 ^ 64) * (2 * ((ma : ℚ) * 2 ^ (ilog2 mb + 64)) / mb))
            * 2 ^ (ea - eb - ((ilog2 mb + 64 : Nat) : Int) - 1)) := by
          apply mul_le_mul_of_nonneg_left _ (by norm_num)
          exact mul_le_mul_of_nonneg_right hM (le_of_lt hpe)
      _ = ((1 + 1 / 2 ^ 52) * (1 + 1 / 2 ^ 64)) * (((ma : ℚ) * 2 ^ ea) / ((mb : ℚ) * 2 ^ eb)) := by
          rw [← hexact]; ring
      _ ≤ (1 + 1 / 2 ^ 51) * (((ma : ℚ) * 2 ^ ea) / ((mb : ℚ) * 2 ^ eb)) :=
          mul_le_mul_of_nonneg_right (by norm_num) hq0

end F64

namespace F64

theorem gt_false_of_val_le (ma mb : Nat) (ea eb : Int)
    (h : (ma : ℚ) * 2 ^ ea ≤ (mb : ℚ) * 2 ^ eb) :
    gt (fin false ma ea) (fin false mb eb) = false := by
  have key : ∀ (m : Nat) (ex : Int), min ea eb ≤ ex →
      (((m : Int) * 2 ^ (ex - min ea eb).toNat : Int) : ℚ) = ((m : ℚ) * 2 ^ ex) / 2 ^ (min ea eb) := by
    intro m ex hle
    have h1 : (((ex - min ea eb).toNat : Nat) : Int) = ex - min ea eb :=
      Int.toNat_of_nonneg (by omega)
    push_cast
    rw [← zpow_natCast, h1, zpow_sub₀ (by norm_num : (2 : ℚ) ≠ 0)]
    ring
  have ha := key ma ea (min_le_left _ _)
  have hb := key mb eb (min_le_right _ _)
  have hpos : (0 : ℚ) < 2 ^ (min ea eb) := by positivity
  have hle : (((ma : Int) * 2 ^ (ea - min ea eb).toNat : Int) : ℚ)
      ≤ (((mb : Int) * 2 ^ (eb - min ea eb).toNat : Int) : ℚ) := by
    rw [ha, hb]
    exact div_le_div_of_nonneg_right h (le_of_lt hpos)
  have hle' : (ma : Int) * 2 ^ (ea - min ea eb).toNat ≤ (mb : Int) * 2 ^ (eb - min ea eb).toNat := by
    exact_mod_cast hle
  simp only [gt, scaled, Bool.false_eq_true, if_false, decide_eq_false_iff_not, not_lt]
  exact hle'

theorem toInt_le_val (m : Nat) (e : Int) : ((toInt (fin false m e) : Int) : ℚ) ≤ (m : ℚ) * 2 ^ e := by
  simp only [toInt, Bool.false_eq_true, if_false]
  by_cases he : 0 ≤ e
  · rw [if_pos he]
    have h1 : ((e.toNat : Nat) : Int) = e := Int.toNat_of_nonneg he
    push_cast
    rw [← zpow_natCast, h1]
  · rw [if_neg he]
    have h1 : (((-e).toNat : Nat) : Int) = -e := Int.toNat_of_nonneg (by omega)
    have h2 : ((m : Int) / 2 ^ (-e).toNat : Int) = ((m / 2 ^ (-e).toNat : Nat) : Int) := by
      push_cast; rfl
    rw [h2, Int.cast_natCast]
    have h3 : (2 : ℚ) ^ e = 1 / 2 ^ (-e).toNat := by
      rw [← zpow_natCast, h1, zpow_neg]; field_simp
    rw [h3]
    calc ((m / 2 ^ (-e).toNat : Nat) : ℚ) ≤ (m : ℚ) / ((2 ^ (-e).toNat : Nat) : ℚ) := Nat.cast_div_le
      _ = (m : ℚ) * (1 / 2 ^ (-e).toNat) := by push_cast; ring

end F64

/-! ## Blocksizes -/

/-- An `int64` operation whose exact result is an `int64` does not wrap. -/
theorem wrap64_of_range (x : Int) (h1 : -9223372036854775808 ≤ x) (h2 : x < 9223372036854775808) :
    wrap64 x = x := by
  unfold wrap64
  omega

/-- The loop of `nextsize` stops as soon as `size` exceeds `8/7` of `from`: the mean
utilisation `(from + size) / 2 / size` is then below `15/16`, which float64 rounding cannot
lift above `MEMUtilization`. -/
theorem nextsizeTest_false (src size : Int) (hsrc : 0 < src) (hsize : 0 < size)
    (h : 8 * src < 7 * size) (hbnd : src + size < 9223372036854775808) :
    nextsizeTest src size = false := by
  obtain ⟨ma, ea, ha, ha1, _⟩ := F64.ofInt_val (src + size) (by omega)
  obtain ⟨mb, eb, hb, _, hb2⟩ := F64.ofInt_val size hsize
  have hZ : (0 : ℚ) < (size : ℚ) := by exact_mod_cast hsize
  have hBpos : (0 : ℚ) < (mb : ℚ) * 2 ^ eb := by
    have : (0 : ℚ) < (1 - 1 / 2 ^ 52) * (size : ℚ) := mul_pos (by norm_num) hZ
    linarith
  have hmb : 1 ≤ mb := by
    by_contra hc
    have : mb = 0 := by omega
    rw [this] at hBpos
    simp at hBpos
  obtain ⟨mh, eh, hh, hh1⟩ := F64.div_val_le ma 1 ea 1 le_rfl
  obtain ⟨mq, eq, hq, hq1⟩ := F64.div_val_le mh mb eh eb hmb
  unfold nextsizeTest
  rw [wrap64_of_range (src + size) (by omega) hbnd, ha, hb,
    show two = F64.fin false 1 1 from rfl, hh, hq,
    show MEMUtilization = F64.fin false 8556839292003942 (-53) from rfl]
  apply F64.gt_false_of_val_le
  -- the chain of bounds
  have hS : ((src + size : Int) : ℚ) ≤ 15 / 8 * (size : ℚ) := by
    have : ((8 * (src + size) : Int) : ℚ) ≤ ((15 * size : Int) : ℚ) := by
      exact_mod_cast (show 8 * (src + size) ≤ 15 * size by omega)
    push_cast at this ⊢
    linarith
  have hA : (ma : ℚ) * 2 ^ ea ≤ (1 + 1 / 2 ^ 52) * (15 / 8 * (size : ℚ)) :=
    le_trans ha1 (mul_le_mul_of_nonneg_left hS (by norm_num))
  have hH : (mh : ℚ) * 2 ^ eh ≤ (1 + 1 / 2 ^ 51) * ((1 + 1 / 2 ^ 52) * (15 / 8 * (size : ℚ)) / 2) := by
    have e1 : ((1 : Nat) : ℚ) * 2 ^ (1 : Int) = 2 := by norm_num
    rw [e1] at hh1
    exact le_trans hh1 (mul_le_mul_of_nonneg_left
      (div_le_div_of_nonneg_right hA (by norm_num)) (by norm_num))
  have hQ : (mq : ℚ) * 2 ^ eq * ((mb : ℚ) * 2 ^ eb) ≤ (1 + 1 / 2 ^ 51) * ((mh : ℚ) * 2 ^ eh) := by
    have := mul_le_mul_of_nonneg_right hq1 (le_of_lt hBpos)
    have e2 : (1 + 1 / 2 ^ 51 : ℚ) * ((mh : ℚ) * 2 ^ eh / ((mb : ℚ) * 2 ^ eb)) * ((mb : ℚ) * 2 ^ eb)
        = (1 + 1 / 2 ^ 51) * ((mh : ℚ) * 2 ^ eh) := by
      rw [mul_assoc, div_mul_cancel₀ _ (ne_of_gt hBpos)]
    rw [e2] at this
    exact this
  have hconst : (1 + 1 / 2 ^ 51 : ℚ) * ((1 + 1 / 2 ^ 51) * ((1 + 1 / 2 ^ 52) * (15 / 8) / 2))
      ≤ (8556839292003942 : ℚ) * 2 ^ (-53 : Int) * (1 - 1 / 2 ^ 52) := by
    norm_num
  have hfin : (mq : ℚ) * 2 ^ eq * ((mb : ℚ) * 2 ^ eb)
      ≤ ((8556839292003942 : Nat) : ℚ) * 2 ^ (-53 : Int) * ((mb : ℚ) * 2 ^ eb) := by
    calc (mq : ℚ) * 2 ^ eq * ((mb : ℚ) * 2 ^ eb)
        ≤ (1 + 1 / 2 ^ 51) * ((mh : ℚ) * 2 ^ eh) := hQ
      _ ≤ (1 + 1 / 2 ^ 51) * ((1 + 1 / 2 ^ 51) * ((1 + 1 / 2 ^ 52) * (15 / 8 * (size : ℚ)) / 2)) :=
          mul_le_mul_of_nonneg_left hH (by norm_num)
      _ = ((1 + 1 / 2 ^ 51) * ((1 + 1 / 2 ^ 51) * ((1 + 1 / 2 ^ 52) * (15 / 8) / 2))) * (size : ℚ) := by
          ring
      _ ≤ ((8556839292003942 : ℚ) * 2 ^ (-53 : Int) * (1 - 1 / 2 ^ 52)) * (size : ℚ) :=
          mul_le_mul_of_nonneg_right hconst (le_of_lt hZ)
      _ = (8556839292003942 : ℚ) * 2 ^ (-53 : Int) * ((1 - 1 / 2 ^ 52) * (size : ℚ)) := by ring
      _ ≤ (8556839292003942 : ℚ) * 2 ^ (-53 : Int) * ((mb : ℚ) * 2 ^ eb) :=
          mul_le_mul_of_nonneg_left hb2 (by positivity)
      _ = ((8556839292003942 : Nat) : ℚ) * 2 ^ (-53 : Int) * ((mb : ℚ) * 2 ^ eb) := by norm_num
  exact le_of_mul_le_mul_right hfin hBpos

/-- The step of `nextsize` is at least 32, and at most 32 or a sixteenth of `from`. -/
theorem nextsizeAddby_bounds (src : Int) (hsrc : 0 < src) :
    32 ≤ nextsizeAddby src ∧ (nextsizeAddby src = 32 ∨ 16 * nextsizeAddby src ≤ src) := by
  obtain ⟨ma, ea, ha, ha1, _⟩ := F64.ofInt_val src hsrc
  obtain ⟨m, e, hm, hm1⟩ := F64.mul_val_le ma 7205759403792794 ea (-57)
  have hX : (0 : ℚ) < (src : ℚ) := by exact_mod_cast hsrc
  unfold nextsizeAddby
  rw [ha, show oneMinusMEMUtilization = F64.fin false 7205759403792794 (-57) from rfl, hm]
  have ht := F64.toInt_le_val m e
  split
  · exact ⟨le_rfl, Or.inl rfl⟩
  · refine ⟨by omega, Or.inr ?_⟩
    have hc : (1 + 1 / 2 ^ 52 : ℚ) * (((1 + 1 / 2 ^ 52) * (src : ℚ))
        * (((7205759403792794 : Nat) : ℚ) * 2 ^ (-57 : Int))) ≤ (src : ℚ) / 16 := by
      have : (1 + 1 / 2 ^ 52 : ℚ) * (((1 + 1 / 2 ^ 52) * (src : ℚ))
          * (((7205759403792794 : Nat) : ℚ) * 2 ^ (-57 : Int)))
          = ((1 + 1 / 2 ^ 52) * (1 + 1 / 2 ^ 52) * (7205759403792794 * 2 ^ (-57 : Int))) * (src : ℚ) := by
        push_cast; ring
      rw [this]
      have hk : ((1 + 1 / 2 ^ 52 : ℚ) * (1 + 1 / 2 ^ 52) * (7205759403792794 * 2 ^ (-57 : Int))) ≤ 1 / 16 := by
        norm_num
      calc _ ≤ (1 / 16 : ℚ) * (src : ℚ) := mul_le_mul_of_nonneg_right hk (le_of_lt hX)
        _ = (src : ℚ) / 16 := by ring
    have h2 : (m : ℚ) * 2 ^ e ≤ (src : ℚ) / 16 :=
      le_trans hm1 (le_trans (mul_le_mul_of_nonneg_left
        (mul_le_mul_of_nonneg_right ha1 (by positivity)) (by norm_num)) hc)
    have h3 : ((16 * F64.toInt (F64.fin false m e) : Int) : ℚ) ≤ ((src : Int) : ℚ) := by
      push_cast
      linarith
    exact_mod_cast h3

theorem nextsizeLoop_spec (src addby : Int) (hsrc : 0 < src) (hadd : 32 ≤ addby)
    (hbnd : src ≤ 2305843009213693952) (haddle : addby ≤ src) :
    ∀ (fuel : Nat) (size : Int), src < size → 7 * (size - addby) ≤ 8 * src →
      8 * src - 7 * (size - addby) < 224 * fuel →
      ∃ r, nextsizeLoop src addby fuel size = some r ∧ size ≤ r ∧ 7 * (r - addby) ≤ 8 * src ∧
        (r = size ∨ 7 * size ≤ 8 * src) := by
  intro fuel
  induction fuel with
  | zero => intro size _ h2 h3; simp at h3; omega
  | succ fuel ih =>
    intro size h1 h2 h3
    unfold nextsizeLoop
    by_cases ht : nextsizeTest src size = true
    · rw [if_pos ht]
      have h7 : 7 * size ≤ 8 * src := by
        by_contra hc
        have := nextsizeTest_false src size hsrc (by omega) (by omega) (by omega)
        rw [this] at ht
        cases ht
      rw [wrap64_of_range (size + addby) (by omega) (by omega)]
      obtain ⟨r, hr1, hr2, hr3, _⟩ := ih (size + addby) (by omega) (by omega)
        (by push_cast at h3; omega)
      exact ⟨r, hr1, by omega, hr3, Or.inr h7⟩
    · rw [if_neg ht]
      exact ⟨size, rfl, le_rfl, h2, Or.inl rfl⟩

/-- Termination: `nextsize` returns, for `from ≥ 32` the loop stops within its budget, at a size that is
at least `from + 32` and at most twice `from`. -/
theorem nextsize_terminates (src : Int) (hsrc : 32 ≤ src) (hbnd : src ≤ 2305843009213693952) :
    ∃ r, nextsize src = some r ∧ src + 32 ≤ r ∧ r ≤ 2 * src := by
  obtain ⟨ha1, ha2⟩ := nextsizeAddby_bounds src (by omega)
  have hcast : ((src.natAbs : Nat) : Int) = src := Int.natAbs_of_nonneg (by omega)
  have haddle : nextsizeAddby src ≤ src := by
    rcases ha2 with h | h <;> omega
  obtain ⟨r, hr1, hr2, hr3, hr4⟩ := nextsizeLoop_spec src (nextsizeAddby src) (by omega) ha1
    hbnd haddle
    (src.natAbs + 1) (src + nextsizeAddby src) (by omega) (by omega)
    (by rw [Nat.cast_add, hcast, Nat.cast_one]; omega)
  unfold nextsize
  rw [wrap64_of_range (src + nextsizeAddby src) (by omega) (by omega)]
  refine ⟨r, hr1, by omega, ?_⟩
  rcases hr4 with h | h <;> rcases ha2 with h' | h' <;> omega

theorem BlocksizesLoop_spec (maxblock : Int) (hbnd : maxblock ≤ 2305843009213693952) :
    ∀ (fuel : Nat) (size : Int) (acc : List Int), 32 ≤ size → 1 ≤ fuel →
      (size < maxblock → maxblock - size + 32 ≤ 32 * fuel) →
      List.Chain' GrowsWithin acc → (∀ a ∈ acc, 32 ≤ a) → 32 ≤ maxblock →
      (∀ a ∈ acc.getLast?, a < maxblock ∧ a < size ∧ size ≤ 2 * a) →
      ∃ rest, BlocksizesLoop maxblock fuel size acc = some (acc ++ rest) ∧
        List.Chain' GrowsWithin (acc ++ rest) ∧ (∀ a ∈ acc ++ rest, 32 ≤ a) ∧
        rest.head? = some (min size maxblock) ∧ (acc ++ rest).getLast? = some maxblock := by
  intro fuel
  induction fuel with
  | zero => intro size acc _ h; omega
  | succ fuel ih =>
    intro size acc hsize _ hfuel hchain hall hmax hlast
    unfold BlocksizesLoop
    by_cases hlt : size < maxblock
    · rw [if_pos hlt]
      obtain ⟨next, hn1, hn2, hn3⟩ := nextsize_terminates size hsize (by omega)
      rw [hn1]
      simp only
      have hf := hfuel hlt
      have hchain' : List.Chain' GrowsWithin (acc ++ [size]) := by
        refine List.Chain'.append hchain (List.chain'_singleton _) ?_
        intro x hx y hy
        simp only [List.head?_cons, Option.mem_def, Option.some.injEq] at hy
        subst hy
        have := hlast x hx
        exact ⟨this.2.1, this.2.2⟩
      obtain ⟨rest, h1, h2, h3, h4, h5⟩ := ih next (acc ++ [size]) (by omega)
        (by push_cast at hf; omega) (by intro _; push_cast at hf; omega) hchain'
        (by
          intro a ha
          rcases List.mem_append.1 ha with ha | ha
          · exact hall a ha
          · simp only [List.mem_singleton] at ha; omega) hmax
        (by
          intro a ha
          simp [List.getLast?_append] at ha
          subst ha
          exact ⟨hlt, by omega, hn3⟩)
      refine ⟨size :: rest, ?_, ?_, ?_, ?_, ?_⟩
      · rw [h1]; simp
      · simpa using h2
      · simpa using h3
      · simp only [List.head?_cons, Option.some.injEq]; omega
      · simpa using h5
    · rw [if_neg hlt]
      refine ⟨[maxblock], rfl, ?_, ?_, ?_, ?_⟩
      · refine List.Chain'.append hchain (List.chain'_singleton _) ?_
        intro x hx y hy
        simp only [List.head?_cons, Option.mem_def, Option.some.injEq] at hy
        subst hy
        have := hlast x hx
        exact ⟨this.1, by omega⟩
      · intro a ha
        rcases List.mem_append.1 ha with ha | ha
        · exact hall a ha
        · simp only [List.mem_singleton] at ha; omega
      · simp only [List.head?_cons, Option.some.injEq]; omega
      · simp

/-- The schedule of `Blocksizes` for positive multiples of 32 up to `2^61`, where no `int`
operation of `nextsize` wraps: it starts at `minblock`, ends at `maxblock`, and each size is
larger than, and at most twice, the one before it. -/
theorem Blocksizes_spec (minblock maxblock : Int) (hmin : 0 < minblock) (hle : minblock ≤ maxblock)
    (h1 : 32 ∣ minblock) (h2 : 32 ∣ maxblock) (hbnd : maxblock ≤ 2305843009213693952) :
    ∃ sizes, Blocksizes minblock maxblock = .ok sizes ∧ List.Chain' GrowsWithin sizes ∧
      (∀ a ∈ sizes, 32 ≤ a) ∧ sizes.head? = some minblock ∧ sizes.getLast? = some maxblock := by
  have hmin32 : 32 ≤ minblock := by omega
  obtain ⟨rest, r1, r2, r3, r4, r5⟩ := BlocksizesLoop_spec maxblock hbnd
    ((maxblock - minblock).toNat + 1) minblock [] hmin32 (by omega)
    (by intro _; push_cast; omega) List.chain'_nil (by simp) (by omega) (by simp)
  rw [List.nil_append] at r1 r2 r3 r5
  refine ⟨rest, ?_, r2, r3, by rw [r4, min_eq_left hle], r5⟩
  unfold Blocksizes
  rw [if_neg (by omega), if_neg (by
      rw [show sizeinterval = 32 from rfl, Int.tmod_eq_zero_of_dvd h1]; simp),
    if_neg (by
      rw [show sizeinterval = 32 from rfl, Int.tmod_eq_zero_of_dvd h2]; simp), r1]

theorem chain_predecessor (l : List Int) (h : List.Chain' GrowsWithin l) :
    ∀ s ∈ l, l.head? = some s ∨ ∃ a ∈ l, GrowsWithin a s := by
  induction l with
  | nil => intro s hs; simp at hs
  | cons x l ih =>
    intro s hs
    rcases List.mem_cons.1 hs with rfl | hs
    · exact Or.inl rfl
    · rw [List.chain'_cons'] at h
      rcases ih h.2 s hs with h1 | ⟨a, ha, har⟩
      · exact Or.inr ⟨x, List.mem_cons_self _ _, h.1 s h1⟩
      · exact Or.inr ⟨a, List.mem_cons_of_mem _ ha, har⟩

/-- C2 (amended): for positive multiples of 32 `minblock ≤ maxblock ≤ 2^61`, where the `int`
arithmetic of `nextsize` does not wrap, and a request `n` between them, `Blocksizes`
returns a schedule on which `SuitableSize` picks a block size `s ≥ n` that wastes less than
half of the block: `2 * (s - n) < s`. -/
theorem suitable_block_wastes_less_than_half (minblock maxblock n : Int) (hmin : 0 < minblock)
    (hle : minblock ≤ maxblock) (h1 : 32 ∣ minblock) (h2 : 32 ∣ maxblock)
    (hmax : maxblock ≤ 2 ^ 61) (hn1 : minblock ≤ n) (hn2 : n ≤ maxblock) :
    ∃ sizes s, Blocksizes minblock maxblock = .ok sizes ∧ SuitableSize sizes n = some s ∧
      n ≤ s ∧ 2 * (s - n) < s := by
  obtain ⟨sizes, hb, hchain, hall, hhead, hlast⟩ := Blocksizes_spec minblock maxblock hmin hle h1 h2
    (le_trans hmax (by norm_num))
  have hne : sizes ≠ [] := by
    intro h; rw [h] at hhead; simp at hhead
  have hpw : sizes.Pairwise (· < ·) :=
    List.chain'_iff_pairwise.1 (hchain.imp (fun a b h => h.1))
  have hl : sizes.getLast hne = maxblock := by
    rw [List.getLast?_eq_getLast _ hne] at hlast
    exact Option.some.inj hlast
  obtain ⟨s, hs1, hs2, hs3, hs4⟩ := SuitableSize_least sizes n hne hpw (by rw [hl]; exact hn2)
  refine ⟨sizes, s, hb, hs1, hs3, ?_⟩
  have h32 := hall s hs2
  rcases chain_predecessor sizes hchain s hs2 with h | ⟨a, ha, har⟩
  · rw [hhead] at h
    have : minblock = s := Option.some.inj h
    omega
  · have hlt : a < n := by
      by_contra hc
      have := hs4 a ha (by omega)
      have := har.1
      omega
    have := har.2
    omega

theorem suitable_block_wastes_less_than_half_witness :
    ∃ sizes s, Blocksizes 32 64 = .ok sizes ∧ SuitableSize sizes 33 = some s ∧
      33 ≤ s ∧ 2 * (s - 33) < s :=
  suitable_block_wastes_less_than_half 32 64 33 (by decide) (by decide) ⟨1, rfl⟩ ⟨2, rfl⟩
    (by norm_num) (by decide) (by decide)

/-- C2, as stated, fails for `minblock = 32`, `maxblock = 64`, `n = 33`: the schedule is
`[32, 64]`, the block size chosen for 33 bytes is 64, and `64 - 33 = 31` is more than 5% of
64. -/
theorem five_percent_waste_fails :
    (0 : Int) < 32 ∧ (32 : Int) ≤ 64 ∧ (32 : Int) ∣ 32 ∧ (32 : Int) ∣ 64 ∧
    (32 : Int) ≤ 33 ∧ (33 : Int) ≤ 64 ∧
    Blocksizes 32 64 = .ok [32, 64] ∧ SuitableSize [32, 64] 33 = some 64 ∧
    ¬ ((((64 : Int) : ℚ) - ((33 : Int) : ℚ)) ≤ 5 / 100 * ((64 : Int) : ℚ)) :=
  ⟨by decide, by decide, ⟨1, rfl⟩, ⟨2, rfl⟩, by decide, by decide,
    by set_option maxRecDepth 1000000 in decide, by decide, by norm_num⟩

/-! ## mempool -/

theorem findfirstset8_mask (r : Nat) (h : r < 8) : findfirstset8 (256 - 2 ^ r) = r := by
  interval_cases r <;> decide

theorem clearbit8_mask (r : Nat) (h : r < 8) : clearbit8 (256 - 2 ^ r) r = 256 - 2 ^ (r + 1) := by
  interval_cases r <;> decide

theorem scanfree_replicate_pos (c i : Nat) :
    scanfree (List.replicate c 255) i = if c = 0 then -1 else (i : Int) := by
  cases c with
  | zero => rfl
  | succ c => simp [List.replicate_succ, scanfree]

theorem replicate_zero_shift (q : Nat) (l : List Nat) :
    List.replicate q 0 ++ 0 :: l = List.replicate (q + 1) 0 ++ l := by
  rw [List.replicate_succ', List.append_assoc]
  rfl

theorem alloc_poolAfter (size : Int) (base B j : Nat) (hj : j < 8 * B) :
    (poolAfter size base B j).alloc
      = .ok (some (blockAddr base size j), poolAfter size base B (j + 1)) := by
  have hq : j / 8 < B := by omega
  have hr : j % 8 < 8 := Nat.mod_lt _ (by decide)
  have hlen : (List.replicate (j / 8) 0).length = j / 8 := List.length_replicate _ _
  have hget : (poolAfter size base B j).freelist[j / 8]? = some (256 - 2 ^ (j % 8)) := by
    simp only [poolAfter, if_pos hq]
    rw [List.getElem?_append_right (by rw [hlen])]
    simp [hlen]
  have hoff : (poolAfter size base B j).freeoff = (j / 8 : Nat) := by
    simp only [poolAfter, if_pos hq]
  have hbyte : (256 - 2 ^ (j % 8) : Nat) ≠ 0 := by
    generalize j % 8 = r at hr
    interval_cases r <;> decide
  unfold mempool.alloc
  rw [hoff]
  have hnn : ¬ ((j / 8 : Nat) : Int) < 0 := by omega
  rw [if_neg hnn]
  simp only [Int.toNat_ofNat, hget, if_neg hbyte, findfirstset8_mask _ hr, clearbit8_mask _ hr]
  congr 2
  · -- the pointer
    unfold blockAddr
    congr 2
    have : (j : Int) = ((j / 8 : Nat) : Int) * 8 + ((j % 8 : Nat) : Int) := by omega
    simp only [poolAfter]
    rw [this]
    push_cast
    ring_nf
  · -- the pool after the call
    simp only [poolAfter, if_pos hq]
    have hset : (List.replicate (j / 8) 0 ++ (256 - 2 ^ (j % 8)) :: List.replicate (B - j / 8 - 1) 255).set
        (j / 8) (256 - 2 ^ (j % 8 + 1))
        = List.replicate (j / 8) 0 ++ (256 - 2 ^ (j % 8 + 1)) :: List.replicate (B - j / 8 - 1) 255 := by
      rw [List.set_append_right _ _ (by rw [hlen])]
      simp [hlen]
    rw [hset]
    have hdrop : (List.replicate (j / 8) 0 ++ (256 - 2 ^ (j % 8 + 1)) :: List.replicate (B - j / 8 - 1) 255).drop
        (j / 8) = (256 - 2 ^ (j % 8 + 1)) :: List.replicate (B - j / 8 - 1) 255 := by
      rw [List.drop_append_of_le_length (by rw [hlen])]
      simp [hlen]
    rw [hdrop]
    by_cases h7 : j % 8 = 7
    · have hq1 : (j + 1) / 8 = j / 8 + 1 := by omega
      have hr1 : (j + 1) % 8 = 0 := by omega
      rw [hq1, hr1, h7]
      have hz : (256 - 2 ^ (7 + 1) : Nat) = 0 := by decide
      have hff : (256 - 2 ^ 0 : Nat) = 255 := by decide
      rw [hz, hff, replicate_zero_shift]
      simp only [scanfree, scanfree_replicate_pos, Nat.lt_irrefl, if_false]
      by_cases hB : j / 8 + 1 < B
      · have e1 : B - j / 8 - 1 = (B - (j / 8 + 1) - 1) + 1 := by omega
        have hne : ¬ (B - j / 8 - 1 = 0) := by omega
        rw [if_pos hB, if_pos hB, if_neg hne, e1, List.replicate_succ]
        push_cast
        rfl
      · have e1 : B - j / 8 - 1 = 0 := by omega
        rw [if_neg hB, if_neg hB, e1]
        simp
    · have hq1 : (j + 1) / 8 = j / 8 := by omega
      have hr1 : (j + 1) % 8 = j % 8 + 1 := by omega
      rw [hq1, hr1, if_pos hq, if_pos hq]
      have hpos : 0 < 256 - 2 ^ (j % 8 + 1) := by
        have : j % 8 < 7 := by omega
        generalize j % 8 = r at this
        interval_cases r <;> decide
      simp only [scanfree, if_pos hpos]

theorem allocN_poolAfter (size : Int) (base B : Nat) :
    ∀ (k j : Nat), j + k ≤ 8 * B →
      (poolAfter size base B j).allocN k
        = .ok ((List.range' j k).map (fun i => some (blockAddr base size i)),
            poolAfter size base B (j + k)) := by
  intro k
  induction k with
  | zero => intro j _; rfl
  | succ k ih =>
    intro j hj
    rw [mempool.allocN, alloc_poolAfter size base B j (by omega)]
    simp only
    rw [ih (j + 1) (by omega)]
    simp [List.range'_succ, Nat.add_assoc, Nat.add_comm 1 k]

theorem newmempool_eq_poolAfter (size n : Int) (base : Nat) (hn : 1 ≤ n) :
    newmempool size n base = .ok (poolAfter size base ((n + 7) / 8).toNat 0) := by
  have hB : 1 ≤ ((n + 7) / 8).toNat := by omega
  have hn' : (if n % 8 ≠ 0 then (n / 8 + 1) * 8 else n) = (((n + 7) / 8).toNat : Int) * 8 := by
    split <;> omega
  unfold newmempool
  simp only [hn']
  rw [if_neg (by omega)]
  have e1 : ((((n + 7) / 8).toNat : Int) * 8 / 8).toNat = ((n + 7) / 8).toNat := by omega
  have e2 : ((n + 7) / 8).toNat = (((n + 7) / 8).toNat - 0 / 8 - 1) + 1 := by omega
  simp only [poolAfter, e1, Nat.zero_div, List.replicate_zero, List.nil_append,
    if_pos (show 0 < ((n + 7) / 8).toNat by omega), Nat.zero_mod, pow_zero]
  congr 2
  · push_cast; ring
  · rw [show (256 - 1 : Nat) = 255 from rfl, Nat.sub_zero, ← List.replicate_succ]
    congr 1

theorem isfree_poolAfter_zero (size : Int) (base B i : Nat) (hi : i < 8 * B) :
    (poolAfter size base B 0).isfree i = true := by
  have hq : i / 8 < B := by omega
  have hfl : (poolAfter size base B 0).freelist = List.replicate B 255 := by
    have e : B = (B - 0 / 8 - 1) + 1 := by omega
    simp only [poolAfter, Nat.zero_div, List.replicate_zero, List.nil_append,
      if_pos (show 0 < B by omega), Nat.zero_mod, pow_zero]
    rw [show (256 - 1 : Nat) = 255 from rfl, Nat.sub_zero, ← List.replicate_succ]
    congr 1
    omega
  unfold mempool.isfree
  rw [hfl, List.getElem?_replicate, if_pos hq]
  have hr : i % 8 < 8 := Nat.mod_lt _ (by decide)
  generalize i % 8 = r at hr
  interval_cases r <;> decide

theorem alloc_poolAfter_full (size : Int) (base B : Nat) :
    (poolAfter size base B (8 * B)).alloc = .ok (none, poolAfter size base B (8 * B)) := by
  have hq : ¬ (8 * B / 8 < B) := by omega
  unfold mempool.alloc
  have hoff : (poolAfter size base B (8 * B)).freeoff = -1 := by
    simp only [poolAfter, if_neg hq]
  rw [hoff]
  rfl

/-- C3: for a positive block size and `n ≥ 1`, the pool made by `newmempool(size, n)` holds
`blocks` blocks, `blocks` being the least multiple of 8 that is at least `n`, all free; the
first `blocks` calls of `alloc` succeed with pairwise distinct addresses of the form
`base + i * size`, `i < blocks`, and the next `alloc` returns `(nil, false)`. -/
theorem newmempool_alloc_exhausts (size n : Int) (base : Nat) (hs : 0 < size) (hn : 1 ≤ n) :
    ∃ (blocks : Nat) (pool pool' : mempool) (ptrs : List Nat),
      n ≤ blocks ∧ blocks % 8 = 0 ∧ (blocks : Int) < n + 8 ∧
      newmempool size n base = .ok pool ∧
      pool.freelist.length * 8 = blocks ∧ (∀ i < blocks, pool.isfree i = true) ∧
      pool.allocN blocks = .ok (ptrs.map some, pool') ∧
      ptrs.length = blocks ∧ ptrs.Nodup ∧
      (∀ p ∈ ptrs, ∃ i : Nat, i < blocks ∧ p = base + i * size.toNat) ∧
      pool'.alloc = .ok (none, pool') := by
  refine ⟨8 * ((n + 7) / 8).toNat, poolAfter size base ((n + 7) / 8).toNat 0,
    poolAfter size base ((n + 7) / 8).toNat (8 * ((n + 7) / 8).toNat),
    (List.range' 0 (8 * ((n + 7) / 8).toNat)).map (blockAddr base size),
    by omega, by omega, by omega, newmempool_eq_poolAfter size n base hn, ?_,
    fun i hi => isfree_poolAfter_zero size base _ i hi, ?_, by simp, ?_, ?_,
    alloc_poolAfter_full size base _⟩
  · have hB : 0 < ((n + 7) / 8).toNat := by omega
    simp [poolAfter, hB]
    omega
  · have := allocN_poolAfter size base ((n + 7) / 8).toNat (8 * ((n + 7) / 8).toNat) 0 (by omega)
    rw [this, List.map_map, Nat.zero_add]
    rfl
  · refine List.Nodup.map ?_ (List.nodup_range' _ _)
    intro a b hab
    have hab' : ((a : Int) * size).toNat = ((b : Int) * size).toNat := by
      simpa [blockAddr] using hab
    have h1 : ((a : Int) * size) = (b : Int) * size := by
      have ha : 0 ≤ (a : Int) * size := mul_nonneg (Int.ofNat_nonneg a) (le_of_lt hs)
      have hb : 0 ≤ (b : Int) * size := mul_nonneg (Int.ofNat_nonneg b) (le_of_lt hs)
      omega
    have := mul_right_cancel₀ (ne_of_gt hs) h1
    exact_mod_cast this
  · intro p hp
    rw [List.mem_map] at hp
    obtain ⟨i, hi, rfl⟩ := hp
    rw [List.mem_range'_1] at hi
    refine ⟨i, by omega, ?_⟩
    unfold blockAddr
    congr 1
    have hsz : (size.toNat : Int) = size := Int.toNat_of_nonneg (le_of_lt hs)
    have : (i : Int) * size = ((i * size.toNat : Nat) : Int) := by push_cast; rw [hsz]
    rw [this, Int.toNat_ofNat]

theorem newmempool_alloc_exhausts_witness :
    ∃ (blocks : Nat) (pool pool' : mempool) (ptrs : List Nat),
      (5 : Int) ≤ blocks ∧ blocks % 8 = 0 ∧ (blocks : Int) < 5 + 8 ∧
      newmempool 32 5 1000 = .ok pool ∧
      pool.freelist.length * 8 = blocks ∧ (∀ i < blocks, pool.isfree i = true) ∧
      pool.allocN blocks = .ok (ptrs.map some, pool') ∧
      ptrs.length = blocks ∧ ptrs.Nodup ∧
      (∀ p ∈ ptrs, ∃ i : Nat, i < blocks ∧ p = 1000 + i * (32 : Int).toNat) ∧
      pool'.alloc = .ok (none, pool') :=
  newmempool_alloc_exhausts 32 5 1000 (by decide) (by decide)

/-! ## Evaluations at the inputs where the code leaves its documented behaviour -/

/-- C4: a pool of 8 blocks of 32 bytes at address 1000 is exhausted by 8 calls of `alloc`;
after `free` of the first block its bit is set, but `freeoff` stays -1 and the next `alloc`
returns `(nil, false)`. -/
theorem free_after_exhaustion_keeps_pool_closed :
    ∃ pool0 pool1 pool2 ptrs,
      newmempool 32 8 1000 = .ok pool0 ∧ pool0.allocN 8 = .ok (ptrs, pool1) ∧
      some 1000 ∈ ptrs ∧ pool1.free 1000 = .ok pool2 ∧
      pool2.isfree 0 = true ∧ pool2.freelist = [1] ∧ pool2.freeoff = -1 ∧
      pool2.alloc = .ok (none, pool2) :=
  ⟨⟨256, 32, 1000, [255], 0⟩, ⟨256, 32, 1000, [0], -1⟩, ⟨256, 32, 1000, [1], -1⟩,
    [some 1000, some 1032, some 1064, some 1096, some 1128, some 1160, some 1192, some 1224],
    by decide, by decide, by decide, by decide, by decide, rfl, rfl, by decide⟩

/-- C7: on the m-block that `newmblock` makes when the pool of blocks is empty, the insert
of a child with the one-byte start key "a" panics, because `firstkey` has no capacity. -/
theorem insert_on_fresh_mblock_panics :
    ∃ f m, ({ mblocksize := 4096, mreduce := false, hasdatafile := false, mnodes := 0 } : Bubt).newmblock
        none = .ok (f, m) ∧
      m.insert (some { startkey := [97], backref := 1, roffset := 0, reduce := .ok [] })
        = .error "slice bounds out of range" :=
  ⟨_, _, rfl, by decide⟩

/-- C8: for the engine "bogn" the file name "readme.txt", which has a single part, makes
`path2level` return `(0, 0, "")` and not `(-1, -1, "")`; so does a name of four parts of
another engine. -/
theorem path2level_malformed_returns_zero :
    (Bogn.mk "bogn" MEMUtilization).path2level "readme.txt" = (0, 0, "") ∧
    (Bogn.mk "bogn" MEMUtilization).path2level "other-1-2-abcd" = (0, 0, "") := by
  decide

/-! ## The m-block builder -/

theorem sliceAppend_fst (buf spare bs : List Nat) : (sliceAppend buf spare bs).1 = buf ++ bs := by
  unfold sliceAppend
  split <;> rfl

theorem be16_length (x : Nat) : (be16 x).length = 2 := rfl

theorem be32_length (x : Nat) : (be32 x).length = 4 := rfl

theorem be64_length (x : Int) : (be64 x).length = 8 := rfl

/-- What a returning `insert` does to the fields that `finalize` lays out. -/
theorem insert_cases (m m' : mblock) (block : Option blocker) (ok : Bool)
    (h : m.insert block = .ok (ok, m')) :
    m'.f = m.f ∧
    ((ok = false ∧ m'.entries = m.entries ∧ m'.kbuffer = m.kbuffer ∧ m'.firstkey = m.firstkey) ∨
     (∃ b, block = some b ∧ ok = true ∧
        (4 + (m.entries.length : Int) * 4 + m.kbuffer.length + (2 + b.startkey.length + 8 + 8)
          ≤ m.f.mblocksize) ∧
        m'.entries = m.entries ++ [m.kbuffer.length % 2 ^ 32] ∧
        m'.firstkey = (if m.firstkey.length = 0 then b.startkey else m.firstkey) ∧
        m'.kbuffer = m.kbuffer ++ be16 b.startkey.length ++ b.startkey ++ be64 b.backref
          ++ (if m.f.mreduce then be64 b.roffset else []))) := by
  unfold mblock.insert at h
  cases block with
  | none =>
    simp only [Except.ok.injEq, Prod.mk.injEq] at h
    obtain ⟨h1, h2⟩ := h
    subst h2
    exact ⟨rfl, Or.inl ⟨h1.symm, rfl, rfl, rfl⟩⟩
  | some b =>
    simp only at h
    cases hr : b.reduce with
    | error e => rw [hr] at h; cases h
    | ok r =>
      rw [hr] at h
      simp only at h
      split at h
      · simp only [Except.ok.injEq, Prod.mk.injEq] at h
        obtain ⟨h1, h2⟩ := h
        subst h2
        exact ⟨rfl, Or.inl ⟨h1.symm, rfl, rfl, rfl⟩⟩
      · rename_i hfit
        split at h
        · cases h
        · simp only [Except.ok.injEq, Prod.mk.injEq] at h
          obtain ⟨h1, h2⟩ := h
          subst h2
          refine ⟨rfl, Or.inr ⟨b, rfl, h1.symm, by omega, rfl, rfl, ?_⟩⟩
          by_cases hm : m.f.mreduce = true
          · simp only [hm, if_true, sliceAppend_fst]
          · simp only [hm, if_false, sliceAppend_fst, List.append_nil, Bool.false_eq_true]

theorem insert_preserves_room (m m' : mblock) (block : Option blocker) (ok : Bool)
    (h : m.insert block = .ok (ok, m')) (hred : m.f.mreduce = false)
    (hroom : 4 + 4 * (m.entries.length : Int) + m.kbuffer.length ≤ m.f.mblocksize) :
    4 + 4 * (m'.entries.length : Int) + m'.kbuffer.length ≤ m'.f.mblocksize := by
  obtain ⟨hf, h1 | ⟨b, _, _, hfit, he, _, hk⟩⟩ := insert_cases m m' block ok h
  · rw [hf, h1.2.1, h1.2.2.1]; exact hroom
  · rw [hf, he, hk, hred]
    simp only [List.length_append, List.length_singleton, be16_length, be64_length,
      Bool.false_eq_true, if_false, List.length_nil]
    push_cast
    omega

theorem reached_room (m0 m : mblock) (hred : m0.f.mreduce = false) (hr : mblock.Reached m0 m)
    (hroom : 4 + 4 * (m0.entries.length : Int) + m0.kbuffer.length ≤ m0.f.mblocksize) :
    m.f = m0.f ∧ 4 + 4 * (m.entries.length : Int) + m.kbuffer.length ≤ m.f.mblocksize := by
  induction hr with
  | start => exact ⟨rfl, hroom⟩
  | step m1 m2 block ok _ hins ih =>
    have hf := (insert_cases m1 m2 block ok hins).1
    exact ⟨hf.trans ih.1, insert_preserves_room m1 m2 block ok hins (by rw [ih.1]; exact hred) ih.2⟩

theorem putUint32_error (buf : List Nat) (n v : Nat) (e : String)
    (h : putUint32 buf n v = .error e) : e = "index out of range" := by
  unfold putUint32 at h
  split at h
  · cases h; rfl
  · cases h

theorem finalizeLoop_error (arrayblock : Nat) (entries : List Nat) :
    ∀ (n : Nat) (buf : List Nat) (e : String),
      finalizeLoop arrayblock entries n buf = .error e → e = "index out of range" := by
  induction entries with
  | nil => intro n buf e h; cases h
  | cons koff rest ih =>
    intro n buf e h
    unfold finalizeLoop at h
    split at h
    · rename_i e' he'
      cases h
      exact putUint32_error _ _ _ _ he'
    · exact ih _ _ _ h

theorem finalize_error_cases (m : mblock) (e : String) (h : m.finalize = .error e) :
    (e = "mblock buffer overflow" ∧
      m.f.mblocksize < 4 + 4 * (m.entries.length : Int) + m.kbuffer.length) ∨
    e = "slice bounds out of range" ∨ e = "index out of range" := by
  unfold mblock.finalize at h
  simp only at h
  split at h
  · rename_i hov
    cases h
    exact Or.inl ⟨rfl, by push_cast at hov; omega⟩
  · split at h
    · cases h; exact Or.inr (Or.inl rfl)
    · split at h
      · rename_i e' he'
        cases h
        exact Or.inr (Or.inr (putUint32_error _ _ _ _ he'))
      · split at h
        · rename_i e' he'
          cases h
          exact Or.inr (Or.inr (finalizeLoop_error _ _ _ _ _ he'))
        · cases h

/-- C6: with mreduce disabled and `msize ≥ 4`, every m-block reached from an empty one by
any sequence of `insert` calls satisfies `4 + 4 * entries + packed bytes ≤ msize`, so
`finalize` does not panic with "mblock buffer overflow". -/
theorem mblock_never_overflows (m0 m : mblock) (hred : m0.f.mreduce = false)
    (hsize : 4 ≤ m0.f.mblocksize) (he : m0.entries = []) (hk : m0.kbuffer = [])
    (hr : mblock.Reached m0 m) :
    4 + 4 * (m.entries.length : Int) + m.kbuffer.length ≤ m.f.mblocksize ∧
    m.finalize ≠ .error "mblock buffer overflow" := by
  have h := reached_room m0 m hred hr (by rw [he, hk]; simpa using hsize)
  refine ⟨h.2, ?_⟩
  intro hc
  rcases finalize_error_cases m _ hc with h1 | h1 | h1
  · omega
  · revert h1; decide
  · revert h1; decide

theorem mblock_never_overflows_witness :
    4 + 4 * ((mblockAfterTwo).entries.length : Int) + (mblockAfterTwo).kbuffer.length
        ≤ (mblockAfterTwo).f.mblocksize ∧
    (mblockAfterTwo).finalize ≠ .error "mblock buffer overflow" :=
  mblock_never_overflows mblockEmpty mblockAfterTwo (by decide) (by decide) (by decide)
    (by decide)
    (.step mblockAfterOne mblockAfterTwo (some childB) true
      (.step mblockEmpty mblockAfterOne (some childA) true .start (by decide)) (by decide))

/-! ### Reading big-endian integers back -/

theorem u32At_of_drop (buf : List Nat) (pos x : Nat) (rest : List Nat)
    (h : buf.drop pos = be32 x ++ rest) : u32At buf pos = x % 2 ^ 32 := by
  unfold u32At
  rw [h]
  simp only [be32, List.cons_append, List.nil_append]
  omega

theorem u16At_of_drop (buf : List Nat) (pos x : Nat) (rest : List Nat)
    (h : buf.drop pos = be16 x ++ rest) : u16At buf pos = x % 2 ^ 16 := by
  unfold u16At
  rw [h]
  simp only [be16, List.cons_append, List.nil_append]
  omega

theorem drop_flatten_be32 (f : Nat → Nat) (l : List Nat) :
    ∀ i, ((l.map (fun k => be32 (f k))).flatten).drop (4 * i)
      = ((l.drop i).map (fun k => be32 (f k))).flatten := by
  induction l with
  | nil => intro i; simp
  | cons a l ih =>
    intro i
    cases i with
    | zero => simp
    | succ i =>
      have e : 4 * (i + 1) = (be32 (f a)).length + 4 * i := by rw [be32_length]; omega
      rw [List.map_cons, List.flatten_cons, e, List.drop_append, ih i, List.drop_succ_cons]

theorem length_flatten_be32 (f : Nat → Nat) (l : List Nat) :
    ((l.map (fun k => be32 (f k))).flatten).length = 4 * l.length := by
  induction l with
  | nil => rfl
  | cons a l ih =>
    rw [List.map_cons, List.flatten_cons, List.length_append, ih, be32_length, List.length_cons]
    omega

/-! ### finalize -/

theorem putUint32_mid (pre mid post : List Nat) (v : Nat) (hmid : mid.length = 4) :
    putUint32 (pre ++ mid ++ post) pre.length v = .ok (pre ++ be32 v ++ post) := by
  unfold putUint32
  rw [if_neg (by simp [hmid])]
  congr 2
  · rw [List.append_assoc, List.take_left]
  · have : pre.length + 4 = (pre ++ mid).length := by simp [hmid]
    rw [this, List.drop_left]

theorem finalizeLoop_spec (arrayblock : Nat) (entries : List Nat) :
    ∀ (pre mid post : List Nat), mid.length = 4 * entries.length →
      finalizeLoop arrayblock entries pre.length (pre ++ mid ++ post)
        = .ok (pre ++ (entries.map (fun k => be32 ((arrayblock % 2 ^ 32 + k) % 2 ^ 32))).flatten
            ++ post) := by
  induction entries with
  | nil =>
    intro pre mid post hmid
    have : mid = [] := List.length_eq_zero.1 (by simpa using hmid)
    subst this
    simp [finalizeLoop]
  | cons koff rest ih =>
    intro pre mid post hmid
    have hsplit : mid = mid.take 4 ++ mid.drop 4 := (List.take_append_drop 4 mid).symm
    have h4 : (mid.take 4).length = 4 := by
      rw [List.length_take, hmid, List.length_cons]; omega
    have hrest : (mid.drop 4).length = 4 * rest.length := by
      rw [List.length_drop, hmid, List.length_cons]; omega
    unfold finalizeLoop
    have hbuf : pre ++ mid ++ post = pre ++ mid.take 4 ++ (mid.drop 4 ++ post) := by
      conv_lhs => rw [hsplit]
      simp only [List.append_assoc]
    rw [hbuf, putUint32_mid pre (mid.take 4) _ _ h4]
    simp only
    have hlen : pre.length + 4
        = (pre ++ be32 ((arrayblock % 2 ^ 32 + koff) % 2 ^ 32)).length := by
      rw [List.length_append, be32_length]
    have hbuf2 : pre ++ be32 ((arrayblock % 2 ^ 32 + koff) % 2 ^ 32) ++ (mid.drop 4 ++ post)
        = (pre ++ be32 ((arrayblock % 2 ^ 32 + koff) % 2 ^ 32)) ++ mid.drop 4 ++ post := by
      simp only [List.append_assoc]
    rw [hlen, hbuf2, ih _ _ _ hrest]
    simp only [List.map_cons, List.flatten_cons, List.append_assoc]

/-- The buffer that `finalize` leaves: the count, the offset table, the packed entries, and
what the backing array held behind them. -/
theorem finalize_spec (m : mblock)
    (hroom : 4 + 4 * (m.entries.length : Int) + m.kbuffer.length ≤ m.f.mblocksize)
    (hcap : m.f.mblocksize ≤ (m.kbuffer.length : Int) + m.kbspare.length) :
    ∃ m' tail, m.finalize = .ok m' ∧
      (4 + 4 * m.entries.length + m.kbuffer.length + tail.length : Int) = m.f.mblocksize ∧
      m'.kbuffer = be32 (m.entries.length % 2 ^ 32)
        ++ (m.entries.map
            (fun k => be32 (((4 + m.entries.length * 4) % 2 ^ 32 + k) % 2 ^ 32))).flatten
        ++ m.kbuffer ++ tail := by
  obtain ⟨msz, hmsz⟩ : ∃ msz : Nat, m.f.mblocksize = msz := ⟨m.f.mblocksize.toNat, by omega⟩
  rw [hmsz] at hroom hcap
  have hroom' : 4 + 4 * m.entries.length + m.kbuffer.length ≤ msz := by omega
  have hcap' : msz ≤ m.kbuffer.length + m.kbspare.length := by omega
  -- the resliced buffer, split at the three places that `finalize` touches
  obtain ⟨head, hhead⟩ : ∃ head, head = (m.kbuffer ++ m.kbspare.take (msz - m.kbuffer.length)).take
      (4 + m.entries.length * 4) := ⟨_, rfl⟩
  obtain ⟨tail, htail⟩ : ∃ tail, tail = (m.kbuffer ++ m.kbspare.take (msz - m.kbuffer.length)).drop
      (4 + m.entries.length * 4 + m.kbuffer.length) := ⟨_, rfl⟩
  have hbuflen : (m.kbuffer ++ m.kbspare.take (msz - m.kbuffer.length)).length = msz := by
    rw [List.length_append, List.length_take]; omega
  have hheadlen : head.length = 4 + m.entries.length * 4 := by
    rw [hhead, List.length_take, hbuflen]; omega
  have htaillen : tail.length = msz - (4 + m.entries.length * 4 + m.kbuffer.length) := by
    rw [htail, List.length_drop, hbuflen]
  have hcnt : min ((m.kbuffer ++ m.kbspare.take (msz - m.kbuffer.length)).length
      - (4 + m.entries.length * 4)) m.kbuffer.length = m.kbuffer.length := by
    rw [hbuflen]; omega
  have hsrc : ((m.kbuffer ++ m.kbspare.take (msz - m.kbuffer.length)).take m.kbuffer.length).take
      m.kbuffer.length = m.kbuffer := by
    rw [List.take_left, List.take_length]
  refine ⟨{ m with
      kbuffer := be32 (m.entries.length % 2 ^ 32)
        ++ (m.entries.map
            (fun k => be32 (((4 + m.entries.length * 4) % 2 ^ 32 + k) % 2 ^ 32))).flatten
        ++ m.kbuffer ++ tail
      kbspare := m.kbspare.drop (msz - m.kbuffer.length) }, tail, ?_, by omega, rfl⟩
  unfold mblock.finalize
  simp only [hmsz, Int.toNat_ofNat]
  rw [if_neg (by push_cast; omega), if_neg (by omega), hcnt, hsrc, ← hhead, ← htail]
  have hh : head = head.take 4 ++ head.drop 4 := (List.take_append_drop 4 head).symm
  have hh4 : (head.take 4).length = 4 := by rw [List.length_take, hheadlen]; omega
  have hhr : (head.drop 4).length = 4 * m.entries.length := by
    rw [List.length_drop, hheadlen]; omega
  have e1 : head ++ m.kbuffer ++ tail = [] ++ head.take 4 ++ (head.drop 4 ++ (m.kbuffer ++ tail)) := by
    conv_lhs => rw [hh]
    simp only [List.append_assoc, List.nil_append]
  have e0 : (0 : Nat) = ([] : List Nat).length := rfl
  rw [e1]
  conv_lhs => rw [e0, putUint32_mid [] (head.take 4) _ _ hh4]
  simp only [List.nil_append]
  have e2 : be32 (m.entries.length % 2 ^ 32) ++ (head.drop 4 ++ (m.kbuffer ++ tail))
      = be32 (m.entries.length % 2 ^ 32) ++ head.drop 4 ++ (m.kbuffer ++ tail) := by
    simp only [List.append_assoc]
  have hloop := finalizeLoop_spec (4 + m.entries.length * 4) m.entries
    (be32 (m.entries.length % 2 ^ 32)) (head.drop 4) (m.kbuffer ++ tail) hhr
  rw [be32_length] at hloop
  rw [e2, hloop]
  simp only [List.append_assoc]

theorem u32At_table (cnt : Nat) (g : Nat → Nat) (es rest : List Nat) (i : Nat)
    (h : i < es.length) :
    u32At (be32 cnt ++ (es.map (fun k => be32 (g k))).flatten ++ rest) (4 + 4 * i)
      = g es[i] % 2 ^ 32 := by
  have hd : es.drop i = es[i] :: es.drop (i + 1) := List.drop_eq_getElem_cons h
  apply u32At_of_drop _ _ _
    (((es.drop (i + 1)).map (fun k => be32 (g k))).flatten ++ rest)
  have e4 : 4 + 4 * i = (be32 cnt).length + 4 * i := by rw [be32_length]
  rw [List.append_assoc, e4, List.drop_append,
    List.drop_append_of_le_length (by rw [length_flatten_be32]; omega),
    drop_flatten_be32, hd, List.map_cons, List.flatten_cons, List.append_assoc]

/-! ### The packed entries -/

theorem encEntry_length (b : blocker) : (encEntry b).length = 10 + b.startkey.length := by
  simp only [encEntry, List.length_append, be16_length, be64_length]
  omega

theorem packedOffsets_length (bs : List blocker) :
    ∀ start, (packedOffsets start bs).length = bs.length := by
  induction bs with
  | nil => intro start; rfl
  | cons b bs ih => intro start; simp [packedOffsets, ih]

theorem packedOffsets_getElem (bs : List blocker) :
    ∀ (start i : Nat) (h : i < (packedOffsets start bs).length),
      (packedOffsets start bs)[i] = start + (((bs.take i).map encEntry).flatten).length := by
  induction bs with
  | nil => intro start i h; simp [packedOffsets] at h
  | cons b bs ih =>
    intro start i h
    cases i with
    | zero => simp [packedOffsets]
    | succ i =>
      simp only [packedOffsets, List.getElem_cons_succ, List.take_succ_cons, List.map_cons,
        List.flatten_cons, List.length_append]
      rw [ih]
      omega

theorem flatten_split_at (bs : List blocker) (i : Nat) (h : i < bs.length) :
    (bs.map encEntry).flatten
      = ((bs.take i).map encEntry).flatten ++ encEntry bs[i]
          ++ ((bs.drop (i + 1)).map encEntry).flatten := by
  conv_lhs => rw [← List.take_append_drop i bs, List.drop_eq_getElem_cons h]
  simp only [List.map_append, List.map_cons, List.flatten_append, List.flatten_cons,
    List.append_assoc]

theorem packed_length_mono (bs : List blocker) (i j : Nat) (hij : i < j) (hj : j ≤ bs.length)
    (hi : i < bs.length) :
    (((bs.take i).map encEntry).flatten).length + (encEntry bs[i]).length
      ≤ (((bs.take j).map encEntry).flatten).length := by
  have hi' : i < (bs.take j).length := by rw [List.length_take]; omega
  have h := flatten_split_at (bs.take j) i hi'
  rw [h]
  simp only [List.length_append, List.take_take, List.getElem_take]
  have : min i j = i := by omega
  rw [this]
  omega

/-! ### insert, many times -/

theorem sliceAppend_capacity (buf spare bs : List Nat) :
    buf.length + spare.length
      ≤ (sliceAppend buf spare bs).1.length + (sliceAppend buf spare bs).2.length := by
  unfold sliceAppend
  split
  · simp only [List.length_append, List.length_drop]; omega
  · simp only [List.length_append, List.length_nil]; omega

theorem insert_capacity (m m' : mblock) (block : Option blocker) (ok : Bool)
    (h : m.insert block = .ok (ok, m')) :
    m.kbuffer.length + m.kbspare.length ≤ m'.kbuffer.length + m'.kbspare.length ∧
    m'.firstkeycap = m.firstkeycap := by
  unfold mblock.insert at h
  cases block with
  | none =>
    simp only [Except.ok.injEq, Prod.mk.injEq] at h
    obtain ⟨_, h2⟩ := h
    subst h2
    exact ⟨le_rfl, rfl⟩
  | some b =>
    simp only at h
    cases hr : b.reduce with
    | error e => rw [hr] at h; cases h
    | ok r =>
      rw [hr] at h
      simp only at h
      split at h
      · simp only [Except.ok.injEq, Prod.mk.injEq] at h
        obtain ⟨_, h2⟩ := h
        subst h2
        exact ⟨le_rfl, rfl⟩
      · split at h
        · cases h
        · simp only [Except.ok.injEq, Prod.mk.injEq] at h
          obtain ⟨_, h2⟩ := h
          subst h2
          refine ⟨?_, rfl⟩
          simp only
          have a1 := sliceAppend_capacity m.kbuffer m.kbspare (be16 b.startkey.length)
          have a2 := sliceAppend_capacity (sliceAppend m.kbuffer m.kbspare (be16 b.startkey.length)).1
            (sliceAppend m.kbuffer m.kbspare (be16 b.startkey.length)).2 b.startkey
          have a3 := sliceAppend_capacity
            (sliceAppend (sliceAppend m.kbuffer m.kbspare (be16 b.startkey.length)).1
              (sliceAppend m.kbuffer m.kbspare (be16 b.startkey.length)).2 b.startkey).1
            (sliceAppend (sliceAppend m.kbuffer m.kbspare (be16 b.startkey.length)).1
              (sliceAppend m.kbuffer m.kbspare (be16 b.startkey.length)).2 b.startkey).2
            (be64 b.backref)
          split
          · have a4 := sliceAppend_capacity
              (sliceAppend (sliceAppend (sliceAppend m.kbuffer m.kbspare (be16 b.startkey.length)).1
                (sliceAppend m.kbuffer m.kbspare (be16 b.startkey.length)).2 b.startkey).1
                (sliceAppend (sliceAppend m.kbuffer m.kbspare (be16 b.startkey.length)).1
                (sliceAppend m.kbuffer m.kbspare (be16 b.startkey.length)).2 b.startkey).2
                (be64 b.backref)).1
              (sliceAppend (sliceAppend (sliceAppend m.kbuffer m.kbspare (be16 b.startkey.length)).1
                (sliceAppend m.kbuffer m.kbspare (be16 b.startkey.length)).2 b.startkey).1
                (sliceAppend (sliceAppend m.kbuffer m.kbspare (be16 b.startkey.length)).1
                (sliceAppend m.kbuffer m.kbspare (be16 b.startkey.length)).2 b.startkey).2
                (be64 b.backref)).2
              (be64 b.roffset)
            omega
          · omega

theorem insertMany_spec (bs : List blocker) :
    ∀ (m0 m : mblock), m0.f.mreduce = false →
      m0.insertMany bs = .ok (List.replicate bs.length true, m) →
      m.f = m0.f ∧
      m.kbuffer = m0.kbuffer ++ (bs.map encEntry).flatten ∧
      m.entries = m0.entries ++ (packedOffsets m0.kbuffer.length bs).map (fun k => k % 2 ^ 32) ∧
      m0.kbuffer.length + m0.kbspare.length ≤ m.kbuffer.length + m.kbspare.length ∧
      ((4 + 4 * (m0.entries.length : Int) + m0.kbuffer.length ≤ m0.f.mblocksize) →
        4 + 4 * (m.entries.length : Int) + m.kbuffer.length ≤ m.f.mblocksize) := by
  induction bs with
  | nil =>
    intro m0 m _ h
    simp only [mblock.insertMany, Except.ok.injEq, Prod.mk.injEq] at h
    obtain ⟨_, rfl⟩ := h
    simp [packedOffsets]
  | cons b bs ih =>
    intro m0 m hred h
    unfold mblock.insertMany at h
    cases h1 : m0.insert (some b) with
    | error e => rw [h1] at h; cases h
    | ok r =>
      obtain ⟨ok, m1⟩ := r
      rw [h1] at h
      simp only at h
      cases h2 : m1.insertMany bs with
      | error e => rw [h2] at h; cases h
      | ok r2 =>
        obtain ⟨oks, m2⟩ := r2
        rw [h2] at h
        simp only [Except.ok.injEq, Prod.mk.injEq, List.length_cons, List.replicate_succ,
          List.cons.injEq] at h
        obtain ⟨⟨hok, hoks⟩, hm⟩ := h
        subst hm hok hoks
        obtain ⟨hf, hc | ⟨b', hb', _, _, he, _, hk⟩⟩ := insert_cases m0 m1 (some b) true h1
        · exact absurd hc.1 (by decide)
        · cases hb'
          have hcap := (insert_capacity m0 m1 (some b) true h1).1
          have hroom1 := insert_preserves_room m0 m1 (some b) true h1 hred
          obtain ⟨g1, g2, g3, g4, g5⟩ := ih m1 m2 (by rw [hf]; exact hred) h2
          rw [hred] at hk
          simp only [Bool.false_eq_true, if_false, List.append_nil] at hk
          have hk' : m1.kbuffer = m0.kbuffer ++ encEntry b := by
            rw [hk]; simp only [encEntry, List.append_assoc]
          refine ⟨g1.trans hf, ?_, ?_, le_trans hcap g4, fun hr => g5 (hroom1 hr)⟩
          · rw [g2, hk']
            simp only [List.map_cons, List.flatten_cons, List.append_assoc]
          · rw [g3, he, hk']
            simp only [packedOffsets, List.map_cons, List.length_append, List.append_assoc,
              List.singleton_append]

/-! ### The layout of a finalized m-block -/

/-- The finalized buffer over the children `bs`, as `finalize_spec` and `insertMany_spec`
give it. -/
theorem finalized_buffer (m0 m : mblock) (bs : List blocker) (hred : m0.f.mreduce = false)
    (he : m0.entries = []) (hk : m0.kbuffer = [])
    (hsize : 4 ≤ m0.f.mblocksize)
    (hcap : m0.f.mblocksize ≤ (m0.kbspare.length : Int))
    (hins : m0.insertMany bs = .ok (List.replicate bs.length true, m)) :
    ∃ m' tail, m.finalize = .ok m' ∧
      (4 + 4 * bs.length + ((bs.map encEntry).flatten).length + tail.length : Int)
        = m0.f.mblocksize ∧
      m'.kbuffer = be32 (bs.length % 2 ^ 32)
        ++ (((packedOffsets 0 bs).map (fun k => k % 2 ^ 32)).map
            (fun k => be32 (((4 + bs.length * 4) % 2 ^ 32 + k) % 2 ^ 32))).flatten
        ++ (bs.map encEntry).flatten ++ tail := by
  obtain ⟨hf, hkb, hen, hcap', hroom⟩ := insertMany_spec bs m0 m hred hins
  rw [hk, List.nil_append] at hkb
  rw [he, hk, List.nil_append, List.length_nil] at hen
  have hlen : m.entries.length = bs.length := by
    rw [hen, List.length_map, packedOffsets_length]
  have hr := hroom (by rw [he, hk]; simpa using hsize)
  rw [hk, List.length_nil, Nat.zero_add] at hcap'
  obtain ⟨m', tail, h1, h2, h3⟩ := finalize_spec m hr (by rw [hf]; omega)
  refine ⟨m', tail, h1, ?_, ?_⟩
  · rw [hlen, hkb, hf] at h2; exact h2
  · rw [h3, hlen, hen, hkb]

theorem layout_of_buffer (msize : Int) (bs : List blocker) (tail : List Nat)
    (hsz : msize ≤ 2 ^ 32) (hkeys : ∀ b ∈ bs, b.startkey.length < 65536)
    (hlen : (4 + 4 * bs.length + ((bs.map encEntry).flatten).length + tail.length : Int) = msize) :
    MblockLayout msize
      (be32 (bs.length % 2 ^ 32)
        ++ (((packedOffsets 0 bs).map (fun k => k % 2 ^ 32)).map
            (fun k => be32 (((4 + bs.length * 4) % 2 ^ 32 + k) % 2 ^ 32))).flatten
        ++ (bs.map encEntry).flatten ++ tail) bs := by
  have hN : 4 + 4 * bs.length + ((bs.map encEntry).flatten).length + tail.length ≤ 2 ^ 32 := by
    omega
  have holen : ((packedOffsets 0 bs).map (fun k => k % 2 ^ 32)).length = bs.length := by
    rw [List.length_map, packedOffsets_length]
  -- the offset stored for child `i`
  have hoff : ∀ (i : Nat) (h : i < bs.length),
      u32At (be32 (bs.length % 2 ^ 32)
        ++ (((packedOffsets 0 bs).map (fun k => k % 2 ^ 32)).map
            (fun k => be32 (((4 + bs.length * 4) % 2 ^ 32 + k) % 2 ^ 32))).flatten
        ++ (bs.map encEntry).flatten ++ tail) (4 + 4 * i)
        = 4 + 4 * bs.length + (((bs.take i).map encEntry).flatten).length := by
    intro i h
    have hsp := flatten_split_at bs i h
    have hl : (((bs.take i).map encEntry).flatten).length + (encEntry bs[i]).length
        ≤ ((bs.map encEntry).flatten).length := by
      rw [hsp]; simp only [List.length_append]; omega
    have hel := encEntry_length bs[i]
    rw [List.append_assoc _ _ tail,
      u32At_table _ (fun k => ((4 + bs.length * 4) % 2 ^ 32 + k) % 2 ^ 32) _ _ i
        (by rw [holen]; exact h)]
    simp only [List.getElem_map]
    rw [packedOffsets_getElem]
    omega
  refine ⟨?_, ?_, ?_, ?_⟩
  · rw [← hlen]
    simp only [List.length_append, be32_length, length_flatten_be32, holen]
    push_cast
    ring
  · rw [List.append_assoc, List.append_assoc,
      u32At_of_drop _ 0 (bs.length % 2 ^ 32) _ (by rw [List.drop_zero])]
    omega
  · intro i j hij hj
    rw [hoff i (by omega), hoff j hj]
    have hi : i < bs.length := by omega
    have := packed_length_mono bs i j hij (by omega) hi
    have := encEntry_length bs[i]
    omega
  · intro i h
    rw [hoff i h]
    have hsp := flatten_split_at bs i h
    have hkey := hkeys bs[i] (List.getElem_mem h)
    -- what the buffer holds from the offset of child `i` on
    have hdrop : ∀ (extra : Nat),
        (be32 (bs.length % 2 ^ 32)
          ++ (((packedOffsets 0 bs).map (fun k => k % 2 ^ 32)).map
              (fun k => be32 (((4 + bs.length * 4) % 2 ^ 32 + k) % 2 ^ 32))).flatten
          ++ (bs.map encEntry).flatten ++ tail).drop
            (4 + 4 * bs.length + (((bs.take i).map encEntry).flatten).length + extra)
        = (encEntry bs[i] ++ (((bs.drop (i + 1)).map encEntry).flatten ++ tail)).drop extra := by
      intro extra
      have e1 : 4 + 4 * bs.length + (((bs.take i).map encEntry).flatten).length + extra
          = (be32 (bs.length % 2 ^ 32)
              ++ (((packedOffsets 0 bs).map (fun k => k % 2 ^ 32)).map
                (fun k => be32 (((4 + bs.length * 4) % 2 ^ 32 + k) % 2 ^ 32))).flatten
              ++ ((bs.take i).map encEntry).flatten).length + extra := by
        simp only [List.length_append, be32_length, length_flatten_be32, holen]
      rw [e1, hsp]
      simp only [← List.append_assoc]
      rw [List.append_assoc _ (encEntry bs[i]), List.append_assoc _ (encEntry bs[i] ++ _),
        List.drop_append]
    refine ⟨?_, ?_, ?_⟩
    · have := hdrop 0
      rw [Nat.add_zero, List.drop_zero] at this
      rw [u16At_of_drop _ _ bs[i].startkey.length
        (bs[i].startkey ++ (be64 bs[i].backref
          ++ (((bs.drop (i + 1)).map encEntry).flatten ++ tail))) (by
        rw [this]; simp only [encEntry, List.append_assoc])]
      omega
    · rw [hdrop 2]
      simp only [encEntry, List.append_assoc]
      rw [show (2 : Nat) = (be16 bs[i].startkey.length).length from rfl, List.drop_left,
        List.take_left]
    · rw [Nat.add_assoc, hdrop (2 + bs[i].startkey.length)]
      have e2 : 2 + bs[i].startkey.length
          = (be16 bs[i].startkey.length ++ bs[i].startkey).length := by
        rw [List.length_append, be16_length]
      simp only [encEntry]
      rw [e2, List.append_assoc (be16 bs[i].startkey.length ++ bs[i].startkey), List.drop_left,
        show (8 : Nat) = (be64 bs[i].backref).length from rfl, List.take_left]

theorem insert_success (m : mblock) (b : blocker) (r : List Nat) (hr : b.reduce = .ok r)
    (hfit : 4 + (m.entries.length : Int) * 4 + m.kbuffer.length + (2 + b.startkey.length + 8 + 8)
      ≤ m.f.mblocksize)
    (hkey : b.startkey.length ≤ m.firstkeycap) :
    ∃ m', m.insert (some b) = .ok (true, m') := by
  unfold mblock.insert
  simp only [hr]
  rw [if_neg (by omega), if_neg (by omega)]
  exact ⟨_, rfl⟩

theorem insertMany_success (bs : List blocker) :
    ∀ (m : mblock), m.f.mreduce = false → (∀ b ∈ bs, ∃ r, b.reduce = .ok r) →
      (∀ b ∈ bs, b.startkey.length ≤ m.firstkeycap) →
      (4 + 4 * ((m.entries.length : Int) + bs.length) + m.kbuffer.length
        + ((bs.map encEntry).flatten).length + 4 ≤ m.f.mblocksize) →
      ∃ m', m.insertMany bs = .ok (List.replicate bs.length true, m') := by
  induction bs with
  | nil => intro m _ _ _ _; exact ⟨m, rfl⟩
  | cons b bs ih =>
    intro m hred hok hkey hroom
    obtain ⟨r, hr⟩ := hok b (List.mem_cons_self _ _)
    have hel := encEntry_length b
    simp only [List.map_cons, List.flatten_cons, List.length_append, List.length_cons] at hroom
    obtain ⟨m1, h1⟩ := insert_success m b r hr (by push_cast at hroom; omega)
      (hkey b (List.mem_cons_self _ _))
    obtain ⟨hf, hc | ⟨b', hb', _, _, he, _, hk⟩⟩ := insert_cases m m1 (some b) true h1
    · exact absurd hc.1 (by decide)
    · cases hb'
      have hcap := (insert_capacity m m1 (some b) true h1).2
      rw [hred] at hk
      simp only [Bool.false_eq_true, if_false, List.append_nil] at hk
      obtain ⟨m2, h2⟩ := ih m1 (by rw [hf]; exact hred)
        (fun b hb => hok b (List.mem_cons_of_mem _ hb))
        (fun b hb => by rw [hcap]; exact hkey b (List.mem_cons_of_mem _ hb))
        (by
          rw [hf, he, hk]
          simp only [List.length_append, List.length_singleton, be16_length, be64_length]
          push_cast at hroom ⊢
          omega)
      refine ⟨m2, ?_⟩
      unfold mblock.insertMany
      rw [h1]
      simp only
      rw [h2]
      rfl

theorem flatten_enc_replicate_length (k : Nat) (b : blocker) :
    (((List.replicate k b).map encEntry).flatten).length = k * (encEntry b).length := by
  induction k with
  | zero => simp
  | succ k ih =>
    rw [List.replicate_succ, List.map_cons, List.flatten_cons, List.length_append, ih]
    ring

/-- C5 (amended): for an empty m-block without reduce, of a size between 4 and `2 ^ 32`
bytes and with a buffer of that capacity, on which the inserts of the children `bs` (start
keys shorter than 65536 bytes) all returned true, `finalize` leaves a buffer of `msize`
bytes that starts with the count as a big-endian u32, followed by one strictly increasing
big-endian u32 offset per child, and at each offset holds `len(key)` as a big-endian u16,
the key, and the back-reference as a big-endian u64. -/
theorem mblock_finalize_layout (m0 m : mblock) (bs : List blocker)
    (hred : m0.f.mreduce = false) (he : m0.entries = []) (hk : m0.kbuffer = [])
    (hcap : m0.f.mblocksize ≤ (m0.kbspare.length : Int))
    (hsize : 4 ≤ m0.f.mblocksize) (hsz : m0.f.mblocksize ≤ 2 ^ 32)
    (hkeys : ∀ b ∈ bs, b.startkey.length < 65536)
    (hins : m0.insertMany bs = .ok (List.replicate bs.length true, m)) :
    ∃ m', m.finalize = .ok m' ∧ MblockLayout m0.f.mblocksize m'.kbuffer bs := by
  obtain ⟨m', tail, h1, h2, h3⟩ := finalized_buffer m0 m bs hred he hk hsize hcap hins
  refine ⟨m', h1, ?_⟩
  rw [h3]
  exact layout_of_buffer _ bs tail hsz hkeys h2

theorem mblock_finalize_layout_witness :
    ∃ m', mblockAfterTwo.finalize = .ok m' ∧
      MblockLayout mblockEmpty.f.mblocksize m'.kbuffer [childA, childB] :=
  mblock_finalize_layout mblockEmpty mblockAfterTwo [childA, childB] (by decide) (by decide)
    (by decide) (by decide) (by decide) (by decide) (by decide) (by decide)

/-- C5, as stated, fails for blocks above 4 GiB: on the fresh m-block of `bubtHuge` all
`hugeCount` inserts of `childEmpty` return true and `finalize` succeeds, but the u32 offsets
of the table wrap around, so the buffer does not have the claimed layout.  It also fails
below 4 bytes: on the fresh m-block of `bubtTiny`, with no insert at all, `finalize`
panics. -/
theorem mblock_layout_fails_huge :
    (bubtTiny.newmblock none = .ok ({ bubtTiny with mnodes := 1 }, mblockTiny) ∧
      mblockTiny.insertMany [] = .ok ([], mblockTiny) ∧
      mblockTiny.finalize = .error "mblock buffer overflow") ∧
    bubtHuge.newmblock none = .ok ({ bubtHuge with mnodes := 1 }, mblockHuge) ∧
    (∀ b ∈ List.replicate hugeCount childEmpty, b.startkey.length < 65536) ∧
    ∃ m m', mblockHuge.insertMany (List.replicate hugeCount childEmpty)
        = .ok (List.replicate hugeCount true, m) ∧
      m.finalize = .ok m' ∧
      ¬ MblockLayout bubtHuge.mblocksize m'.kbuffer (List.replicate hugeCount childEmpty) := by
  have hN : hugeCount = 306783379 := rfl
  have hlenN : (List.replicate hugeCount childEmpty).length = hugeCount := List.length_replicate _ _
  have henc : (encEntry childEmpty).length = 10 := rfl
  have hsz : bubtHuge.mblocksize = 2 ^ 33 := rfl
  refine ⟨⟨by decide, by decide, by decide⟩, rfl, ?_, ?_⟩
  · intro b hb
    rw [List.eq_of_mem_replicate hb]
    decide
  obtain ⟨m, hm0⟩ := insertMany_success (List.replicate hugeCount childEmpty) mblockHuge rfl
    (fun b hb => ⟨[], by rw [List.eq_of_mem_replicate hb]; rfl⟩)
    (fun b hb => by rw [List.eq_of_mem_replicate hb]; exact Nat.zero_le _)
    (by
      rw [flatten_enc_replicate_length, henc, hlenN, hN]
      show (4 : Int) + 4 * ((0 : Nat) + (306783379 : Nat)) + (0 : Nat) + ((306783379 * 10 : Nat) : Int) + 4 ≤ 2 ^ 33
      norm_num)
  have hm := hm0
  rw [hlenN] at hm
  obtain ⟨m', tail, h1, _, h3⟩ := finalized_buffer mblockHuge m _ rfl rfl rfl
    (by rw [show mblockHuge.f.mblocksize = 2 ^ 33 from rfl]; norm_num)
    (by
      rw [show mblockHuge.f.mblocksize = 2 ^ 33 from rfl,
        show mblockHuge.kbspare = List.replicate (2 ^ 33) 0 from rfl, List.length_replicate]
      norm_num) hm0
  refine ⟨m, m', hm, h1, ?_⟩
  rintro ⟨_, _, hmono, _⟩
  have hlt := hmono 0 (hugeCount - 1) (by rw [hN]; norm_num) (by rw [hlenN, hN]; norm_num)
  have hol : ((packedOffsets 0 (List.replicate hugeCount childEmpty)).map
      (fun k => k % 2 ^ 32)).length = hugeCount := by
    rw [List.length_map, packedOffsets_length, hlenN]
  rw [h3, List.append_assoc _ _ tail,
    u32At_table _ (fun k => ((4 + (List.replicate hugeCount childEmpty).length * 4) % 2 ^ 32 + k)
      % 2 ^ 32) _ _ 0 (by rw [hol, hN]; norm_num),
    u32At_table _ (fun k => ((4 + (List.replicate hugeCount childEmpty).length * 4) % 2 ^ 32 + k)
      % 2 ^ 32) _ _ (hugeCount - 1) (by rw [hol, hN]; norm_num)] at hlt
  simp only [List.getElem_map, packedOffsets_getElem, List.take_replicate,
    flatten_enc_replicate_length, henc, hlenN] at hlt
  rw [hN] at hlt
  norm_num at hlt

/-! ## Level names -/

theorem digitChar_props (d : Nat) (h : d < 10) :
    (Nat.digitChar d).isDigit = true ∧ digitVal (Nat.digitChar d) = d ∧ Nat.digitChar d ≠ '-'
      ∧ Nat.digitChar d ≠ '+' := by
  interval_cases d <;> decide

theorem toDigitsCore_props (fuel : Nat) :
    ∀ (n : Nat) (ds : List Char), n < fuel →
      (∀ c ∈ ds, c.isDigit = true) →
      (∀ c ∈ Nat.toDigitsCore 10 fuel n ds, c.isDigit = true) ∧
      (Nat.toDigitsCore 10 fuel n ds).foldl (fun (acc : Int) c => 10 * acc + digitVal c) 0
        = ds.foldl (fun (acc : Int) c => 10 * acc + digitVal c) n ∧
      Nat.toDigitsCore 10 fuel n ds ≠ [] := by
  induction fuel with
  | zero => intro n ds h; omega
  | succ fuel ih =>
    intro n ds hn hds
    have hd := digitChar_props (n % 10) (Nat.mod_lt _ (by decide))
    have hds' : ∀ c ∈ Nat.digitChar (n % 10) :: ds, c.isDigit = true := by
      intro c hc
      rcases List.mem_cons.1 hc with rfl | hc
      · exact hd.1
      · exact hds c hc
    unfold Nat.toDigitsCore
    by_cases h0 : n / 10 = 0
    · simp only [h0, if_true]
      refine ⟨hds', ?_, by simp⟩
      simp only [List.foldl_cons, hd.2.1]
      congr 1
      omega
    · simp only [h0, if_false]
      obtain ⟨h1, h2, h3⟩ := ih (n / 10) (Nat.digitChar (n % 10) :: ds) (by omega) hds'
      refine ⟨h1, ?_, h3⟩
      rw [h2]
      simp only [List.foldl_cons, hd.2.1]
      congr 1
      omega

theorem toDigits_head (n : Nat) :
    ∃ c cs, Nat.toDigits 10 n = c :: cs ∧ c.isDigit = true := by
  obtain ⟨h1, _, h3⟩ := toDigitsCore_props (n + 1) n [] (by omega) (by simp)
  unfold Nat.toDigits
  cases h : Nat.toDigitsCore 10 (n + 1) n [] with
  | nil => exact absurd h h3
  | cons c cs => exact ⟨c, cs, rfl, h1 c (by rw [h]; simp)⟩

theorem not_mem_of_isDigit (l : List Char) (h : ∀ c ∈ l, c.isDigit = true) : '-' ∉ l := by
  intro hm
  have := h _ hm
  revert this
  decide

theorem Atoi_toDigits (n : Nat) (h : (n : Int) < 2 ^ 63) : Atoi (Nat.toDigits 10 n) = some (n : Int) := by
  obtain ⟨h1, h2, h3⟩ := toDigitsCore_props (n + 1) n [] (by omega) (by simp)
  obtain ⟨c, cs, hc, hdig⟩ := toDigits_head n
  have hne1 : c ≠ '-' := by
    intro e; rw [e] at hdig; revert hdig; decide
  have hne2 : c ≠ '+' := by
    intro e; rw [e] at hdig; revert hdig; decide
  have hall : ∀ c ∈ Nat.toDigits 10 n, c.isDigit = true := h1
  have hfold : (Nat.toDigits 10 n).foldl (fun (acc : Int) c => 10 * acc + digitVal c) 0 = n := by
    have := h2
    simpa using this
  have hhead1 : ¬ ((Nat.toDigits 10 n).head? = some '-') := by
    rw [hc]; simpa using hne1
  have hhead2 : ¬ ((Nat.toDigits 10 n).head? = some '+') := by
    rw [hc]; simpa using hne2
  have hnil : Nat.toDigits 10 n ≠ [] := by rw [hc]; simp
  unfold Atoi
  simp only [hhead1, hhead2, or_self, if_false, decide_False, hfold, Bool.false_eq_true]
  rw [if_neg (by
    intro hx
    rcases hx with hx | hx
    · exact hnil hx
    · exact hx hall)]
  rw [if_pos (by constructor <;> omega)]

theorem fmtInt_nonneg (x : Int) (h : 0 ≤ x) : fmtInt x = Nat.toDigits 10 x.natAbs := by
  unfold fmtInt
  rw [if_neg (by omega)]

/-- C9: for an engine name and a uuid without `-`, and a level and a version that are
non-negative (64-bit) integers, `path2level(levelname(level, version, uuid))` returns
`(level, version, uuid)`. -/
theorem path2level_levelname (bogn : Bogn) (level version : Int) (uuid : String)
    (hname : '-' ∉ bogn.name.toList) (huuid : '-' ∉ uuid.toList)
    (hl : 0 ≤ level) (hl' : level < 2 ^ 63) (hv : 0 ≤ version) (hv' : version < 2 ^ 63) :
    bogn.path2level (bogn.levelname level version uuid) = (level, version, uuid) := by
  have hdl : '-' ∉ Nat.toDigits 10 level.natAbs :=
    not_mem_of_isDigit _ (toDigitsCore_props _ _ [] (by omega) (by simp)).1
  have hdv : '-' ∉ Nat.toDigits 10 version.natAbs :=
    not_mem_of_isDigit _ (toDigitsCore_props _ _ [] (by omega) (by simp)).1
  have hsplit : (bogn.levelname level version uuid).toList.splitOn '-'
      = [bogn.name.toList, Nat.toDigits 10 level.natAbs, Nat.toDigits 10 version.natAbs,
          uuid.toList] := by
    have hparts : ∀ l ∈ [bogn.name.toList, Nat.toDigits 10 level.natAbs,
        Nat.toDigits 10 version.natAbs, uuid.toList], '-' ∉ l := by
      intro l hl
      simp only [List.mem_cons, List.mem_singleton, List.not_mem_nil, or_false] at hl
      rcases hl with rfl | rfl | rfl | rfl <;> assumption
    have := List.splitOn_intercalate _ '-' hparts (by simp)
    rw [← this]
    congr 1
    simp [Bogn.levelname, fmtInt_nonneg _ hl, fmtInt_nonneg _ hv, List.intercalate, List.intersperse]
  have hal : Atoi (Nat.toDigits 10 level.natAbs) = some level := by
    rw [Atoi_toDigits _ (by omega), Int.natAbs_of_nonneg hl]
  have hav : Atoi (Nat.toDigits 10 version.natAbs) = some version := by
    rw [Atoi_toDigits _ (by omega), Int.natAbs_of_nonneg hv]
  unfold Bogn.path2level
  rw [hsplit]
  simp only [hal, hav]
  simp

theorem path2level_levelname_witness :
    (Bogn.mk "bogn" MEMUtilization).path2level
        ((Bogn.mk "bogn" MEMUtilization).levelname 3 12 "ab12")
      = (3, 12, "ab12") :=
  path2level_levelname (Bogn.mk "bogn" MEMUtilization) 3 12 "ab12" (by decide) (by decide)
    (by decide) (by decide) (by decide) (by decide)

/-! ## pickflushdisk -/

theorem latestlevelAux_level (disks : List (Option Disk)) :
    ∀ (i : Int) (acc : Int × Option Disk) (L : Int) (D : Disk),
      latestlevelAux disks i acc = (L, some D) → acc = (L, some D) ∨ i ≤ L := by
  induction disks with
  | nil => intro i acc L D h; exact Or.inl h
  | cons d rest ih =>
    intro i acc L D h
    cases d with
    | none =>
      rcases ih (i + 1) acc L D h with h1 | h1
      · exact Or.inl h1
      · exact Or.inr (by omega)
    | some d =>
      rcases ih (i + 1) (i, some d) L D h with h1 | h1
      · have : i = L := congrArg Prod.fst h1
        exact Or.inr (by omega)
      · exact Or.inr (by omega)

theorem latestlevel_nonneg (snap : snapshot) (L : Int) (D : Disk)
    (h : snap.latestlevel = (L, some D)) : 0 ≤ L := by
  rcases latestlevelAux_level snap.disks 0 (-1, none) L D h with h1 | h1
  · have : (none : Option Disk) = some D := congrArg Prod.snd h1
    cases this
  · exact h1

/-- C10: when the newest disk `D` of the current snapshot is at level `L` with version `v`,
and `disk0` is a different disk at a level greater than `L`, `pickflushdisk` returns
`(D, L-1, 1)` if `memheap / footprint(D) > ratio` and `(D, L, v+1)` otherwise. -/
theorem pickflushdisk_ratio (bogn : Bogn) (snap : snapshot) (D disk0 : Disk) (L v : Int)
    (hlatest : snap.latestlevel = (L, some D)) (hv : (bogn.path2level D.id).2.1 = v)
    (hdiff : D.id ≠ disk0.id) (hlevel0 : L < (bogn.path2level disk0.id).1) :
    bogn.pickflushdisk snap (some disk0)
      = if F64.gt (F64.div (F64.ofInt snap.memheap) (F64.ofInt D.footprint)) bogn.ratio = true
        then .ok (some D, L - 1, 1) else .ok (some D, L, v + 1) := by
  have hL := latestlevel_nonneg snap L D hlatest
  unfold Bogn.pickflushdisk
  rw [hlatest]
  simp only
  rw [if_neg (by omega), if_neg (by omega), if_neg hdiff, if_neg (by omega), hv]

theorem pickflushdisk_ratio_witness :
    (Bogn.mk "bogn" (.fin false 1 (-2))).pickflushdisk
        ⟨[none, some ⟨"bogn-1-5-x", 1000⟩, none], 300⟩ (some ⟨"bogn-2-1-y", 10⟩)
      = if F64.gt (F64.div (F64.ofInt 300) (F64.ofInt 1000)) (.fin false 1 (-2)) = true
        then .ok (some ⟨"bogn-1-5-x", 1000⟩, 1 - 1, 1)
        else .ok (some ⟨"bogn-1-5-x", 1000⟩, 1, 5 + 1) :=
  pickflushdisk_ratio (Bogn.mk "bogn" (.fin false 1 (-2)))
    ⟨[none, some ⟨"bogn-1-5-x", 1000⟩, none], 300⟩ ⟨"bogn-1-5-x", 1000⟩ ⟨"bogn-2-1-y", 10⟩ 1 5
    (by decide) (by decide) (by decide) (by decide)

/-! ## pickflushdisk without disks, pickcompactdisks -/

theorem latestlevelAux_all_none (disks : List (Option Disk)) (h : ∀ d ∈ disks, d = none) :
    ∀ (i : Int) (acc : Int × Option Disk), latestlevelAux disks i acc = acc := by
  induction disks with
  | nil => intro i acc; rfl
  | cons d rest ih =>
    intro i acc
    have hd : d = none := h d (List.mem_cons_self _ _)
    subst hd
    exact ih (fun d hd => h d (List.mem_cons_of_mem _ hd)) (i + 1) acc

/-- C11: when the current snapshot, with its 16 levels, has no disk at any level and `disk0`
is nil, `pickflushdisk` returns no merge input, target level 15 and version 1. -/
theorem pickflushdisk_no_disks (bogn : Bogn) (snap : snapshot) (hlen : snap.disks.length = 16)
    (hnone : ∀ d ∈ snap.disks, d = none) :
    bogn.pickflushdisk snap none = .ok (none, 15, 1) := by
  unfold Bogn.pickflushdisk snapshot.latestlevel
  rw [latestlevelAux_all_none snap.disks hnone]
  simp [hlen]

theorem pickflushdisk_no_disks_witness :
    bognQuarter.pickflushdisk ⟨List.replicate 16 none, 4096⟩ none = .ok (none, 15, 1) :=
  pickflushdisk_no_disks bognQuarter ⟨List.replicate 16 none, 4096⟩ (by decide) (by decide)

theorem div_ofInt_pos (a b : Int) (ha : 0 < a) (hb : 0 < b) :
    ∃ (m : Nat) (e : Int), F64.div (F64.ofInt a) (F64.ofInt b) = F64.fin false m e := by
  obtain ⟨ma, ea, h1, _, _⟩ := F64.ofInt_val a ha
  obtain ⟨mb, eb, h2, _, h3⟩ := F64.ofInt_val b hb
  have hB : (0 : ℚ) < (b : ℚ) := by exact_mod_cast hb
  have hBpos : (0 : ℚ) < (mb : ℚ) * 2 ^ eb := by
    have : (0 : ℚ) < (1 - 1 / 2 ^ 52) * (b : ℚ) := mul_pos (by norm_num) hB
    linarith
  have hmb : 1 ≤ mb := by
    by_contra hc
    have : mb = 0 := by omega
    rw [this] at hBpos
    simp at hBpos
  obtain ⟨m, e, h, _⟩ := F64.div_val_le ma mb ea eb hmb
  exact ⟨m, e, by rw [h1, h2, h]⟩

theorem lt_eq_not_ge (m : Nat) (e : Int) (r : F64) (hr : r ≠ F64.nan) :
    F64.lt (F64.fin false m e) r = !F64.ge (F64.fin false m e) r := by
  cases r with
  | nan => exact absurd rfl hr
  | fin n m' e' => simp [F64.ge]
  | inf n => simp [F64.ge]

theorem adjacentPairs_cons (d0 d1 : Disk) (rest : List Disk) :
    adjacentPairs (d0 :: d1 :: rest) = (d0, d1) :: adjacentPairs (d1 :: rest) := by
  simp [adjacentPairs]

/-- The loop of `pickcompactdisks` is the search for the first adjacent pair that its test
does not skip. -/
theorem pickcompactLoop_find (bogn : Bogn) (snap : snapshot) :
    ∀ (disks : List Disk),
      pickcompactLoop bogn snap disks
        = match (adjacentPairs disks).find? bogn.notbelow with
          | some p => (some p.1, some p.2, bogn.compacttarget snap p.1 p.2)
          | none => (none, none, -1) := by
  intro disks
  induction disks with
  | nil => rfl
  | cons d0 rest ih =>
    cases rest with
    | nil => rfl
    | cons d1 rest =>
      rw [adjacentPairs_cons, List.find?_cons]
      unfold pickcompactLoop
      simp only [Bogn.notbelow]
      cases hlt : F64.lt (F64.div (F64.ofInt d0.footprint) (F64.ofInt d1.footprint)) bogn.ratio with
      | true =>
        simp only [Bool.not_true, if_true]
        exact ih
      | false =>
        simp only [Bool.not_false, Bool.false_eq_true, if_false, Bogn.compacttarget]
        split_ifs <;> first | rfl | (exfalso; omega)

/-- When `ratio` is a number and both footprints are positive, the test of the loop is the
comparison `footprint(disk0) / footprint(disk1) >= ratio`. -/
theorem notbelow_eq_compactable (bogn : Bogn) (pair : Disk × Disk)
    (hratio : bogn.ratio ≠ F64.nan) (h1 : 0 < pair.1.footprint) (h2 : 0 < pair.2.footprint) :
    bogn.notbelow pair = bogn.compactable pair := by
  obtain ⟨m, e, hdiv⟩ := div_ofInt_pos pair.1.footprint pair.2.footprint h1 h2
  unfold Bogn.notbelow Bogn.compactable
  rw [hdiv, lt_eq_not_ge m e bogn.ratio hratio, Bool.not_not]

/-- C12 (amended): `pickcompactdisks` returns the first pair of adjacent present disks for
which `footprint(i) / footprint(i+1) < ratio` is false, and returns `(nil, nil, -1)`
exactly when that comparison holds for every adjacent pair, in particular when fewer than
two disks are present; when `ratio` is a number and the footprints are positive, the
pairs taken are those with `footprint(i) / footprint(i+1) >= ratio`. -/
theorem pickcompactdisks_first_pair (bogn : Bogn) (snap : snapshot) :
    (∀ d0 d1, (adjacentPairs snap.disklevels).find? bogn.notbelow = some (d0, d1) →
      ∃ level, bogn.pickcompactdisks snap = (some d0, some d1, level)) ∧
    (bogn.pickcompactdisks snap = (none, none, -1) ↔
      ∀ p ∈ adjacentPairs snap.disklevels, bogn.notbelow p = false) ∧
    (snap.disklevels.length < 2 → bogn.pickcompactdisks snap = (none, none, -1)) ∧
    (bogn.ratio ≠ F64.nan → (∀ d ∈ snap.disklevels, 0 < d.footprint) →
      ∀ p ∈ adjacentPairs snap.disklevels, bogn.notbelow p = bogn.compactable p) := by
  have h := pickcompactLoop_find bogn snap snap.disklevels
  refine ⟨?_, ?_, ?_, ?_⟩
  · intro d0 d1 hf
    rw [Bogn.pickcompactdisks, h, hf]
    exact ⟨_, rfl⟩
  · rw [Bogn.pickcompactdisks, h]
    cases hf : (adjacentPairs snap.disklevels).find? bogn.notbelow with
    | none =>
      simp only [true_iff]
      intro p hp
      have := List.find?_eq_none.1 hf p hp
      simpa using this
    | some p =>
      simp only [Prod.mk.injEq, false_and, false_iff, reduceCtorEq]
      intro hall
      have hmem := List.mem_of_find?_eq_some hf
      have hq := List.find?_some hf
      rw [hall p hmem] at hq
      cases hq
  · intro hlen
    rw [Bogn.pickcompactdisks]
    match hd : snap.disklevels, hlen with
    | [], _ => rfl
    | [_], _ => rfl
    | _ :: _ :: _, hl => exact absurd hl (by simp)
  · intro hratio hfp p hp
    obtain ⟨q1, q2⟩ := p
    have hz := List.of_mem_zip hp
    exact notbelow_eq_compactable bogn (q1, q2) hratio (hfp q1 hz.1)
      (hfp q2 (List.mem_of_mem_tail hz.2))

theorem pickcompactdisks_first_pair_witness :
    (∀ d0 d1, (adjacentPairs snapThree.disklevels).find? bognQuarter.notbelow = some (d0, d1) →
      ∃ level, bognQuarter.pickcompactdisks snapThree = (some d0, some d1, level)) ∧
    (bognQuarter.pickcompactdisks snapThree = (none, none, -1) ↔
      ∀ p ∈ adjacentPairs snapThree.disklevels, bognQuarter.notbelow p = false) ∧
    (snapThree.disklevels.length < 2 →
      bognQuarter.pickcompactdisks snapThree = (none, none, -1)) ∧
    (bognQuarter.ratio ≠ F64.nan → (∀ d ∈ snapThree.disklevels, 0 < d.footprint) →
      ∀ p ∈ adjacentPairs snapThree.disklevels,
        bognQuarter.notbelow p = bognQuarter.compactable p) :=
  pickcompactdisks_first_pair bognQuarter snapThree

/-- C12, as stated, fails when the setting `ratio` is NaN: on the snapshot with the footprints
10, 100 and 200 no adjacent pair has `footprint(i) / footprint(i+1) >= ratio`, yet
`pickcompactdisks` returns the first pair, since `10 / 100 < NaN` is false. -/
theorem pickcompactdisks_nan_ratio :
    (∀ p ∈ adjacentPairs snapThree.disklevels, bognNaN.compactable p = false) ∧
    bognNaN.pickcompactdisks snapThree
      = (some ⟨"bogn-1-1-a", 10⟩, some ⟨"bogn-2-1-b", 100⟩, 2) ∧
    bognNaN.pickcompactdisks snapThree ≠ (none, none, -1) := by
  refine ⟨?_, ?_, ?_⟩ <;> set_option maxRecDepth 1000000 in decide

theorem pickcompactLoop_target (bogn : Bogn) (snap : snapshot) (d0 d1 : Disk) (level : Int) :
    ∀ (disks : List Disk), pickcompactLoop bogn snap disks = (some d0, some d1, level) →
      level = bogn.compacttarget snap d0 d1 := by
  intro disks
  induction disks with
  | nil => intro h; cases h
  | cons a rest ih =>
    cases rest with
    | nil => intro h; cases h
    | cons b rest =>
      intro h
      unfold pickcompactLoop at h
      split at h
      · exact ih h
      · unfold Bogn.compacttarget
        split at h
        · split at h
          · simp only [Prod.mk.injEq, Option.some.injEq] at h
            obtain ⟨rfl, rfl, rfl⟩ := h
            rw [if_neg (by omega), if_neg (by omega)]
          · simp only [Prod.mk.injEq, Option.some.injEq] at h
            obtain ⟨rfl, rfl, rfl⟩ := h
            rw [if_neg (by omega), if_pos (by omega)]
        · simp only [Prod.mk.injEq, Option.some.injEq] at h
          obtain ⟨rfl, rfl, rfl⟩ := h
          rw [if_pos (by omega)]

theorem nextemptylevelAux_spec (disks : List (Option Disk)) (level : Int) :
    ∀ (i : Nat),
      (nextemptylevelAux disks i level = -1 ∧
        ∀ (j : Nat), j < disks.length → level < i + j → disks[j]? ≠ some none) ∨
      (∃ (j : Nat), j < disks.length ∧ nextemptylevelAux disks i level = i + j ∧
        level < i + j ∧ disks[j]? = some none ∧
        ∀ (k : Nat), k < j → level < i + k → disks[k]? ≠ some none) := by
  induction disks with
  | nil =>
    intro i
    exact Or.inl ⟨rfl, fun j hj => by simp at hj⟩
  | cons d rest ih =>
    intro i
    unfold nextemptylevelAux
    by_cases h : level < i ∧ d = none
    · rw [if_pos h]
      refine Or.inr ⟨0, by simp, by simp, by simpa using h.1, by simp [h.2], ?_⟩
      intro k hk; omega
    · rw [if_neg h]
      have hstep : ((i : Int) + 1) = ((i + 1 : Nat) : Int) := by push_cast; rfl
      rw [hstep]
      rcases ih (i + 1) with ⟨h1, h2⟩ | ⟨j, hj, h1, h2, h3, h4⟩
      · refine Or.inl ⟨h1, ?_⟩
        intro j hj hlt
        cases j with
        | zero =>
          simp only [List.getElem?_cons_zero, ne_eq, Option.some.injEq]
          intro hd
          exact h ⟨by simpa using hlt, hd⟩
        | succ j =>
          simp only [List.getElem?_cons_succ]
          exact h2 j (by simpa using hj) (by push_cast at hlt ⊢; omega)
      · refine Or.inr ⟨j + 1, by simpa using hj, by rw [h1]; push_cast; ring,
          by push_cast at h2 ⊢; omega, by simpa using h3, ?_⟩
        intro k hk hlt
        cases k with
        | zero =>
          simp only [List.getElem?_cons_zero, ne_eq, Option.some.injEq]
          intro hd
          exact h ⟨by simpa using hlt, hd⟩
        | succ k =>
          simp only [List.getElem?_cons_succ]
          exact h4 k (by omega) (by push_cast at hlt ⊢; omega)

/-- C13: when `pickcompactdisks` selects the pair of disks `disk0`, `disk1` at the levels
`l0`, `l1` of their names, the returned target level is `nextemptylevel(l1)` if that is
`>= 0`, otherwise `nextemptylevel(l0)` if that is `>= 0`, otherwise `l1`; and
`nextemptylevel(from)` is the lowest empty slot strictly greater than `from`, or -1 when
there is none. -/
theorem pickcompactdisks_target (bogn : Bogn) (snap : snapshot) (disk0 disk1 : Disk) (level : Int)
    (h : bogn.pickcompactdisks snap = (some disk0, some disk1, level)) :
    level = (if 0 ≤ snap.nextemptylevel (bogn.path2level disk1.id).1 then
        snap.nextemptylevel (bogn.path2level disk1.id).1
      else if 0 ≤ snap.nextemptylevel (bogn.path2level disk0.id).1 then
        snap.nextemptylevel (bogn.path2level disk0.id).1
      else (bogn.path2level disk1.id).1) ∧
    ∀ (l : Int),
      (snap.nextemptylevel l = -1 ∧
        ∀ (j : Nat), j < snap.disks.length → l < j → snap.disks[j]? ≠ some none) ∨
      (∃ (j : Nat), j < snap.disks.length ∧ snap.nextemptylevel l = j ∧ l < j ∧
        snap.disks[j]? = some none ∧
        ∀ (k : Nat), k < j → l < k → snap.disks[k]? ≠ some none) := by
  refine ⟨pickcompactLoop_target bogn snap disk0 disk1 level _ h, ?_⟩
  intro l
  have := nextemptylevelAux_spec snap.disks l 0
  simpa [snapshot.nextemptylevel] using this

theorem pickcompactdisks_target_witness :
    (3 : Int) = (if 0 ≤ snapThree.nextemptylevel (bognQuarter.path2level "bogn-3-1-c").1 then
        snapThree.nextemptylevel (bognQuarter.path2level "bogn-3-1-c").1
      else if 0 ≤ snapThree.nextemptylevel (bognQuarter.path2level "bogn-2-1-b").1 then
        snapThree.nextemptylevel (bognQuarter.path2level "bogn-2-1-b").1
      else (bognQuarter.path2level "bogn-3-1-c").1) ∧
    ∀ (l : Int),
      (snapThree.nextemptylevel l = -1 ∧
        ∀ (j : Nat), j < snapThree.disks.length → l < j → snapThree.disks[j]? ≠ some none) ∨
      (∃ (j : Nat), j < snapThree.disks.length ∧ snapThree.nextemptylevel l = j ∧ l < j ∧
        snapThree.disks[j]? = some none ∧
        ∀ (k : Nat), k < j → l < k → snapThree.disks[k]? ≠ some none) :=
  pickcompactdisks_target bognQuarter snapThree ⟨"bogn-2-1-b", 100⟩ ⟨"bogn-3-1-c", 200⟩ 3
    (by set_option maxRecDepth 1000000 in decide)

/-! ## flush metadata, Close, snapshot statistics, newsnapshot, Range -/

theorem AtoiValue_of_bad_head (c : Char) (rest : List Char) (h1 : c ≠ '-') (h2 : c ≠ '+')
    (h3 : c.isDigit = false) : AtoiValue (c :: rest) = 0 := by
  unfold AtoiValue Atoi
  simp [h1, h2, h3]

/-- C14: the field `flushunix` that `mwmetadata` writes at any time `t` is read back by
`flushelapsed` as 0, not as `t`; so one second after a flush at `t = 1500000000`, with a
period of one hour, `flushelapsed` already answers true. -/
theorem flushunix_read_back_as_zero (quoteRune : Nat → List Char) (t : Int) :
    AtoiValue (mwmetadataFlushunix quoteRune t) = 0 ∧
    flushelapsed (3600 * 1000000000) 1500000001
      (some (mwmetadataFlushunix quoteRune 1500000000)) = true := by
  have key : ∀ t : Int, AtoiValue (mwmetadataFlushunix quoteRune t) = 0 := by
    intro t
    unfold mwmetadataFlushunix fmtQuoted
    split
    · exact AtoiValue_of_bad_head _ _ (by decide) (by decide) (by decide)
    · exact AtoiValue_of_bad_head '%' _ (by decide) (by decide) (by decide)
  refine ⟨key t, ?_⟩
  unfold flushelapsed
  simp only [key]
  decide

/-- C17: a second call of `Close` panics: on every engine that a completed `Close` leaves
behind, `Close` fails with "close of closed channel". -/
theorem Close_twice_panics (bogn bogn1 : Engine) (h : bogn.Close = .ok bogn1) :
    bogn1.Close = .error "close of closed channel" := by
  unfold Engine.Close at h
  split at h
  · cases h
  · cases h
    rfl

theorem Close_twice_panics_witness :
    (Engine.mk false 2 true).Close = .ok (Engine.mk true 0 false) ∧
    (Engine.mk true 0 false).Close = .error "close of closed channel" :=
  ⟨by decide, Close_twice_panics (Engine.mk false 2 true) (Engine.mk true 0 false) (by decide)⟩

/-- C18: on counters that are non-negative `int64` values, `validatestats` returns without a
panic if and only if `n_count = n_inserts - n_deletes = n_nodes + n_clones - n_reclaims`
and `n_deletes = n_reclaims - n_clones`. -/
theorem validatestats_iff_identity (s : llrbstats) (h : s.counted) :
    validatestats s = .ok () ↔
      (s.n_count = s.n_inserts - s.n_deletes ∧
       s.n_inserts - s.n_deletes = s.n_nodes + s.n_clones - s.n_reclaims ∧
       s.n_deletes = s.n_reclaims - s.n_clones) := by
  obtain ⟨⟨a1, a2⟩, ⟨b1, b2⟩, ⟨c1, c2⟩, ⟨d1, d2⟩, ⟨e1, e2⟩, ⟨f1, f2⟩⟩ := h
  unfold validatestats wrap64
  constructor
  · intro hv
    split at hv
    · cases hv
    · split at hv
      · cases hv
      · split at hv
        · cases hv
        · split at hv
          · cases hv
          · omega
  · rintro ⟨h1, h2, h3⟩
    rw [if_neg (by omega), if_neg (by omega), if_neg (by omega), if_neg (by omega)]

theorem validatestats_iff_identity_witness :
    validatestats llrbSample.stats = .ok () ↔
      (llrbSample.stats.n_count = llrbSample.stats.n_inserts - llrbSample.stats.n_deletes ∧
       llrbSample.stats.n_inserts - llrbSample.stats.n_deletes
         = llrbSample.stats.n_nodes + llrbSample.stats.n_clones - llrbSample.stats.n_reclaims ∧
       llrbSample.stats.n_deletes = llrbSample.stats.n_reclaims - llrbSample.stats.n_clones) :=
  validatestats_iff_identity llrbSample.stats (by unfold llrbstats.counted; decide)

theorem appendTail_eq (snapshot : LLRBSnapshot) :
    ∀ snapshots : List LLRBSnapshot, appendTail snapshots snapshot = snapshots ++ [snapshot] := by
  intro snapshots
  induction snapshots with
  | nil => rfl
  | cons parent rest ih =>
    cases rest with
    | nil => rfl
    | cons next rest =>
      unfold appendTail
      rw [ih]
      rfl

theorem countreclaimnodes_append (tail : List LLRBSnapshot) :
    ∀ snapshots : List LLRBSnapshot,
      countreclaimnodes (snapshots ++ tail) = countreclaimnodes snapshots + countreclaimnodes tail := by
  intro snapshots
  induction snapshots with
  | nil => simp [countreclaimnodes]
  | cons s rest ih =>
    rw [List.cons_append, countreclaimnodes, countreclaimnodes, ih]
    ring

/-- C19: `newsnapshot` returns a snapshot with the root and the statistics of the tree at the
call and with the reclaim list of the writer; afterwards the reclaim list of the writer
is empty, the snapshot list is the previous list followed by the new snapshot, and
`countreclaimnodes` over the list has grown by the number of nodes moved. -/
theorem newsnapshot_moves_reclaim (llrb : LLRB) (id : String) :
    (newsnapshot llrb id).1.root = llrb.root ∧
    (newsnapshot llrb id).1.stats = llrb.stats ∧
    (newsnapshot llrb id).1.reclaim = llrb.reclaim ∧
    (newsnapshot llrb id).2.reclaim = [] ∧
    (newsnapshot llrb id).2.snapshots = llrb.snapshots ++ [(newsnapshot llrb id).1] ∧
    (newsnapshot llrb id).2.root = llrb.root ∧
    (newsnapshot llrb id).2.stats = llrb.stats ∧
    countreclaimnodes (newsnapshot llrb id).2.snapshots
      = countreclaimnodes llrb.snapshots + llrb.reclaim.length := by
  refine ⟨rfl, rfl, ?_, rfl, ?_, rfl, rfl, ?_⟩
  · simp [newsnapshot]
  · simp [newsnapshot, appendTail_eq]
  · simp [newsnapshot, appendTail_eq, countreclaimnodes_append, countreclaimnodes]

theorem rangeWalker_eq_table (reverse : Bool) (incl : String) :
    rangeWalker reverse incl = walkerTable reverse incl := by
  by_cases hb : incl = "both"
  · subst hb; cases reverse <;> rfl
  · by_cases hh : incl = "high"
    · subst hh; cases reverse <;> rfl
    · by_cases hl : incl = "low"
      · subst hl; cases reverse <;> rfl
      · cases reverse
        · simp only [rangeWalker, hb, hh, hl, if_false, Bool.false_eq_true]
          unfold walkerTable
          split <;> simp_all
        · simp only [rangeWalker, hb, hh, hl, if_false, if_true]
          unfold walkerTable
          split <;> simp_all

/-- C20: when the bounds that `fixrangeargs` hands back are not two equal non-nil keys, `Range`
calls exactly one walker, once, on the root of the snapshot with those bounds and the
callback: the walker of the table for `reverse` and `incl`, where any `incl` other than
`both`, `high` and `low` selects the walker of `none`. -/
theorem Range_dispatch (snapshot : LLRBSnapshot)
    (fixrangeargs : Option (List Nat) → Option (List Nat) → Option (List Nat) × Option (List Nat))
    (ismut : Int) (lkey hkey : Option (List Nat)) (incl : String) (reverse : Bool) (callb : Nat)
    (h : ¬ ((fixrangeargs lkey hkey).1 ≠ none ∧ (fixrangeargs lkey hkey).2 ≠ none ∧
            (fixrangeargs lkey hkey).1 = (fixrangeargs lkey hkey).2)) :
    (snapshot.Range fixrangeargs ismut lkey hkey incl reverse callb).1
      = [{ walker := walkerTable reverse incl, root := snapshot.root,
           lkey := (fixrangeargs lkey hkey).1, hkey := (fixrangeargs lkey hkey).2,
           callb := callb }] ∧
    (incl ≠ "both" → incl ≠ "high" → incl ≠ "low" →
      walkerTable reverse incl = walkerTable reverse "none") := by
  constructor
  · unfold LLRBSnapshot.Range
    rcases hfix : fixrangeargs lkey hkey with ⟨lk, hk⟩
    rw [hfix] at h
    simp only at h ⊢
    have h1 : ¬ (lk ≠ none ∧ hk ≠ none ∧ lk = hk ∧ incl = "none") :=
      fun hc => h ⟨hc.1, hc.2.1, hc.2.2.1⟩
    have h2 : ¬ (lk ≠ none ∧ hk ≠ none ∧ lk = hk ∧ (incl = "low" ∨ incl = "high")) :=
      fun hc => h ⟨hc.1, hc.2.1, hc.2.2.1⟩
    rw [if_neg h1, if_neg h2, rangeWalker_eq_table]
  · intro hb hh hl
    cases reverse <;> unfold walkerTable <;> split <;> simp_all

theorem Range_dispatch_witness :
    ((llrbSample.snapshots.headD (newsnapshot llrbSample "1").1).Range (fun l h => (l, h)) 0
        (some [1]) (some [2]) "all" true 9).1
      = [{ walker := walkerTable true "all",
           root := (llrbSample.snapshots.headD (newsnapshot llrbSample "1").1).root,
           lkey := some [1], hkey := some [2], callb := 9 }] ∧
    (("all" : String) ≠ "both" → ("all" : String) ≠ "high" → ("all" : String) ≠ "low" →
      walkerTable true "all" = walkerTable true "none") :=
  Range_dispatch (llrbSample.snapshots.headD (newsnapshot llrbSample "1").1) (fun l h => (l, h)) 0
    (some [1]) (some [2]) "all" true 9 (by decide)

/-! ## recovery of the disk levels -/

theorem filterMap_set_of_none (d : Disk) :
    ∀ (l : List (Option Disk)) (i : Nat), l[i]? = some none →
      List.Perm ((l.set i (some d)).filterMap id) (d :: l.filterMap id) := by
  intro l
  induction l with
  | nil => intro i h; simp at h
  | cons x rest ih =>
    intro i h
    cases i with
    | zero =>
      simp only [List.getElem?_cons_zero, Option.some.injEq] at h
      subst h
      simp
    | succ i =>
      simp only [List.getElem?_cons_succ] at h
      cases x with
      | none => simpa using ih i h
      | some y =>
        simp only [List.set_cons_succ, List.filterMap_cons_some (rfl : id (some y) = some y)]
        exact ((ih i h).cons y).trans (List.Perm.swap d y _)

theorem filterMap_set_of_some (d od : Disk) :
    ∀ (l : List (Option Disk)) (i : Nat), l[i]? = some (some od) →
      List.Perm (od :: (l.set i (some d)).filterMap id) (d :: l.filterMap id) := by
  intro l
  induction l with
  | nil => intro i h; simp at h
  | cons x rest ih =>
    intro i h
    cases i with
    | zero =>
      simp only [List.getElem?_cons_zero, Option.some.injEq] at h
      subst h
      simpa using List.Perm.swap d od _
    | succ i =>
      simp only [List.getElem?_cons_succ] at h
      cases x with
      | none => simpa using ih i h
      | some y =>
        simp only [List.set_cons_succ, List.filterMap_cons_some (rfl : id (some y) = some y)]
        exact (List.Perm.swap y od _).trans (((ih i h).cons y).trans (List.Perm.swap d y _))

theorem buildlevels_step (bogn : Bogn) (OpenSnapshot : String → Except String Disk)
    (seen : List String) (st : LevelsState) (f : String) (d : Disk)
    (hinv : LevelsInv bogn OpenSnapshot seen st) (hwf : bogn.wellformed f)
    (hopen : OpenSnapshot f = .ok d) (hid : d.id = f) :
    ∃ st1, bogn.buildlevels OpenSnapshot f st = .ok (st1, none) ∧
      LevelsInv bogn OpenSnapshot (seen ++ [f]) st1 := by
  obtain ⟨hlen, hslots, hperm⟩ := hinv
  obtain ⟨hl0, hl16, hname⟩ := hwf
  have hopened : (seen ++ [f]).filterMap (fun f => (OpenSnapshot f).toOption)
      = seen.filterMap (fun f => (OpenSnapshot f).toOption) ++ [d] := by
    rw [List.filterMap_append]
    simp [hopen, Except.toOption]
  obtain ⟨n, hn⟩ : ∃ n : Nat, (bogn.path2level f).1 = n := ⟨_, (Int.toNat_of_nonneg hl0).symm⟩
  have hn16 : n < 16 := by omega
  have htoNat : (bogn.path2level f).1.toNat = n := by omega
  unfold Bogn.buildlevels
  simp only [if_neg (not_lt.2 hl0), hname, hopen, htoNat]
  rcases hslots n hn16 with ⟨hnone, hnoseen⟩ | ⟨od, hod, hodseen, hodopen, hodlevel, hodmax⟩
  · rw [hnone]
    refine ⟨_, rfl, ?_, ?_, ?_⟩
    · simp [hlen]
    · intro L hL
      by_cases hLn : L = n
      · subst hLn
        right
        refine ⟨d, by simp [hlen, hL], by simp [hid], by rw [hid]; exact hopen,
          by rw [hid]; exact hn, ?_⟩
        intro g hg hgl
        rcases List.mem_append.1 hg with hg | hg
        · exact absurd hgl (hnoseen g hg)
        · rw [List.mem_singleton.1 hg, hid]
      · have hget : (st.disks.set n (some d))[L]? = st.disks[L]? := by
          rw [List.getElem?_set_ne (Ne.symm hLn)]
        rcases hslots L hL with ⟨h1, h2⟩ | ⟨e, h1, h2, h3, h4, h5⟩
        · left
          refine ⟨by rw [hget]; exact h1, ?_⟩
          intro g hg
          rcases List.mem_append.1 hg with hg | hg
          · exact h2 g hg
          · rw [List.mem_singleton.1 hg, hn]
            exact fun hc => hLn (by exact_mod_cast hc.symm)
        · right
          refine ⟨e, by rw [hget]; exact h1, List.mem_append_left _ h2, h3, h4, ?_⟩
          intro g hg hgl
          rcases List.mem_append.1 hg with hg | hg
          · exact h5 g hg hgl
          · rw [List.mem_singleton.1 hg, hn] at hgl
            exact absurd (by exact_mod_cast hgl.symm) hLn
    · rw [hopened]
      have h1 := filterMap_set_of_none d st.disks n hnone
      have h2 : List.Perm (st.closed ++ (st.disks.set n (some d)).filterMap id)
          (st.closed ++ d :: st.disks.filterMap id) := List.Perm.append_left _ h1
      refine h2.trans ?_
      have h3 : List.Perm (st.closed ++ d :: st.disks.filterMap id)
          ((st.closed ++ st.disks.filterMap id) ++ [d]) := by
        rw [List.append_assoc]
        exact List.Perm.append_left _ (List.perm_append_singleton d _).symm
      exact h3.trans (List.Perm.append_right _ hperm)
  · rw [hod]
    by_cases hver : (bogn.path2level od.id).2.1 < (bogn.path2level f).2.1
    · simp only [if_pos hver]
      refine ⟨_, rfl, ?_, ?_, ?_⟩
      · simp [hlen]
      · intro L hL
        by_cases hLn : L = n
        · subst hLn
          right
          refine ⟨d, by simp [hlen, hL], by simp [hid], by rw [hid]; exact hopen,
            by rw [hid]; exact hn, ?_⟩
          intro g hg hgl
          rcases List.mem_append.1 hg with hg | hg
          · rw [hid]
            exact le_trans (hodmax g hg hgl) (le_of_lt hver)
          · rw [List.mem_singleton.1 hg, hid]
        · have hget : (st.disks.set n (some d))[L]? = st.disks[L]? := by
            rw [List.getElem?_set_ne (Ne.symm hLn)]
          rcases hslots L hL with ⟨h1, h2⟩ | ⟨e, h1, h2, h3, h4, h5⟩
          · left
            refine ⟨by rw [hget]; exact h1, ?_⟩
            intro g hg
            rcases List.mem_append.1 hg with hg | hg
            · exact h2 g hg
            · rw [List.mem_singleton.1 hg, hn]
              exact fun hc => hLn (by exact_mod_cast hc.symm)
          · right
            refine ⟨e, by rw [hget]; exact h1, List.mem_append_left _ h2, h3, h4, ?_⟩
            intro g hg hgl
            rcases List.mem_append.1 hg with hg | hg
            · exact h5 g hg hgl
            · rw [List.mem_singleton.1 hg, hn] at hgl
              exact absurd (by exact_mod_cast hgl.symm) hLn
      · rw [hopened]
        have h1 := filterMap_set_of_some d od st.disks n hod
        have h2 : List.Perm ((st.closed ++ [od]) ++ (st.disks.set n (some d)).filterMap id)
            (st.closed ++ d :: st.disks.filterMap id) := by
          rw [List.append_assoc]
          exact List.Perm.append_left _ h1
        refine h2.trans ?_
        have h3 : List.Perm (st.closed ++ d :: st.disks.filterMap id)
            ((st.closed ++ st.disks.filterMap id) ++ [d]) := by
          rw [List.append_assoc]
          exact List.Perm.append_left _ (List.perm_append_singleton d _).symm
        exact h3.trans (List.Perm.append_right _ hperm)
    · simp only [if_neg hver]
      refine ⟨_, rfl, hlen, ?_, ?_⟩
      · intro L hL
        rcases hslots L hL with ⟨h1, h2⟩ | ⟨e, h1, h2, h3, h4, h5⟩
        · left
          refine ⟨h1, ?_⟩
          intro g hg
          rcases List.mem_append.1 hg with hg | hg
          · exact h2 g hg
          · rw [List.mem_singleton.1 hg, hn]
            intro hc
            have hLn : n = L := by exact_mod_cast hc
            subst hLn
            rw [hod] at h1
            cases h1
        · right
          refine ⟨e, h1, List.mem_append_left _ h2, h3, h4, ?_⟩
          intro g hg hgl
          rcases List.mem_append.1 hg with hg | hg
          · exact h5 g hg hgl
          · rw [List.mem_singleton.1 hg] at hgl ⊢
            have hLn : n = L := by
              rw [hn] at hgl
              exact_mod_cast hgl
            subst hLn
            rw [hod] at h1
            cases h1
            omega
      · rw [hopened]
        have h3 : List.Perm ((st.closed ++ [d]) ++ st.disks.filterMap id)
            ((st.closed ++ st.disks.filterMap id) ++ [d]) := by
          rw [List.append_assoc, List.append_assoc]
          exact List.Perm.append_left _ List.perm_append_comm
        exact h3.trans (List.Perm.append_right _ hperm)

theorem opendisksnapsFiles_inv (bogn : Bogn) (OpenSnapshot : String → Except String Disk) :
    ∀ (files seen : List String) (st : LevelsState),
      LevelsInv bogn OpenSnapshot seen st →
      (∀ f ∈ files, bogn.wellformed f) →
      (∀ f ∈ files, ∃ d, OpenSnapshot f = .ok d ∧ d.id = f) →
      ∃ st1, opendisksnapsFiles bogn OpenSnapshot files st = .ok (st1, none) ∧
        LevelsInv bogn OpenSnapshot (seen ++ files) st1 := by
  intro files
  induction files with
  | nil =>
    intro seen st hinv _ _
    exact ⟨st, rfl, by simpa using hinv⟩
  | cons f rest ih =>
    intro seen st hinv hwf hopen
    obtain ⟨d, hd, hid⟩ := hopen f (List.mem_cons_self _ _)
    have hwff := hwf f (List.mem_cons_self _ _)
    obtain ⟨st1, hb, hinv1⟩ := buildlevels_step bogn OpenSnapshot seen st f d hinv hwff hd hid
    obtain ⟨st2, hr, hinv2⟩ := ih (seen ++ [f]) st1 hinv1
      (fun g hg => hwf g (List.mem_cons_of_mem _ hg))
      (fun g hg => hopen g (List.mem_cons_of_mem _ hg))
    refine ⟨st2, ?_, by simpa using hinv2⟩
    unfold opendisksnapsFiles
    rw [if_neg (not_lt.2 hwff.1), hb]
    exact hr

/-- C15: for every list of well-formed file names with levels from 0 to 15 whose opens all
succeed, the loop of `buildlevels` from an empty level array ends without an error;
every slot `L` without a listed file of level `L` is empty and every other slot holds the
disk of a listed file of level `L` with the highest version; the disks closed together
with the disks in the slots are exactly the disks opened. -/
theorem buildlevels_keeps_highest_version (bogn : Bogn)
    (OpenSnapshot : String → Except String Disk) (files : List String)
    (hwf : ∀ f ∈ files, bogn.wellformed f)
    (hopen : ∀ f ∈ files, ∃ d, OpenSnapshot f = .ok d ∧ d.id = f) :
    ∃ st, opendisksnapsFiles bogn OpenSnapshot files ⟨List.replicate 16 none, []⟩ = .ok (st, none) ∧
      st.disks.length = 16 ∧
      (∀ L : Nat, L < 16 →
        ((∀ f ∈ files, (bogn.path2level f).1 ≠ L) → st.disks[L]? = some none) ∧
        ((∃ f ∈ files, (bogn.path2level f).1 = L) →
          ∃ d, st.disks[L]? = some (some d) ∧ d.id ∈ files ∧ OpenSnapshot d.id = .ok d ∧
            (bogn.path2level d.id).1 = L ∧
            ∀ g ∈ files, (bogn.path2level g).1 = L →
              (bogn.path2level g).2.1 ≤ (bogn.path2level d.id).2.1)) ∧
      List.Perm (st.closed ++ st.disks.filterMap id)
        (files.filterMap (fun f => (OpenSnapshot f).toOption)) := by
  have h0 : LevelsInv bogn OpenSnapshot [] ⟨List.replicate 16 none, []⟩ := by
    refine ⟨by simp, ?_, ?_⟩
    · intro L hL
      left
      refine ⟨?_, by simp⟩
      rw [List.getElem?_replicate, if_pos hL]
    · have : (List.replicate 16 (none : Option Disk)).filterMap id = [] := by decide
      simp [this]
  obtain ⟨st, hr, hlen, hslots, hperm⟩ :=
    opendisksnapsFiles_inv bogn OpenSnapshot files [] _ h0 hwf hopen
  rw [List.nil_append] at hslots hperm
  refine ⟨st, hr, hlen, ?_, hperm⟩
  intro L hL
  rcases hslots L hL with ⟨h1, h2⟩ | ⟨d, h1, h2, h3, h4, h5⟩
  · exact ⟨fun _ => h1, fun ⟨f, hf, hfl⟩ => absurd hfl (h2 f hf)⟩
  · exact ⟨fun hno => absurd h4 (hno d.id h2), fun _ => ⟨d, h1, h2, h3, h4, h5⟩⟩

theorem buildlevels_keeps_highest_version_witness :
    ∃ st, opendisksnapsFiles bognQuarter openAll filesSample ⟨List.replicate 16 none, []⟩
        = .ok (st, none) ∧
      st.disks.length = 16 ∧
      (∀ L : Nat, L < 16 →
        ((∀ f ∈ filesSample, (bognQuarter.path2level f).1 ≠ L) → st.disks[L]? = some none) ∧
        ((∃ f ∈ filesSample, (bognQuarter.path2level f).1 = L) →
          ∃ d, st.disks[L]? = some (some d) ∧ d.id ∈ filesSample ∧ openAll d.id = .ok d ∧
            (bognQuarter.path2level d.id).1 = L ∧
            ∀ g ∈ filesSample, (bognQuarter.path2level g).1 = L →
              (bognQuarter.path2level g).2.1 ≤ (bognQuarter.path2level d.id).2.1)) ∧
      List.Perm (st.closed ++ st.disks.filterMap id)
        (filesSample.filterMap (fun f => (openAll f).toOption)) :=
  buildlevels_keeps_highest_version bognQuarter openAll filesSample
    (by set_option maxRecDepth 1000000 in decide)
    (fun f _ => ⟨⟨f, 100⟩, rfl, rfl⟩)

theorem opendisksnapsFiles_cons (bogn : Bogn) (OpenSnapshot : String → Except String Disk)
    (fi : String) (fis : List String) (st : LevelsState) :
    opendisksnapsFiles bogn OpenSnapshot (fi :: fis) st
      = if (bogn.path2level fi).1 < 0 then opendisksnapsFiles bogn OpenSnapshot fis st
        else
          match bogn.buildlevels OpenSnapshot fi st with
          | .error e => .error e
          | .ok (st1, some err) => .ok (st1, some err)
          | .ok (st1, none) => opendisksnapsFiles bogn OpenSnapshot fis st1 := rfl

theorem opendisksnapsFiles_append (bogn : Bogn) (OpenSnapshot : String → Except String Disk)
    (files : List String) :
    ∀ (pre : List String) (st0 st : LevelsState),
      opendisksnapsFiles bogn OpenSnapshot pre st0 = .ok (st, none) →
      opendisksnapsFiles bogn OpenSnapshot (pre ++ files) st0
        = opendisksnapsFiles bogn OpenSnapshot files st := by
  intro pre
  induction pre with
  | nil =>
    intro st0 st h
    simp only [opendisksnapsFiles, Except.ok.injEq, Prod.mk.injEq, and_true] at h
    subst h
    rfl
  | cons f rest ih =>
    intro st0 st h
    rw [List.cons_append]
    rw [opendisksnapsFiles_cons] at h ⊢
    by_cases hneg : (bogn.path2level f).1 < 0
    · rw [if_pos hneg] at h ⊢
      exact ih st0 st h
    · rw [if_neg hneg] at h ⊢
      split at h
      · cases h
      · cases h
      next st1 heq => exact ih st1 st h

/-- C16 (counterexample): with a file `bogn-2-3-c` that fails to open, `buildlevels` returns the
error of the open, and the loop of `opendisksnaps` over that file and `bogn-5-1-b` returns at
once with that error: level 5 stays empty although its file opens. -/
theorem buildlevels_returns_open_error :
    bognQuarter.buildlevels openButOne "bogn-2-3-c" ⟨List.replicate 16 none, []⟩
      = .ok (⟨List.replicate 16 none, []⟩, some "open failed") ∧
    opendisksnapsFiles bognQuarter openButOne ["bogn-2-3-c", "bogn-5-1-b"]
        ⟨List.replicate 16 none, []⟩
      = .ok (⟨List.replicate 16 none, []⟩, some "open failed") ∧
    openButOne "bogn-5-1-b" = .ok ⟨"bogn-5-1-b", 100⟩ := by
  refine ⟨?_, ?_, ?_⟩ <;> set_option maxRecDepth 1000000 in decide

/-- C16 (amended): when the open of a file with a level `>= 0` fails, `buildlevels` returns the
level array unchanged together with the error of the open; the loop of `opendisksnaps`
stops at that file, and `opendisksnaps` returns the levels built from the files before it
with that error, without reading the remaining files or paths. -/
theorem buildlevels_open_error_stops (bogn : Bogn) (OpenSnapshot : String → Except String Disk)
    (f : String) (st : LevelsState) (err : String)
    (hlevel : 0 ≤ (bogn.path2level f).1)
    (hopen : OpenSnapshot (bogn.levelname (bogn.path2level f).1 (bogn.path2level f).2.1
      (bogn.path2level f).2.2) = .error err) :
    bogn.buildlevels OpenSnapshot f st = .ok (st, some err) ∧
    (∀ (pre rest : List String) (st0 : LevelsState),
      opendisksnapsFiles bogn OpenSnapshot pre st0 = .ok (st, none) →
      opendisksnapsFiles bogn OpenSnapshot (pre ++ f :: rest) st0 = .ok (st, some err)) ∧
    (∀ (pre rest : List String) (ReadDir : String → Except String (List String))
        (path : String) (paths : List String),
      opendisksnapsFiles bogn OpenSnapshot pre ⟨List.replicate 16 none, []⟩ = .ok (st, none) →
      ReadDir path = .ok (pre ++ f :: rest) →
      bogn.opendisksnaps OpenSnapshot ReadDir (path :: paths) = .ok (st, some err)) := by
  have hb : bogn.buildlevels OpenSnapshot f st = .ok (st, some err) := by
    unfold Bogn.buildlevels
    simp only [if_neg (not_lt.2 hlevel), hopen]
  have hfiles : ∀ (pre rest : List String) (st0 : LevelsState),
      opendisksnapsFiles bogn OpenSnapshot pre st0 = .ok (st, none) →
      opendisksnapsFiles bogn OpenSnapshot (pre ++ f :: rest) st0 = .ok (st, some err) := by
    intro pre rest st0 hpre
    rw [opendisksnapsFiles_append bogn OpenSnapshot (f :: rest) pre st0 st hpre]
    rw [opendisksnapsFiles_cons, if_neg (not_lt.2 hlevel), hb]
  refine ⟨hb, hfiles, ?_⟩
  intro pre rest ReadDir path paths hpre hread
  unfold Bogn.opendisksnaps opendisksnapsPaths
  simp only [hread, hfiles pre rest _ hpre]

theorem buildlevels_open_error_stops_witness :
    bognQuarter.buildlevels openButOne "bogn-2-3-c" ⟨List.replicate 16 none, []⟩
      = .ok (⟨List.replicate 16 none, []⟩, some "open failed") ∧
    (∀ (pre rest : List String) (st0 : LevelsState),
      opendisksnapsFiles bognQuarter openButOne pre st0 = .ok (⟨List.replicate 16 none, []⟩, none) →
      opendisksnapsFiles bognQuarter openButOne (pre ++ "bogn-2-3-c" :: rest) st0
        = .ok (⟨List.replicate 16 none, []⟩, some "open failed")) ∧
    (∀ (pre rest : List String) (ReadDir : String → Except String (List String))
        (path : String) (paths : List String),
      opendisksnapsFiles bognQuarter openButOne pre ⟨List.replicate 16 none, []⟩
        = .ok (⟨List.replicate 16 none, []⟩, none) →
      ReadDir path = .ok (pre ++ "bogn-2-3-c" :: rest) →
      bognQuarter.opendisksnaps openButOne ReadDir (path :: paths)
        = .ok (⟨List.replicate 16 none, []⟩, some "open failed")) :=
  buildlevels_open_error_stops bognQuarter openButOne "bogn-2-3-c" ⟨List.replicate 16 none, []⟩
    "open failed" (by set_option maxRecDepth 1000000 in decide)
    (by set_option maxRecDepth 1000000 in decide)

/-! ## metadata header -/

theorem and_shiftLeft_shiftRight (x m k : Nat) : (x &&& (m <<< k)) >>> k = (x >>> k) &&& m := by
  apply Nat.eq_of_testBit_eq
  intro i
  simp [Nat.testBit_shiftRight, Nat.testBit_and, Nat.testBit_shiftLeft]

theorem lowbits_or_shiftLeft (x y k : Nat) :
    ((x &&& (2 ^ k - 1)) ||| (y <<< k)) >>> k = y ∧
    ((x &&& (2 ^ k - 1)) ||| (y <<< k)) % 2 ^ k = x % 2 ^ k := by
  constructor
  · apply Nat.eq_of_testBit_eq
    intro i
    simp [Nat.testBit_shiftRight, Nat.testBit_and, Nat.testBit_or, Nat.testBit_shiftLeft,
      Nat.testBit_two_pow_sub_one]
  · apply Nat.eq_of_testBit_eq
    intro i
    simp only [Nat.testBit_mod_two_pow, Nat.testBit_and, Nat.testBit_or, Nat.testBit_shiftLeft,
      Nat.testBit_two_pow_sub_one]
    by_cases h : i < k
    · simp [h, Nat.not_le.2 h]
    · simp [h]

theorem and_of_mod_eq (a b m k : Nat) (h : a % 2 ^ k = b % 2 ^ k) (hm : m < 2 ^ k) :
    a &&& m = b &&& m := by
  apply Nat.eq_of_testBit_eq
  intro i
  simp only [Nat.testBit_and]
  by_cases hi : i < k
  · have ha := Nat.testBit_mod_two_pow a k i
    have hb := Nat.testBit_mod_two_pow b k i
    rw [h] at ha
    simp only [hi, decide_True, Bool.true_and] at ha hb
    rw [← ha, hb]
  · have hmi : m.testBit i = false :=
      Nat.testBit_lt_two_pow (lt_of_lt_of_le hm (Nat.pow_le_pow_right (by norm_num) (not_lt.1 hi)))
    simp [hmi]

/-- C22: for every header and every size with `0 <= size < 4096`, `setkeysize(size)` followed
by `keysize()` returns `size`, and `setkeysize` leaves bits 0..51 of the header unchanged:
the flags, the vbno and the access are as before. -/
theorem setkeysize_keysize (md : metadata) (size : Int) (h0 : 0 ≤ size) (h1 : size < 4096) :
    (md.setkeysize size).keysize = size ∧
    (md.setkeysize size).hdr % 2 ^ 52 = md.hdr % 2 ^ 52 ∧
    (md.setkeysize size).fmask = md.fmask ∧
    (md.setkeysize size).vbno = md.vbno ∧
    (md.setkeysize size).access = md.access ∧
    (md.setkeysize size).fields = md.fields := by
  obtain ⟨s, rfl⟩ : ∃ s : Nat, size = s := ⟨size.toNat, (Int.toNat_of_nonneg h0).symm⟩
  have hs : s < 4096 := by exact_mod_cast h1
  have hconv : ((s : Int) % 18446744073709551616).toNat &&& 0xfff = s := by
    have e1 : ((s : Int) % 18446744073709551616).toNat = s := by omega
    rw [e1, show (0xfff : Nat) = 2 ^ 12 - 1 from rfl, Nat.and_pow_two_sub_one_eq_mod]
    exact Nat.mod_eq_of_lt hs
  have hhdr : (md.setkeysize (s : Int)).hdr = (md.hdr &&& (2 ^ 52 - 1)) ||| (s <<< 52) := by
    simp only [metadata.setkeysize, hconv]
    rfl
  obtain ⟨k1, k2⟩ := lowbits_or_shiftLeft md.hdr s 52
  rw [← hhdr] at k1 k2
  refine ⟨?_, k2, ?_, ?_, ?_, rfl⟩
  · unfold metadata.keysize
    rw [show (0xfff0000000000000 : Nat) = 0xfff <<< 52 from rfl, and_shiftLeft_shiftRight, k1,
      show (0xfff : Nat) = 2 ^ 12 - 1 from rfl, Nat.and_pow_two_sub_one_eq_mod,
      Nat.mod_eq_of_lt hs]
  · exact and_of_mod_eq _ _ 0xffff 52 k2 (by norm_num)
  · unfold metadata.vbno
    rw [and_of_mod_eq _ _ 0xffff0000 52 k2 (by norm_num)]
  · unfold metadata.access
    rw [and_of_mod_eq _ _ 0xfffff00000000 52 k2 (by norm_num)]

theorem setkeysize_keysize_witness :
    (mdSample.setkeysize 77).keysize = 77 ∧
    (mdSample.setkeysize 77).hdr % 2 ^ 52 = mdSample.hdr % 2 ^ 52 ∧
    (mdSample.setkeysize 77).fmask = mdSample.fmask ∧
    (mdSample.setkeysize 77).vbno = mdSample.vbno ∧
    (mdSample.setkeysize 77).access = mdSample.access ∧
    (mdSample.setkeysize 77).fields = mdSample.fields :=
  setkeysize_keysize mdSample 77 (by decide) (by decide)

theorem setaccess_hdr (md : metadata) (access : Nat) :
    (md.setaccess access).hdr
      = ((md.hdr &&& ((2 ^ 20 - 1) <<< 32)) ||| ((access &&& (2 ^ 20 - 1)) <<< 32)) := rfl

theorem setaccess_bits (md : metadata) (access i : Nat) :
    (md.setaccess access).hdr.testBit i
      = (decide (32 ≤ i) && decide (i < 52) &&
          (md.hdr.testBit i || access.testBit (i - 32))) := by
  rw [setaccess_hdr]
  simp only [Nat.testBit_or, Nat.testBit_and, Nat.testBit_shiftLeft, Nat.testBit_two_pow_sub_one,
    ge_iff_le]
  by_cases h1 : 32 ≤ i
  · by_cases h2 : i < 52
    · have h3 : i - 32 < 20 := by omega
      simp [h1, h2, h3]
    · have h3 : ¬ i - 32 < 20 := by omega
      simp [h1, h2, h3]
  · simp [h1]

/-- C23: `setaccess` keeps of the old header only the access bits: after `setaccess(a)`, for
every header, `access()` is the old access or-ed with `a & 0xfffff`, and the key size, the
vbno and the flags are all zero.  On a header with key size 5, access 3, vbno 1 and the
flags 0x4001, `setaccess(8)` gives access 11, key size 0, vbno 0 and no flags. -/
theorem setaccess_clears_header (md : metadata) (access : Nat) :
    (md.setaccess access).access = md.access ||| (access &&& 0xfffff) ∧
    (md.setaccess access).keysize = 0 ∧
    (md.setaccess access).vbno = 0 ∧
    (md.setaccess access).fmask = 0 ∧
    (mdSample.keysize = 5 ∧ mdSample.access = 3 ∧ mdSample.vbno = 1 ∧ mdSample.fmask = 0x4001) ∧
    ((mdSample.setaccess 8).access = 11 ∧ (mdSample.setaccess 8).keysize = 0 ∧
      (mdSample.setaccess 8).vbno = 0 ∧ (mdSample.setaccess 8).fmask = 0) := by
  refine ⟨?_, ?_, ?_, ?_, by decide, by decide⟩
  · unfold metadata.access
    rw [show (0xfffff00000000 : Nat) = (2 ^ 20 - 1) <<< 32 from rfl, and_shiftLeft_shiftRight,
      and_shiftLeft_shiftRight, show (0xfffff : Nat) = 2 ^ 20 - 1 from rfl]
    apply Nat.eq_of_testBit_eq
    intro i
    simp only [Nat.testBit_and, Nat.testBit_or, Nat.testBit_shiftRight, setaccess_bits,
      Nat.testBit_two_pow_sub_one]
    by_cases h : i < 20
    · have h1 : 32 ≤ 32 + i := by omega
      have h2 : 32 + i < 52 := by omega
      have h3 : 32 + i - 32 = i := by omega
      simp [h, h1, h2, h3]
    · simp [h]
  · unfold metadata.keysize
    rw [show (0xfff0000000000000 : Nat) = (2 ^ 12 - 1) <<< 52 from rfl, and_shiftLeft_shiftRight]
    have : (md.setaccess access).hdr >>> 52 &&& (2 ^ 12 - 1) = 0 := by
      apply Nat.eq_of_testBit_eq
      intro i
      have h2 : ¬ 52 + i < 52 := by omega
      simp [Nat.testBit_and, Nat.testBit_shiftRight, setaccess_bits, h2]
    rw [this]
    rfl
  · unfold metadata.vbno
    rw [show (0xffff0000 : Nat) = (2 ^ 16 - 1) <<< 16 from rfl, and_shiftLeft_shiftRight]
    apply Nat.eq_of_testBit_eq
    intro i
    simp only [Nat.testBit_and, Nat.testBit_shiftRight, setaccess_bits,
      Nat.testBit_two_pow_sub_one, Nat.zero_testBit]
    by_cases h : i < 16
    · have h1 : ¬ 32 ≤ 16 + i := by omega
      simp [h1]
    · simp [h]
  · unfold metadata.fmask
    rw [show (0xffff : Nat) = 2 ^ 16 - 1 from rfl]
    apply Nat.eq_of_testBit_eq
    intro i
    simp only [Nat.testBit_and, setaccess_bits, Nat.testBit_two_pow_sub_one, Nat.zero_testBit]
    by_cases h : i < 16
    · have h1 : ¬ 32 ≤ i := by omega
      simp [h1]
    · simp [h]

theorem isdeleted_eq_testBit (md : metadata) : md.isdeleted = md.hdr.testBit 14 := by
  unfold metadata.isdeleted
  rw [show mdFlagDeleted = 2 ^ 14 from rfl, Nat.and_two_pow]
  cases md.hdr.testBit 14 <;> decide

theorem setfield_hdr (md md1 : metadata) (mask value : Nat)
    (h : md.setfield mask value = .ok md1) : md1.hdr = md.hdr := by
  unfold metadata.setfield at h
  split at h
  · cases h; rfl
  · cases h

theorem apply_keeps_deleted (md md1 : metadata) (w : hdrWrite)
    (hw : ∀ access, w ≠ .setaccess access) (hd : md.isdeleted = true)
    (h : md.apply w = .ok md1) : md1.isdeleted = true := by
  rw [isdeleted_eq_testBit] at hd ⊢
  cases w with
  | setaccess access => exact absurd rfl (hw access)
  | setvbno vbno =>
    cases h
    have c : Nat.testBit 0xffffffff0000ffff 14 = true := by decide
    simp [metadata.setvbno, Nat.testBit_or, Nat.testBit_and, Nat.testBit_shiftLeft, hd, c]
  | setkeysize size =>
    cases h
    have c : Nat.testBit 0x000fffffffffffff 14 = true := by decide
    simp [metadata.setkeysize, Nat.testBit_or, Nat.testBit_and, Nat.testBit_shiftLeft, hd, c]
  | setblack => cases h; simp [metadata.setblack, Nat.testBit_or, hd]
  | setred =>
    cases h
    have c : Nat.testBit (not64 mdFlagBlack) 14 = true := by decide
    simp [metadata.setred, Nat.testBit_and, hd, c]
  | togglelink =>
    cases h
    have c : Nat.testBit mdFlagBlack 14 = false := by decide
    simp [metadata.togglelink, Nat.testBit_xor, hd, c]
  | setdirty => cases h; simp [metadata.setdirty, Nat.testBit_or, hd]
  | cleardirty =>
    cases h
    have c : Nat.testBit (not64 mdFlagDirty) 14 = true := by decide
    simp [metadata.cleardirty, Nat.testBit_and, hd, c]
  | setbnseq seqno => rw [setfield_hdr md md1 _ _ h]; exact hd
  | setddseq seqno => rw [setfield_hdr md md1 _ _ h]; exact hd
  | setmvalue mvalue level => rw [setfield_hdr md md1 _ _ h]; exact hd
  | setvbuuid vbuuid => rw [setfield_hdr md md1 _ _ h]; exact hd

/-- C24: `setaccess` undoes `setdeleted`: on every metadata value, `isdeleted()` is false
after `setdeleted()` followed by `setaccess(a)`.  Every sequence of the other header
write methods that returns keeps `isdeleted()` true. -/
theorem setdeleted_undone_by_setaccess :
    (∀ (md : metadata) (access : Nat), (md.setdeleted.setaccess access).isdeleted = false) ∧
    (∀ (md : metadata), md.setdeleted.isdeleted = true) ∧
    (∀ (ws : List hdrWrite) (md md1 : metadata),
      (∀ w ∈ ws, ∀ access, w ≠ .setaccess access) → md.isdeleted = true →
      md.applyAll ws = .ok md1 → md1.isdeleted = true) := by
  refine ⟨?_, ?_, ?_⟩
  · intro md access
    rw [isdeleted_eq_testBit, setaccess_bits]
    simp
  · intro md
    rw [isdeleted_eq_testBit]
    have c : Nat.testBit mdFlagDeleted 14 = true := by decide
    simp [metadata.setdeleted, Nat.testBit_or, c]
  · intro ws
    induction ws with
    | nil =>
      intro md md1 _ hd h
      cases h
      exact hd
    | cons w ws ih =>
      intro md md1 hw hd h
      unfold metadata.applyAll at h
      split at h
      next md2 h2 =>
        exact ih md2 md1 (fun w1 hw1 => hw w1 (List.mem_cons_of_mem _ hw1))
          (apply_keeps_deleted md md2 w (hw w (List.mem_cons_self _ _)) hd h2) h
      · cases h

theorem fieldindex_eq_of_low (md : metadata) (f : mdField) :
    md.fieldindex f.mask = fieldindexOf (md.hdr % 16) f.mask := by
  unfold metadata.fieldindex fieldindexOf
  have hm : f.mask < 2 ^ 4 := by cases f <;> decide
  have h := and_of_mod_eq md.hdr (md.hdr % 16) f.mask 4
    (by rw [show (2 : Nat) ^ 4 = 16 from rfl, Nat.mod_mod]) hm
  rw [Nat.and_comm f.mask, h, Nat.and_comm]

theorem flag_eq_of_low (md : metadata) (f : mdField) :
    md.hdr &&& f.flag = (md.hdr % 16) &&& f.flag :=
  and_of_mod_eq md.hdr (md.hdr % 16) f.flag 4
    (by rw [show (2 : Nat) ^ 4 = 16 from rfl, Nat.mod_mod]) (by cases f <;> decide)

theorem fieldindexOf_table :
    ∀ m < 16, ∀ f ∈ mdField.all, m &&& f.flag ≠ 0 →
      fieldindexOf m f.mask < 4 ∧
      ∀ g ∈ mdField.all, f ≠ g → m &&& g.flag ≠ 0 →
        fieldindexOf m f.mask ≠ fieldindexOf m g.mask := by
  decide

theorem fieldindex_enabled (md : metadata) (f g : mdField) (hf : md.hdr &&& f.flag ≠ 0)
    (hg : md.hdr &&& g.flag ≠ 0) (hfg : f ≠ g) :
    md.fieldindex f.mask < 4 ∧ md.fieldindex f.mask ≠ md.fieldindex g.mask := by
  rw [flag_eq_of_low] at hf hg
  rw [fieldindex_eq_of_low, fieldindex_eq_of_low]
  have hall : ∀ x : mdField, x ∈ mdField.all := by intro x; cases x <;> decide
  obtain ⟨h1, h2⟩ := fieldindexOf_table (md.hdr % 16) (Nat.mod_lt _ (by norm_num)) f (hall f) hf
  exact ⟨h1, h2 g (hall g) hfg hg⟩

theorem getfield_setfield (md : metadata) (mask value : Nat)
    (h : md.fieldindex mask < md.fields.length) :
    ∃ md1, md.setfield mask value = .ok md1 ∧ md1.hdr = md.hdr ∧
      md1.fields = md.fields.set (md.fieldindex mask) value ∧
      md1.getfield mask = .ok value := by
  refine ⟨{ md with fields := md.fields.set (md.fieldindex mask) value }, ?_, rfl, rfl, ?_⟩
  · unfold metadata.setfield
    rw [if_pos h]
  · unfold metadata.getfield
    have hidx : ({ md with fields := md.fields.set (md.fieldindex mask) value } : metadata).fieldindex
        mask = md.fieldindex mask := rfl
    rw [hidx]
    simp [h]

theorem getfield_of_fields (md md1 : metadata) (mask : Nat) (hhdr : md1.hdr = md.hdr)
    (h : md1.fields[md.fieldindex mask]? = md.fields[md.fieldindex mask]?) :
    md1.getfield mask = md.getfield mask := by
  unfold metadata.getfield
  have hidx : md1.fieldindex mask = md.fieldindex mask := by
    unfold metadata.fieldindex
    rw [hhdr]
  rw [hidx, h]

theorem write_eq_setfield (md : metadata) (f : mdField) (value level : Nat) :
    md.write f value level = md.setfield f.mask (f.stored value level) := by
  cases f <;> rfl

theorem read_of_getfield (md md1 : metadata) (f : mdField)
    (h : md1.getfield f.mask = md.getfield f.mask) : md1.read f = md.read f := by
  cases f <;>
    simp only [metadata.read, metadata.bnseq, metadata.ddseq, metadata.mvalue, metadata.vbuuid,
      mdField.mask] at h ⊢ <;> rw [h]

theorem pack_unpack (value level : Nat) :
    ((value &&& 0xfffffffffffffff8) ||| (level &&& 0x7)) &&& 0xfffffffffffffff8
        = value &&& 0xfffffffffffffff8 ∧
    (((value &&& 0xfffffffffffffff8) ||| (level &&& 0x7)) &&& 0x7) % 256 = level &&& 0x7 := by
  have c1 : (0x7 : Nat) &&& 0xfffffffffffffff8 = 0 := by decide
  have c2 : (0xfffffffffffffff8 : Nat) &&& 0x7 = 0 := by decide
  constructor
  · rw [Nat.and_distrib_right, Nat.and_assoc, Nat.and_self, Nat.and_assoc, c1, Nat.and_zero,
      Nat.or_zero]
  · rw [Nat.and_distrib_right, Nat.and_assoc, c2, Nat.and_zero, Nat.zero_or, Nat.and_assoc,
      Nat.and_self]
    exact Nat.mod_eq_of_lt (lt_of_le_of_lt Nat.and_le_right (by norm_num))

/-- C21: for every header and every two distinct fields among born-seqno, dead-seqno, mvalue
and vbuuid whose flags are both enabled, writing one field with its setter succeeds and
leaves the header alone; reading it back returns the written value (for mvalue: the value
with its low three bits cleared, together with `level & 7`), and the value read for the
other field is as before the write. -/
theorem field_write_read (md : metadata) (f g : mdField) (value level : Nat)
    (hlen : md.fields.length = 12)
    (hf : md.hdr &&& f.flag ≠ 0) (hg : md.hdr &&& g.flag ≠ 0) (hfg : f ≠ g) :
    ∃ md1, md.write f value level = .ok md1 ∧ md1.hdr = md.hdr ∧
      md1.read f = .ok (f.written value level) ∧ md1.read g = md.read g := by
  obtain ⟨hlt, hne⟩ := fieldindex_enabled md f g hf hg hfg
  rw [write_eq_setfield]
  obtain ⟨md1, h1, h2, h3, h4⟩ := getfield_setfield md f.mask (f.stored value level)
    (by omega)
  refine ⟨md1, h1, h2, ?_, ?_⟩
  · cases f
    · simp only [metadata.read, metadata.bnseq, mdField.mask] at h4 ⊢
      rw [h4]; rfl
    · simp only [metadata.read, metadata.ddseq, mdField.mask] at h4 ⊢
      rw [h4]; rfl
    · simp only [metadata.read, metadata.mvalue, mdField.mask] at h4 ⊢
      rw [h4]
      simp only [mdField.written, mdField.stored, (pack_unpack value level).1,
        (pack_unpack value level).2]
    · simp only [metadata.read, metadata.vbuuid, mdField.mask] at h4 ⊢
      rw [h4]; rfl
  · apply read_of_getfield
    apply getfield_of_fields md md1 g.mask h2
    rw [h3, List.getElem?_set_ne hne]

theorem field_write_read_witness :
    ∃ md1, (metadata.mk 0x400f (List.replicate 12 0)).write .mvalue 0xabcd 5 = .ok md1 ∧
      md1.hdr = (metadata.mk 0x400f (List.replicate 12 0)).hdr ∧
      md1.read .mvalue = .ok (mdField.mvalue.written 0xabcd 5) ∧
      md1.read .ddseq = (metadata.mk 0x400f (List.replicate 12 0)).read .ddseq :=
  field_write_read (metadata.mk 0x400f (List.replicate 12 0)) .mvalue .ddseq 0xabcd 5
    (by decide) (by decide) (by decide) (by decide)

/-! ## block sizes, arena, back references, Delete, Binarycmp, the snapshot lock -/

/-- C25 (amended): for every `minblock <= maxblock <= 2^61` that are positive multiples of
32, `Blocksizes(minblock, maxblock)` returns a strictly increasing list whose first element
is `minblock` and whose last element is `maxblock`. -/
theorem Blocksizes_strictly_increasing (minblock maxblock : Int) (hmin : 0 < minblock)
    (hle : minblock ≤ maxblock) (h1 : 32 ∣ minblock) (h2 : 32 ∣ maxblock)
    (hmax : maxblock ≤ 2 ^ 61) :
    ∃ sizes, Blocksizes minblock maxblock = .ok sizes ∧ List.Pairwise (· < ·) sizes ∧
      sizes.head? = some minblock ∧ sizes.getLast? = some maxblock := by
  obtain ⟨sizes, hs, hchain, _, hhead, hlast⟩ := Blocksizes_spec minblock maxblock hmin hle h1 h2
    (le_trans hmax (by norm_num))
  refine ⟨sizes, hs, ?_, hhead, hlast⟩
  have hlt : List.Chain' (fun a b : Int => a < b) sizes := hchain.imp (fun _ _ h => h.1)
  exact List.chain'_iff_pairwise.1 hlt

theorem Blocksizes_strictly_increasing_witness :
    ∃ sizes, Blocksizes 32 64 = .ok sizes ∧ List.Pairwise (· < ·) sizes ∧
      sizes.head? = some 32 ∧ sizes.getLast? = some 64 :=
  Blocksizes_strictly_increasing 32 64 (by decide) (by decide) ⟨1, rfl⟩ ⟨2, rfl⟩ (by norm_num)

theorem BlocksizesLoop_extends (maxblock : Int) :
    ∀ (fuel : Nat) (size : Int) (sizes out : List Int),
      BlocksizesLoop maxblock fuel size sizes = some out → ∃ rest, out = sizes ++ rest := by
  intro fuel
  induction fuel with
  | zero => intro size sizes out h; cases h
  | succ fuel ih =>
    intro size sizes out h
    unfold BlocksizesLoop at h
    split at h
    · split at h
      · cases h
      · obtain ⟨rest, hrest⟩ := ih _ _ _ h
        exact ⟨size :: rest, by rw [hrest]; simp⟩
    · cases h
      exact ⟨[maxblock], rfl⟩

/-- C25, as stated, fails for `minblock = 2^63 - 64` and `maxblock = 2^63 - 32`: the size
after `minblock` is `from + addby` wrapped to the negative `int` -8762203435012037056, which
is below `maxblock` and is appended; so whatever number of iterations the loop of
`Blocksizes` is given, it does not return a strictly increasing list. -/
theorem Blocksizes_wraps_at_large_sizes :
    (0 : Int) < 9223372036854775744 ∧ (9223372036854775744 : Int) ≤ 9223372036854775776 ∧
    (32 : Int) ∣ 9223372036854775744 ∧ (32 : Int) ∣ 9223372036854775776 ∧
    (9223372036854775776 : Int) < 2 ^ 63 ∧
    nextsize 9223372036854775744 = some (-8762203435012037056) ∧
    (¬ ∃ (fuel : Nat) (sizes : List Int),
        BlocksizesLoop 9223372036854775776 fuel 9223372036854775744 [] = some sizes ∧
        List.Pairwise (· < ·) sizes) ∧
    ¬ ∃ sizes : List Int,
        Blocksizes 9223372036854775744 9223372036854775776 = .ok sizes ∧
        List.Pairwise (· < ·) sizes ∧ sizes.head? = some 9223372036854775744 ∧
        sizes.getLast? = some 9223372036854775776 := by
  have hnext : nextsize 9223372036854775744 = some (-8762203435012037056) := by
    set_option maxRecDepth 1000000 in decide
  have hloopfails : ¬ ∃ (fuel : Nat) (sizes : List Int),
      BlocksizesLoop 9223372036854775776 fuel 9223372036854775744 [] = some sizes ∧
      List.Pairwise (· < ·) sizes := ?_
  · refine ⟨by decide, by decide, ⟨288230376151711742, rfl⟩, ⟨288230376151711743, rfl⟩,
      by norm_num, hnext, hloopfails, ?_⟩
    rintro ⟨sizes, hb, hpw, _, _⟩
    unfold Blocksizes at hb
    rw [if_neg (by decide), if_neg (by decide), if_neg (by decide)] at hb
    split at hb
    next out hout =>
      cases hb
      exact hloopfails ⟨_, _, hout, hpw⟩
    · cases hb
  rintro ⟨fuel, sizes, hloop, hpw⟩
  cases fuel with
  | zero => cases hloop
  | succ fuel =>
    unfold BlocksizesLoop at hloop
    rw [if_pos (by decide), hnext] at hloop
    simp only at hloop
    cases fuel with
    | zero => cases hloop
    | succ fuel =>
      unfold BlocksizesLoop at hloop
      rw [if_pos (by decide)] at hloop
      split at hloop
      · cases hloop
      · obtain ⟨rest, hrest⟩ := BlocksizesLoop_extends _ _ _ _ _ hloop
        rw [hrest] at hpw
        have h1 := (List.pairwise_append.1 hpw).1
        simp at h1

theorem BlocksizesLoop_last (maxblock : Int) :
    ∀ (fuel : Nat) (size : Int) (sizes out : List Int),
      BlocksizesLoop maxblock fuel size sizes = some out → out.getLast? = some maxblock := by
  intro fuel
  induction fuel with
  | zero => intro size sizes out h; cases h
  | succ fuel ih =>
    intro size sizes out h
    unfold BlocksizesLoop at h
    split at h
    · split at h
      · cases h
      · exact ih _ _ _ h
    · cases h
      simp

theorem Blocksizes_last (minblock maxblock : Int) (sizes : List Int)
    (h : Blocksizes minblock maxblock = .ok sizes) : sizes.getLast? = some maxblock := by
  unfold Blocksizes at h
  split at h
  · cases h
  · split at h
    · cases h
    · split at h
      · cases h
      · split at h
        next out hout =>
          cases h
          exact BlocksizesLoop_last maxblock _ _ _ _ hout
        · cases h

/-- C26: for every arena whose block sizes are those of `Blocksizes(minblock, maxblock)` and
every request `n` greater than `maxblock`, `alloc(n)` returns `(nil, nil)` and leaves the
arena, with its pools, unchanged. -/
theorem alloc_above_maxblock (arena : memarena) (n : Int) (base : Nat)
    (hsizes : Blocksizes arena.minblock arena.maxblock = .ok arena.blocksizes)
    (hn : arena.maxblock < n) :
    arena.alloc n base = .ok ((none, none), arena) := by
  unfold memarena.alloc
  rw [Blocksizes_last _ _ _ hsizes]
  simp only [if_pos hn]

theorem alloc_above_maxblock_witness :
    arenaSample.alloc 65 1000 = .ok ((none, none), arenaSample) :=
  alloc_above_maxblock arenaSample 65 1000 (by set_option maxRecDepth 1000000 in decide)
    (by decide)

theorem testBit_succ_of_even (m k : Nat) (hm : m % 2 = 0) (hk : 0 < k) :
    (m + 1).testBit k = m.testBit k := by
  obtain ⟨j, rfl⟩ : ∃ j, k = j + 1 := ⟨k - 1, by omega⟩
  rw [Nat.testBit_succ, Nat.testBit_succ]
  congr 1
  omega

/-- C27: for every m-block, `backref()` is `offset()` with bit 0 set: bit 0 of `backref()` is
set and every other bit is the bit of `offset()`; `backref()` is odd, and whenever the
offset is even, `backref()` with bit 0 cleared, `backref() - 1`, is `offset()`. -/
theorem backref_sets_bit_zero (m : mblock) :
    Int.testBit m.backref 0 = true ∧
    (∀ k, 0 < k → Int.testBit m.backref k = Int.testBit m.offset k) ∧
    m.backref % 2 = 1 ∧
    (m.offset % 2 = 0 → m.backref - 1 = m.offset ∧ Int.testBit m.offset 0 = false) := by
  have hbit0 : ∀ x : Int, Int.testBit x 0 = decide (x % 2 = 1) := by
    intro x
    cases x with
    | ofNat a =>
      simp only [Int.testBit, Int.ofNat_eq_coe, Nat.testBit_zero]
      congr 1
      apply propext
      omega
    | negSucc a =>
      simp only [Int.testBit, Nat.testBit_zero]
      have : (Int.negSucc a) % 2 = 1 ↔ a % 2 = 0 := by
        rw [Int.negSucc_eq]
        omega
      by_cases ha : a % 2 = 0
      · simp [ha, this]
      · have ha1 : a % 2 = 1 := by omega
        simp [ha1, this]
  unfold mblock.backref
  by_cases heven : m.offset % 2 = 0
  · rw [if_pos heven]
    refine ⟨?_, ?_, by omega, fun _ => ⟨by omega, ?_⟩⟩
    · rw [hbit0]
      simp only [decide_eq_true_eq]
      omega
    · intro k hk
      cases hoff : m.offset with
      | ofNat a =>
        rw [hoff] at heven
        have ha : a % 2 = 0 := by
          simp only [Int.ofNat_eq_coe] at heven
          omega
        have : (Int.ofNat a + 1) = Int.ofNat (a + 1) := rfl
        rw [this]
        simp only [Int.testBit]
        exact testBit_succ_of_even a k ha hk
      | negSucc a =>
        rw [hoff] at heven
        have ha : a % 2 = 1 := by
          rw [Int.negSucc_eq] at heven
          omega
        obtain ⟨b, rfl⟩ : ∃ b, a = b + 1 := ⟨a - 1, by omega⟩
        have : (Int.negSucc (b + 1) + 1) = Int.negSucc b := by
          rw [Int.negSucc_eq, Int.negSucc_eq]
          push_cast
          ring
        rw [this]
        simp only [Int.testBit]
        rw [testBit_succ_of_even b k (by omega) hk]
    · rw [hbit0]
      simp only [decide_eq_false_iff_not]
      omega
  · rw [if_neg heven]
    refine ⟨?_, fun _ _ => rfl, by omega, fun h => absurd h heven⟩
    rw [hbit0]
    simp only [decide_eq_true_eq]
    omega

theorem backref_sets_bit_zero_witness :
    Int.testBit mblockEmpty.backref 0 = true ∧
    (∀ k, 0 < k → Int.testBit mblockEmpty.backref k = Int.testBit mblockEmpty.offset k) ∧
    mblockEmpty.backref % 2 = 1 ∧
    (mblockEmpty.offset % 2 = 0 →
      mblockEmpty.backref - 1 = mblockEmpty.offset ∧ Int.testBit mblockEmpty.offset 0 = false) :=
  backref_sets_bit_zero mblockEmpty

/-- C28: for every settings value, the engine that `readsettings` configures forwards `Delete`
to the memtree with the flag `lsm` set if and only if the setting `dgm` is true. -/
theorem Delete_lsm_iff_dgm (bogn : BognSettings) (setts : Settings) (key oldvalue : List Nat) :
    (((bogn.readsettings setts).Delete key oldvalue).lsm = true ↔ setts.dgm = true) ∧
    ((bogn.readsettings setts).Delete key oldvalue).key = key ∧
    ((bogn.readsettings setts).Delete key oldvalue).oldvalue = oldvalue := by
  refine ⟨?_, rfl, rfl⟩
  unfold BognSettings.Delete BognSettings.readsettings
  cases setts.dgm <;> simp

theorem bytesCompare_values (a : List Nat) :
    ∀ b, bytesCompare a b = -1 ∨ bytesCompare a b = 0 ∨ bytesCompare a b = 1 := by
  induction a with
  | nil => intro b; cases b <;> simp [bytesCompare]
  | cons x xs ih =>
    intro b
    cases b with
    | nil => simp [bytesCompare]
    | cons y ys =>
      unfold bytesCompare
      split_ifs
      · exact Or.inl rfl
      · exact Or.inr (Or.inr rfl)
      · exact ih ys

theorem bytesCompare_eq_zero (a : List Nat) : ∀ b, bytesCompare a b = 0 ↔ a = b := by
  induction a with
  | nil => intro b; cases b <;> simp [bytesCompare]
  | cons x xs ih =>
    intro b
    cases b with
    | nil => simp [bytesCompare]
    | cons y ys =>
      unfold bytesCompare
      split_ifs with h1 h2
      · simp only [List.cons.injEq]
        constructor
        · intro h; exact absurd h (by decide)
        · rintro ⟨rfl, _⟩; omega
      · simp only [List.cons.injEq]
        constructor
        · intro h; exact absurd h (by decide)
        · rintro ⟨rfl, _⟩; omega
      · have hxy : x = y := by omega
        subst hxy
        simp [ih ys]

theorem bytesCompare_swap (a : List Nat) : ∀ b, bytesCompare a b = -bytesCompare b a := by
  induction a with
  | nil => intro b; cases b <;> simp [bytesCompare]
  | cons x xs ih =>
    intro b
    cases b with
    | nil => simp [bytesCompare]
    | cons y ys =>
      unfold bytesCompare
      split_ifs <;> first | omega | rfl | exact ih ys

theorem bytesCompare_lex (a : List Nat) :
    ∀ b, bytesCompare a b = -1 ↔ List.Lex (· < ·) a b := by
  induction a with
  | nil =>
    intro b
    cases b with
    | nil => simp [bytesCompare]
    | cons y ys => simp [bytesCompare, List.Lex.nil]
  | cons x xs ih =>
    intro b
    cases b with
    | nil => simp [bytesCompare]
    | cons y ys =>
      unfold bytesCompare
      split_ifs with h1 h2
      · exact ⟨fun _ => List.Lex.rel h1, fun _ => rfl⟩
      · constructor
        · intro h; exact absurd h (by decide)
        · intro h
          cases h with
          | cons h => omega
          | rel h => omega
      · have hxy : x = y := by omega
        subst hxy
        rw [ih ys]
        constructor
        · exact fun h => List.Lex.cons h
        · intro h
          cases h with
          | cons h => exact h
          | rel h => omega

theorem bytesCompare_trans (a : List Nat) :
    ∀ b c, bytesCompare a b ≤ 0 → bytesCompare b c ≤ 0 → bytesCompare a c ≤ 0 := by
  induction a with
  | nil => intro b c _ _; cases c <;> simp [bytesCompare]
  | cons x xs ih =>
    intro b c hab hbc
    cases b with
    | nil => simp [bytesCompare] at hab
    | cons y ys =>
      cases c with
      | nil => simp [bytesCompare] at hbc
      | cons z zs =>
        unfold bytesCompare at hab hbc ⊢
        split_ifs at hab hbc ⊢ <;> first | omega | exact ih ys zs hab hbc

/-- C29: with `partial = false`, `Binarycmp(a, b, false)` is the three-way lexicographic
comparison of the byte strings: it is -1, 0 or 1, it is -1 exactly when `a` is before `b`
in the lexicographic order of the bytes, it is 0 exactly when `a = b`, it changes sign
when the arguments are swapped, and `<= 0` is transitive. -/
theorem Binarycmp_total_order (a b c : List Nat) :
    (Binarycmp a b false = -1 ∨ Binarycmp a b false = 0 ∨ Binarycmp a b false = 1) ∧
    (Binarycmp a b false = -1 ↔ List.Lex (· < ·) a b) ∧
    (Binarycmp a b false = 0 ↔ a = b) ∧
    Binarycmp a b false = -Binarycmp b a false ∧
    (Binarycmp a b false ≤ 0 → Binarycmp b c false ≤ 0 → Binarycmp a c false ≤ 0) := by
  have h : ∀ x y : List Nat, Binarycmp x y false = bytesCompare x y := by
    intro x y
    simp [Binarycmp]
  rw [h, h, h, h]
  exact ⟨bytesCompare_values a b, bytesCompare_lex a b, bytesCompare_eq_zero a b,
    bytesCompare_swap a b, bytesCompare_trans a b c⟩

theorem Binarycmp_total_order_witness :
    (Binarycmp [1, 2] [1, 3] false = -1 ∨ Binarycmp [1, 2] [1, 3] false = 0 ∨
      Binarycmp [1, 2] [1, 3] false = 1) ∧
    (Binarycmp [1, 2] [1, 3] false = -1 ↔ List.Lex (· < ·) [1, 2] [1, 3]) ∧
    (Binarycmp [1, 2] [1, 3] false = 0 ↔ [1, 2] = [1, 3]) ∧
    Binarycmp [1, 2] [1, 3] false = -Binarycmp [1, 3] [1, 2] false ∧
    (Binarycmp [1, 2] [1, 3] false ≤ 0 → Binarycmp [1, 3] [1, 3, 0] false ≤ 0 →
      Binarycmp [1, 2] [1, 3, 0] false ≤ 0) :=
  Binarycmp_total_order [1, 2] [1, 3] [1, 3, 0]

/-- C30: `Close` stores nil through `setheadsnapshot` without taking the write lock of `snaprw`:
in the schedule where `Close` runs while a `Set` is inside its memtree call, every step can
be taken, and the store replaces the live snapshot while the read lock is held and the
memtree call is in flight. -/
theorem Close_store_overlaps_write :
    isInterleaving closeDuringSet writeSteps closeSteps = true ∧
    Action.Lock ∉ closeSteps ∧
    (lockIdle.run (closeDuringSet.take 5)).map (fun s => (s.readers, s.inflight, s.writer, s.head))
      = some (1, 1, false, some 1) ∧
    (lockIdle.run closeDuringSet).map (fun s => (s.head, s.overlapped, s.unlocked))
      = some (none, true, true) := by
  decide

/-! ## min, equal bounds -/

theorem min_eq_find (snapshot : LLRBSnapshot) (nd : Llrbnode) :
    snapshot.min nd = nd.inorder.find? (fun n => !n.IsDeleted) := by
  induction nd with
  | nil => rfl
  | node left key deleted right ihl ihr =>
    unfold LLRBSnapshot.min Llrbnode.inorder
    rw [ihl, List.append_assoc, List.find?_append]
    cases hl : left.inorder.find? (fun n => !n.IsDeleted) with
    | some m => rfl
    | none =>
      simp only [Option.none_or, List.singleton_append, List.find?_cons]
      cases deleted with
      | true => simp [Llrbnode.IsDeleted, ihr]
      | false => simp [Llrbnode.IsDeleted]

/-- C32: for every tree, `min(root)` returns the first node of the in-order traversal that is
not marked deleted; it returns `(nil, false)` exactly when every node of the tree is
marked deleted, which includes the empty tree; and on a search tree the node returned is
not deleted and no entry that is not deleted has a smaller key. -/
theorem min_first_not_deleted (snapshot : LLRBSnapshot) (root : Llrbnode) :
    snapshot.min root = root.inorder.find? (fun n => !n.IsDeleted) ∧
    (snapshot.min root = none ↔ ∀ n ∈ root.inorder, n.IsDeleted = true) ∧
    (snapshot.min Llrbnode.nil = none) ∧
    (root.isSearchTree → ∀ m, snapshot.min root = some m →
      m ∈ root.inorder ∧ m.IsDeleted = false ∧
      ∀ n ∈ root.inorder, n.IsDeleted = false → n = m ∨ bytesCompare m.key n.key = -1) := by
  refine ⟨min_eq_find snapshot root, ?_, rfl, ?_⟩
  · rw [min_eq_find, List.find?_eq_none]
    simp
  · intro hst m hm
    rw [min_eq_find] at hm
    obtain ⟨hp, pre, post, hsplit, hpre⟩ := List.find?_eq_some.1 hm
    have hmdel : m.IsDeleted = false := by simpa using hp
    refine ⟨by rw [hsplit]; simp, hmdel, ?_⟩
    intro n hn hndel
    unfold Llrbnode.isSearchTree at hst
    rw [hsplit] at hn hst
    rcases List.mem_append.1 hn with h1 | h1
    · have := hpre n h1
      simp [hndel] at this
    · rcases List.mem_cons.1 h1 with h2 | h2
      · exact Or.inl h2
      · right
        have hpw := (List.pairwise_append.1 hst).2.1
        exact (List.pairwise_cons.1 hpw).1 n h2

theorem min_first_not_deleted_witness :
    snapshotSample.min treeSample
      = treeSample.inorder.find? (fun n => !n.IsDeleted) ∧
    (snapshotSample.min treeSample = none ↔
      ∀ n ∈ treeSample.inorder, n.IsDeleted = true) ∧
    (snapshotSample.min Llrbnode.nil = none) ∧
    (treeSample.isSearchTree → ∀ m,
      snapshotSample.min treeSample = some m →
      m ∈ treeSample.inorder ∧ m.IsDeleted = false ∧
      ∀ n ∈ treeSample.inorder, n.IsDeleted = false →
        n = m ∨ bytesCompare m.key n.key = -1) :=
  min_first_not_deleted snapshotSample treeSample

/-- C33 (amended): for every key `k` for which `fixrangeargs` hands back two equal non-nil
bounds, `Range` with incl "none" calls no walker, so never the callback, and leaves the
counters alone, and `Iterate` with incl "none" returns nil; with incl "low" and with incl
"high" both do exactly what they do with incl "both". -/
theorem Range_equal_bounds (snapshot : LLRBSnapshot)
    (fixrangeargs : Option (List Nat) → Option (List Nat) → Option (List Nat) × Option (List Nat))
    (rangefill : llrbIterator → llrbIterator) (iter : llrbIterator)
    (maxkeysize maxlimit ismut : Int) (k : List Nat) (reverse : Bool) (callb : Nat)
    (hl : (fixrangeargs (some k) (some k)).1 ≠ none)
    (hh : (fixrangeargs (some k) (some k)).2 ≠ none)
    (heq : (fixrangeargs (some k) (some k)).1 = (fixrangeargs (some k) (some k)).2) :
    snapshot.Range fixrangeargs ismut (some k) (some k) "none" reverse callb
      = ([], snapshot.stats) ∧
    (snapshot.Iterate fixrangeargs rangefill iter maxkeysize maxlimit ismut (some k) (some k)
      "none" reverse).1 = none ∧
    snapshot.Range fixrangeargs ismut (some k) (some k) "low" reverse callb
      = snapshot.Range fixrangeargs ismut (some k) (some k) "both" reverse callb ∧
    snapshot.Range fixrangeargs ismut (some k) (some k) "high" reverse callb
      = snapshot.Range fixrangeargs ismut (some k) (some k) "both" reverse callb ∧
    snapshot.Iterate fixrangeargs rangefill iter maxkeysize maxlimit ismut (some k) (some k)
        "low" reverse
      = snapshot.Iterate fixrangeargs rangefill iter maxkeysize maxlimit ismut (some k) (some k)
        "both" reverse ∧
    snapshot.Iterate fixrangeargs rangefill iter maxkeysize maxlimit ismut (some k) (some k)
        "high" reverse
      = snapshot.Iterate fixrangeargs rangefill iter maxkeysize maxlimit ismut (some k) (some k)
        "both" reverse := by
  rcases hfix : fixrangeargs (some k) (some k) with ⟨lk, hk⟩
  rw [hfix] at hl hh heq
  simp only at hl hh heq
  subst heq
  refine ⟨?_, ?_, ?_, ?_, ?_, ?_⟩ <;>
    simp [LLRBSnapshot.Range, LLRBSnapshot.Iterate, hfix, hl]

theorem Range_equal_bounds_witness :
    snapshotSample.Range (fun l h => (l, h)) 0 (some [5]) (some [5]) "none" false 9
      = ([], snapshotSample.stats) ∧
    (snapshotSample.Iterate (fun l h => (l, h)) id iterSample 16 100 0 (some [5]) (some [5])
      "none" false).1 = none ∧
    snapshotSample.Range (fun l h => (l, h)) 0 (some [5]) (some [5]) "low" false 9
      = snapshotSample.Range (fun l h => (l, h)) 0 (some [5]) (some [5]) "both" false 9 ∧
    snapshotSample.Range (fun l h => (l, h)) 0 (some [5]) (some [5]) "high" false 9
      = snapshotSample.Range (fun l h => (l, h)) 0 (some [5]) (some [5]) "both" false 9 ∧
    snapshotSample.Iterate (fun l h => (l, h)) id iterSample 16 100 0 (some [5]) (some [5])
        "low" false
      = snapshotSample.Iterate (fun l h => (l, h)) id iterSample 16 100 0 (some [5]) (some [5])
        "both" false ∧
    snapshotSample.Iterate (fun l h => (l, h)) id iterSample 16 100 0 (some [5]) (some [5])
        "high" false
      = snapshotSample.Iterate (fun l h => (l, h)) id iterSample 16 100 0 (some [5]) (some [5])
        "both" false :=
  Range_equal_bounds snapshotSample (fun l h => (l, h)) id iterSample 16 100 0 [5] false 9
    (by decide) (by decide) rfl

/-- C33, as stated, fails for the non-nil empty key when `fixrangeargs` turns an empty bound
into nil: the bounds tested are then both nil, `Range` with incl "none" calls the walker
`rangehtlt` over the whole tree, and `Iterate` with incl "none" returns an iterator. -/
theorem Range_empty_key_walks :
    fixEmpty (some []) (some []) = (none, none) ∧
    (snapshotSample.Range fixEmpty 0 (some []) (some []) "none" false 9).1
      = [{ walker := .rangehtlt, root := snapshotSample.root, lkey := none, hkey := none,
           callb := 9 }] ∧
    (snapshotSample.Iterate fixEmpty id iterSample 16 100 0 (some []) (some []) "none" false).1
      ≠ none := by
  refine ⟨?_, ?_, ?_⟩ <;> decide

/-! ## reachable pools -/

theorem scanfree_found (bytes : List Nat) :
    ∀ i : Nat, scanfree bytes i = -1 ∨
      ∃ j b, scanfree bytes i = ((i + j : Nat) : Int) ∧ bytes[j]? = some b ∧ b ≠ 0 := by
  induction bytes with
  | nil => intro i; exact Or.inl rfl
  | cons b rest ih =>
    intro i
    unfold scanfree
    by_cases hb : 0 < b
    · rw [if_pos hb]
      exact Or.inr ⟨0, b, rfl, by simp, by omega⟩
    · rw [if_neg hb]
      rcases ih (i + 1) with h | ⟨j, c, h1, h2, h3⟩
      · exact Or.inl h
      · refine Or.inr ⟨j + 1, c, ?_, by simpa using h2, h3⟩
        rw [h1]
        congr 1
        omega

theorem or_ne_zero_of_right (a b : Nat) (hb : b ≠ 0) : a ||| b ≠ 0 := by
  intro h
  apply hb
  apply Nat.eq_of_testBit_eq
  intro i
  have hi := congrArg (fun x => Nat.testBit x i) h
  simp only [Nat.testBit_or, Nat.zero_testBit, Bool.or_eq_false_iff] at hi
  rw [hi.2, Nat.zero_testBit]

theorem setbit8_ne_zero (byt n : Nat) (hn : n < 8) : setbit8 byt n ≠ 0 := by
  unfold setbit8
  apply or_ne_zero_of_right
  interval_cases n <;> decide

theorem alloc_freeoffValid (pool pool1 : mempool) (r : Option Nat)
    (h : pool.alloc = .ok (r, pool1)) : pool1.freeoffValid := by
  unfold mempool.alloc at h
  split at h
  next hneg =>
    cases h
    exact Or.inl hneg
  next hpos =>
    split at h
    · cases h
    next byt hbyt =>
      split at h
      · cases h
      · simp only [Except.ok.injEq, Prod.mk.injEq] at h
        obtain ⟨_, rfl⟩ := h
        unfold mempool.freeoffValid
        simp only
        rcases scanfree_found
          ((pool.freelist.set pool.freeoff.toNat
            (clearbit8 byt (findfirstset8 byt))).drop pool.freeoff.toNat) pool.freeoff.toNat
          with h1 | ⟨j, b, h1, h2, h3⟩
        · left
          rw [h1]
          decide
        · right
          rw [h1]
          refine ⟨b, ?_, h3⟩
          rw [List.getElem?_drop] at h2
          rw [Int.toNat_ofNat]
          exact h2

theorem free_freeoffValid (pool pool1 : mempool) (ptr : Nat) (hv : pool.freeoffValid)
    (h : pool.free ptr = .ok pool1) : pool1.freeoffValid := by
  unfold mempool.free at h
  split at h
  · cases h
  · simp only at h
    split at h
    · cases h
    next hoff =>
      split at h
      · cases h
      next byt hbyt =>
        cases h
        unfold mempool.freeoffValid
        simp only
        have hk : ((((ptr : Int) - (pool.base : Int)) / pool.size) % 8).toNat < 8 := by omega
        have hlen : ((((ptr : Int) - (pool.base : Int)) / pool.size) / 8).toNat
            < pool.freelist.length := by
          by_contra hc
          rw [List.getElem?_eq_none (by omega)] at hbyt
          cases hbyt
        by_cases hlt : (((ptr : Int) - (pool.base : Int)) / pool.size) / 8 < pool.freeoff
        · rw [if_pos hlt]
          right
          exact ⟨_, by rw [List.getElem?_set_self hlen], setbit8_ne_zero _ _ hk⟩
        · rw [if_neg hlt]
          rcases hv with hv | ⟨b, hb1, hb2⟩
          · exact Or.inl hv
          · right
            by_cases heq : ((((ptr : Int) - (pool.base : Int)) / pool.size) / 8).toNat
                = pool.freeoff.toNat
            · rw [← heq]
              exact ⟨_, by rw [List.getElem?_set_self hlen], setbit8_ne_zero _ _ hk⟩
            · exact ⟨b, by rw [List.getElem?_set_ne heq]; exact hb1, hb2⟩

theorem reached_freeoffValid (pool0 pool : mempool) (live : List Nat)
    (h0 : pool0.freeoffValid) (hr : mempool.Reached pool0 pool live) : pool.freeoffValid := by
  induction hr with
  | fresh => exact h0
  | alloc p p1 l ptr _ ha _ => exact alloc_freeoffValid p p1 (some ptr) ha
  | full p p1 l _ ha _ => exact alloc_freeoffValid p p1 none ha
  | free p p1 l ptr _ _ hf ih => exact free_freeoffValid p p1 ptr ih hf

theorem newmempool_freeoffValid (size n : Int) (base : Nat) (pool0 : mempool) (hn : 8 ≤ n)
    (hnew : newmempool size n base = .ok pool0) : pool0.freeoffValid := by
  rw [newmempool_eq_poolAfter size n base (by omega)] at hnew
  cases hnew
  right
  have hB : 1 ≤ ((n + 7) / 8).toNat := by omega
  refine ⟨0xff, ?_, by decide⟩
  simp only [poolAfter, Nat.zero_div, List.replicate_zero, List.nil_append,
    if_pos (show 0 < ((n + 7) / 8).toNat by omega), Nat.zero_mod, pow_zero, Int.toNat_zero]
  simp

/-- C34: for every pool reached from a fresh pool of at least 8 blocks by calls of `alloc` and
calls of `free` on blocks handed out before, whenever `freeoff >= 0` the byte of the
free list at index `freeoff` is not zero, and `alloc` returns without a panic. -/
theorem alloc_never_invalid_freeoff (size n : Int) (base : Nat) (pool0 pool : mempool)
    (live : List Nat) (hn : 8 ≤ n) (hnew : newmempool size n base = .ok pool0)
    (hr : mempool.Reached pool0 pool live) :
    (0 ≤ pool.freeoff → ∃ byt, pool.freelist[pool.freeoff.toNat]? = some byt ∧ byt ≠ 0) ∧
    ∃ r, pool.alloc = .ok r := by
  have hv := reached_freeoffValid pool0 pool live
    (newmempool_freeoffValid size n base pool0 hn hnew) hr
  constructor
  · intro hpos
    rcases hv with h | h
    · omega
    · exact h
  · unfold mempool.alloc
    rcases hv with h | ⟨byt, h1, h2⟩
    · exact ⟨_, by rw [if_pos h]⟩
    · by_cases hneg : pool.freeoff < 0
      · exact ⟨_, by rw [if_pos hneg]⟩
      · rw [if_neg hneg, h1]
        simp only [if_neg h2]
        exact ⟨_, rfl⟩

theorem alloc_never_invalid_freeoff_witness :
    (0 ≤ (poolAfter 32 1000 1 1).freeoff →
      ∃ byt, (poolAfter 32 1000 1 1).freelist[(poolAfter 32 1000 1 1).freeoff.toNat]? = some byt ∧
        byt ≠ 0) ∧
    ∃ r, (poolAfter 32 1000 1 1).alloc = .ok r :=
  alloc_never_invalid_freeoff 32 8 1000 (poolAfter 32 1000 1 0) (poolAfter 32 1000 1 1) [1000]
    (by decide) (by decide)
    (mempool.Reached.alloc (poolAfter 32 1000 1 0) (poolAfter 32 1000 1 1) [] 1000
      mempool.Reached.fresh (by decide))

/-! ## allocated, arena alloc, insert without room, flush target, recovery of an empty directory -/

/-- C35: on a fresh pool of 32 blocks of 32 bytes, where no block is handed out,
`allocated()` is 2048, twice the capacity of 1024, and `available()` is -1024: the words of
the free list are read with `binary.Uvarint`, which yields 0 for four bytes `0xff`. -/
theorem allocated_fresh_pool_not_zero :
    newmempool 32 32 1000 = .ok poolFresh32 ∧
    poolFresh32.handedout = 0 ∧
    Uvarint [0xff, 0xff, 0xff, 0xff] = (0, 0) ∧
    poolFresh32.allocated = 2048 ∧
    poolFresh32.capacity = 1024 ∧
    poolFresh32.available = -1024 := by
  refine ⟨?_, ?_, ?_, ?_, ?_, ?_⟩ <;> decide

/-- C36: on the arena for the block sizes 32 and 64 with a capacity of 64 bytes, `alloc(33)`
panics: the new pool for the size 64 gets `(64 / 2) / 64 = 0` blocks, and its `alloc` reads
byte 0 of an empty free list. -/
theorem alloc_small_capacity_panics :
    newmemarena 32 64 64 = .ok arenaSmall ∧
    SuitableSize arenaSmall.blocksizes 33 = some 64 ∧
    newmempool 64 0 1000 = .ok ⟨0, 64, 1000, [], 0⟩ ∧
    arenaSmall.alloc 33 1000 = .error "index out of range" := by
  refine ⟨?_, ?_, ?_, ?_⟩ <;> set_option maxRecDepth 1000000 in decide

/-- C37: when `insert` of a child returns false for lack of room, the entries, the packed key
buffer and the first key are as before, but the collected child values have grown by the
value that `reduce()` of the child returned. -/
theorem insert_false_appends_value (m m1 : mblock) (b : blocker) (r : List Nat)
    (hr : b.reduce = .ok r) (h : m.insert (some b) = .ok (false, m1)) :
    m1.values = m.values ++ [r] ∧ m1.entries = m.entries ∧ m1.kbuffer = m.kbuffer ∧
    m1.firstkey = m.firstkey := by
  unfold mblock.insert at h
  simp only [hr] at h
  split at h
  · simp only [Except.ok.injEq, Prod.mk.injEq, true_and] at h
    subst h
    exact ⟨rfl, rfl, rfl, rfl⟩
  · split at h
    · cases h
    · simp only [Except.ok.injEq, Prod.mk.injEq, Bool.true_eq_false, false_and] at h

theorem insert_false_appends_value_witness :
    ({ mblockReduceOne with values := [[], []] } : mblock).values = mblockReduceOne.values ++ [[]] ∧
    ({ mblockReduceOne with values := [[], []] } : mblock).entries = mblockReduceOne.entries ∧
    ({ mblockReduceOne with values := [[], []] } : mblock).kbuffer = mblockReduceOne.kbuffer ∧
    ({ mblockReduceOne with values := [[], []] } : mblock).firstkey = mblockReduceOne.firstkey :=
  insert_false_appends_value mblockReduceOne { mblockReduceOne with values := [[], []] } childB []
    rfl (by decide)

/-- C38: with `mreduce` on and `msize = 24`, the insert of a child with the key "ab" into the
empty m-block returns true, the block reached has `4 + 4*1 + 20 = 28` bytes to lay out,
more than `msize`, and `finalize` panics with "mblock buffer overflow". -/
theorem mblock_overflows_with_mreduce :
    mblockReduce.f.mreduce = true ∧ 4 ≤ mblockReduce.f.mblocksize ∧
    mblockReduce.insert (some childA) = .ok (true, mblockReduceOne) ∧
    mblock.Reached mblockReduce mblockReduceOne ∧
    ¬ (4 + 4 * (mblockReduceOne.entries.length : Int) + mblockReduceOne.kbuffer.length
        ≤ mblockReduceOne.f.mblocksize) ∧
    mblockReduceOne.finalize = .error "mblock buffer overflow" := by
  refine ⟨rfl, by decide, by decide, ?_, by decide, by decide⟩
  exact mblock.Reached.step mblockReduce mblockReduceOne (some childA) true
    mblock.Reached.start (by decide)

/-- C39: on a snapshot of 16 levels whose only disk is at level 0, `pickflushdisk` returns the
level -1: `(nil, -1, 1)` when `disk0` is that disk, and `(disk, -1, 1)` when `disk0` is a
disk of level 3 and `memheap / footprint` is above `ratio`. -/
theorem pickflushdisk_level_below_zero :
    snapLevelZero.disks.length = 16 ∧
    bognQuarter.pickflushdisk snapLevelZero (some ⟨"bogn-0-1-a", 10⟩) = .ok (none, -1, 1) ∧
    bognQuarter.pickflushdisk snapLevelZero (some ⟨"bogn-3-1-z", 10⟩)
      = .ok (some ⟨"bogn-0-1-a", 10⟩, -1, 1) := by
  refine ⟨?_, ?_, ?_⟩ <;> set_option maxRecDepth 1000000 in decide

/-- C40: `opendisksnaps` panics on an empty directory, and on a directory whose three files
all open but leave 14 levels without a disk: the loop that logs `disk.ID()` for each of the
16 slots calls the method on a nil slot. -/
theorem opendisksnaps_panics_on_empty_level :
    bognQuarter.opendisksnaps openAll (fun _ => .ok []) ["/opt/bogn/"]
      = .error "nil pointer dereference" ∧
    (∀ f ∈ filesSample, ∃ d, openAll f = .ok d) ∧
    bognQuarter.opendisksnaps openAll (fun _ => .ok filesSample) ["/opt/bogn/"]
      = .error "nil pointer dereference" := by
  refine ⟨?_, fun f _ => ⟨⟨f, 100⟩, rfl⟩, ?_⟩ <;> set_option maxRecDepth 1000000 in decide

end Gostore
